import Mathlib

/-! # sendfile: header codec and resumable transfer

A shallow embedding of `main.go` (package `main` of the `sendfile` tool) and
of the parts of the Go standard library that decide what the program does:

* `unicode/utf8` (`FullRune`, `DecodeRune`, `AppendRune`),
* `fmt` scanning (`Fscanf` with the verbs `%s` and `%d`, spaces and newlines
  in the format, the one-rune look-ahead of `readRune`),
* `fmt.Sprintf` with `%s` and `%d`, `strconv.ParseInt` in base 10,
* `path/filepath.Split`, `os.File` (`Stat`, `Seek`, append-mode writes),
  `net.TCPConn` (`Write`, `ReadFrom`) and `io.Copy`.

Bytes and runes are natural numbers; a Go string is the list of its bytes.
A byte is a number below 256: every function is total on lists of naturals
and treats a value above `0xF4` the way Go treats the bytes `0xF5..0xFF`.
`int64` values are integers, range-checked where Go checks them.

Not modelled: the per-call rune budget of the scanner (`hugeWid`, 2^30 runes),
blocking, and the command line.
-/

namespace Sendfile

/-! ## Outcomes of stateful, fallible operations -/

/-- Outcome of an operation on a state `σ`: a value and the new state, or an
error and the state reached when it was raised. -/
inductive Res (ε σ α : Type) where
  | ok (a : α) (s : σ)
  | err (e : ε) (s : σ)
deriving DecidableEq, Repr

/-! ## unicode/utf8 -/

/-- The constant utf8.RuneError, U+FFFD. -/
def RuneError : Nat := 0xFFFD

/-- The constant utf8.RuneSelf: bytes below it are single-byte runes. -/
def RuneSelf : Nat := 0x80

/-- Low three bits of `first[b]`: 0 for ASCII, 1 for an invalid lead byte,
otherwise the length of the sequence that `b` starts. -/
def firstSize (b : Nat) : Nat :=
  if b < 0x80 then 0
  else if b < 0xC2 then 1
  else if b < 0xE0 then 2
  else if b < 0xF0 then 3
  else if b < 0xF5 then 4
  else 1

/-- Lower bound `acceptRanges[first[b]>>4].lo` for the second byte. -/
def acceptLo (b : Nat) : Nat :=
  if b = 0xE0 then 0xA0 else if b = 0xF0 then 0x90 else 0x80

/-- Upper bound `acceptRanges[first[b]>>4].hi` for the second byte. -/
def acceptHi (b : Nat) : Nat :=
  if b = 0xED then 0x9F else if b = 0xF4 then 0x8F else 0xBF

/-- Continuation byte test: `locb <= b && b <= hicb`. -/
def isCont (b : Nat) : Bool := 0x80 ≤ b && b ≤ 0xBF

/-- The function utf8.FullRune: do the bytes begin with a full encoding of a
rune (an invalid encoding counts as a full rune of width 1)? -/
def fullRune (p : List Nat) : Bool :=
  match p with
  | [] => false
  | p0 :: t =>
    if firstSize p0 ≤ p.length then true
    else
      match t with
      | [] => false
      | p1 :: t1 =>
        if p1 < acceptLo p0 || acceptHi p0 < p1 then true
        else
          match t1 with
          | [] => false
          | p2 :: _ => !isCont p2

/-- The function utf8.DecodeRune: the first rune of `p` and its width in
bytes; `(RuneError, 1)` for an invalid or incomplete encoding and
`(RuneError, 0)` for no bytes. The masks and shifts of the Go code are
written with `%`, `*` and `+`. -/
def decodeRune (p : List Nat) : Nat × Nat :=
  match p with
  | [] => (RuneError, 0)
  | p0 :: t =>
    if firstSize p0 = 0 then (p0, 1)
    else if firstSize p0 = 1 then (RuneError, 1)
    else if p.length < firstSize p0 then (RuneError, 1)
    else
      match t with
      | [] => (RuneError, 1)
      | b1 :: t1 =>
        if b1 < acceptLo p0 || acceptHi p0 < b1 then (RuneError, 1)
        else if firstSize p0 ≤ 2 then ((p0 % 32) * 64 + b1 % 64, 2)
        else
          match t1 with
          | [] => (RuneError, 1)
          | b2 :: t2 =>
            if !isCont b2 then (RuneError, 1)
            else if firstSize p0 ≤ 3 then
              ((p0 % 16) * 4096 + (b1 % 64) * 64 + b2 % 64, 3)
            else
              match t2 with
              | [] => (RuneError, 1)
              | b3 :: _ =>
                if !isCont b3 then (RuneError, 1)
                else
                  ((p0 % 8) * 262144 + (b1 % 64) * 4096 + (b2 % 64) * 64 + b3 % 64, 4)

/-- The function utf8.AppendRune, as the bytes appended for the rune `r`:
surrogates and values above U+10FFFF are written as U+FFFD. -/
def encodeRune (r : Nat) : List Nat :=
  if r ≤ 0x7F then [r]
  else if r ≤ 0x7FF then [0xC0 + r / 64, 0x80 + r % 64]
  else if 0x10FFFF < r || (0xD800 ≤ r && r ≤ 0xDFFF) then [0xEF, 0xBF, 0xBD]
  else if r ≤ 0xFFFF then [0xE0 + r / 4096, 0x80 + r / 64 % 64, 0x80 + r % 64]
  else [0xF0 + r / 262144, 0x80 + r / 4096 % 64, 0x80 + r / 64 % 64, 0x80 + r % 64]

/-- UTF-8 encoding of a sequence of runes. -/
def encodeRunes (rs : List Nat) : List Nat :=
  match rs with
  | [] => []
  | r :: t => encodeRune r ++ encodeRunes t

/-- A Unicode scalar value: what a valid UTF-8 encoding can stand for. -/
def validRune (r : Nat) : Bool := r < 0xD800 || (0xE000 ≤ r && r ≤ 0x10FFFF)

/-- The runes of a byte string from its `skip`-th byte on, as a Go `range`
loop over the string yields them: DecodeRune at each position, U+FFFD and one
byte forward at a byte that starts no valid encoding. -/
def runesFrom (skip : Nat) (p : List Nat) : List Nat :=
  match skip, p with
  | _, [] => []
  | 0, b :: t => (decodeRune (b :: t)).1 :: runesFrom ((decodeRune (b :: t)).2 - 1) t
  | k + 1, _ :: t => runesFrom k t

/-- The runes of a byte string (the conversion `[]rune(s)`). -/
def runes (p : List Nat) : List Nat := runesFrom 0 p

/-! ## Readers -/

/-- Input side of an io.Reader: the bytes still to be read, and what a read
reports once they are used up: end of file (`broken = false`, the peer closed)
or an error (`broken = true`). -/
structure Stream where
  data : List Nat
  broken : Bool
deriving DecidableEq, Repr

/-- Errors of a read: io.EOF, or any other error. -/
inductive IOErr where
  | EOF
  | other
deriving DecidableEq, Repr

/-- The struct fmt.readRune, which wraps a reader that has no ReadRune and
UnreadRune of its own (a *net.TCPConn has none). Go keeps `last` and `avail`
in the one field `peekRune`: the rune itself when it is available again after
UnreadRune, its complement after it was read; `-1` at the start. -/
structure readRune where
  reader : Stream
  pendBuf : List Nat
  last : Nat
  avail : Bool
deriving DecidableEq, Repr

/-- The wrapper that newScanState builds around a reader. -/
def newReadRune (r : Stream) : readRune :=
  { reader := r, pendBuf := [], last := 0, avail := false }

/-- The method readRune.readByte: a pending byte if there is one, else one byte
from the reader. -/
def readRune.readByte (r : readRune) : Res IOErr readRune Nat :=
  match r.pendBuf with
  | b :: p => .ok b { r with pendBuf := p }
  | [] =>
    match r.reader.data with
    | b :: d => .ok b { r with reader := { r.reader with data := d } }
    | [] => .err (if r.reader.broken then IOErr.other else IOErr.EOF) r

/-- The loop of readRune.ReadRune that reads bytes until they hold a full
rune; end of file ends it with the bytes read so far. At most three bytes
are added to the first. -/
def readRune.fill : Nat → List Nat → readRune → Res IOErr readRune (List Nat)
  | 0, buf, r => .ok buf r
  | fuel + 1, buf, r =>
    if fullRune buf then .ok buf r
    else
      match r.readByte with
      | .ok b r1 => readRune.fill fuel (buf ++ [b]) r1
      | .err IOErr.EOF r1 => .ok buf r1
      | .err e r1 => .err e r1

/-- The method readRune.ReadRune. -/
def readRune.ReadRune (r : readRune) : Res IOErr readRune Nat :=
  if r.avail then .ok r.last { r with avail := false }
  else
    match r.readByte with
    | .err e r1 => .err e r1
    | .ok b0 r1 =>
      if b0 < RuneSelf then .ok b0 { r1 with last := b0, avail := false }
      else
        match readRune.fill 4 [b0] r1 with
        | .err e r2 => .err e r2
        | .ok buf r2 =>
          let d := decodeRune buf
          .ok d.1 { r2 with pendBuf := r2.pendBuf ++ buf.drop d.2, last := d.1, avail := false }

/-- The method readRune.UnreadRune: make the last rune available again. -/
def readRune.UnreadRune (r : readRune) : readRune :=
  { r with avail := true }

/-! ## fmt: the scan state -/

/-- The function fmt.isSpace: the table `space` of Unicode white space. -/
def isSpace (r : Nat) : Bool :=
  (0x0009 ≤ r && r ≤ 0x000D) || r = 0x0020 || r = 0x0085 || r = 0x00A0 || r = 0x1680 ||
  (0x2000 ≤ r && r ≤ 0x200A) || r = 0x2028 || r = 0x2029 || r = 0x202F || r = 0x205F ||
  r = 0x3000

/-- A byte string without white space: none of its runes is a space. -/
def whitespaceFree (p : List Nat) : Bool := (runes p).all fun r => !isSpace r

/-- The errors that a scan reports (Go raises them with panic inside the scan
and hands them back from Fscanf). -/
inductive ScanError where
  | EOF
  | ErrUnexpectedEOF
  | readError
  | inputDoesNotMatchFormat
  | newlineInFormatDoesNotMatchInput
  | expectedSpaceInInput
  | newlineInInputDoesNotMatchFormat
  | unexpectedNewline
  | expectedInteger
  | ErrSyntax
  | ErrRange
  | missingVerb
  | missingLiteralPercent
  | badVerb
  | tooFewOperands
  | tooManyOperands
deriving DecidableEq, Repr

/-- The struct fmt.ss: the rune reader, the token buffer and the end-of-file
mark. `nlIsSpace` and `nlIsEnd` are false for Fscanf and are not stored. -/
structure ss where
  rs : readRune
  buf : List Nat
  atEOF : Bool
deriving DecidableEq, Repr

/-- Outcome of a scan step. -/
abbrev Scan (α : Type) := Res ScanError ss α

/-- The function newScanState for a reader without ReadRune. -/
def newScanState (r : Stream) : ss :=
  { rs := newReadRune r, buf := [], atEOF := false }

/-- The method ss.ReadRune. -/
def ss.ReadRune (s : ss) : Res IOErr ss Nat :=
  if s.atEOF then .err IOErr.EOF s
  else
    match s.rs.ReadRune with
    | .ok r rs1 => .ok r { s with rs := rs1 }
    | .err IOErr.EOF rs1 => .err IOErr.EOF { s with rs := rs1, atEOF := true }
    | .err e rs1 => .err e { s with rs := rs1 }

/-- The method ss.getRune: the next rune, `none` at end of file; any other
read error ends the scan. -/
def ss.getRune (s : ss) : Scan (Option Nat) :=
  match s.ReadRune with
  | .ok r s1 => .ok (some r) s1
  | .err IOErr.EOF s1 => .ok none s1
  | .err IOErr.other s1 => .err ScanError.readError s1

/-- The method ss.mustReadRune: end of file is io.ErrUnexpectedEOF. -/
def ss.mustReadRune (s : ss) : Scan Nat :=
  match s.getRune with
  | .ok (some r) s1 => .ok r s1
  | .ok none s1 => .err ScanError.ErrUnexpectedEOF s1
  | .err e s1 => .err e s1

/-- The method ss.UnreadRune. -/
def ss.UnreadRune (s : ss) : ss :=
  { s with rs := s.rs.UnreadRune, atEOF := false }

/-- The method ss.consume: read a rune; if it is one of `okSet` keep it (in
the token buffer when `accept` is set), else put it back when `accept` is
set. -/
def ss.consume (s : ss) (okSet : List Nat) (accept : Bool) : Scan Bool :=
  match s.getRune with
  | .err e s1 => .err e s1
  | .ok none s1 => .ok false s1
  | .ok (some r) s1 =>
    if r ∈ okSet then
      .ok true (if accept then { s1 with buf := s1.buf ++ encodeRune r } else s1)
    else
      .ok false (if accept then s1.UnreadRune else s1)

/-- The method ss.accept. -/
def ss.accept (s : ss) (okSet : List Nat) : Scan Bool :=
  s.consume okSet true

/-- The method ss.peek: is the next rune one of `okSet`? The rune stays. -/
def ss.peek (s : ss) (okSet : List Nat) : Scan Bool :=
  match s.getRune with
  | .err e s1 => .err e s1
  | .ok none s1 => .ok false s1
  | .ok (some r) s1 => .ok (decide (r ∈ okSet)) s1.UnreadRune

/-- The method ss.notEOF: io.EOF when no rune is left. -/
def ss.notEOF (s : ss) : Scan Unit :=
  match s.getRune with
  | .err e s1 => .err e s1
  | .ok none s1 => .err ScanError.EOF s1
  | .ok (some _) s1 => .ok () s1.UnreadRune

/-- Number of loop turns that the runes still to come can pay for: every
turn of a scanning loop takes one rune, and a rune is the one that was put
back or at least one byte. -/
def ss.fuel (s : ss) : Nat :=
  s.rs.pendBuf.length + s.rs.reader.data.length + 2

/-- The loop of ss.SkipSpace (with nlIsSpace false): skip spaces, stop in
front of the first other rune, fail on a newline. -/
def ss.SkipSpaceLoop : Nat → ss → Scan Unit
  | 0, s => .ok () s
  | fuel + 1, s =>
    match s.getRune with
    | .err e s1 => .err e s1
    | .ok none s1 => .ok () s1
    | .ok (some r) s1 =>
      let crlf : Scan Bool := if r = 13 then s1.peek [10] else .ok false s1
      match crlf with
      | .err e s2 => .err e s2
      | .ok true s2 => ss.SkipSpaceLoop fuel s2
      | .ok false s2 =>
        if r = 10 then .err ScanError.unexpectedNewline s2
        else if !isSpace r then .ok () s2.UnreadRune
        else ss.SkipSpaceLoop fuel s2

/-- The method ss.SkipSpace. -/
def ss.SkipSpace (s : ss) : Scan Unit :=
  ss.SkipSpaceLoop s.fuel s

/-- The loop of ss.token with the predicate notSpace: gather runes into the
token buffer up to a space or the end of the input. -/
def ss.tokenLoop : Nat → ss → Scan Unit
  | 0, s => .ok () s
  | fuel + 1, s =>
    match s.getRune with
    | .err e s1 => .err e s1
    | .ok none s1 => .ok () s1
    | .ok (some r) s1 =>
      if isSpace r then .ok () s1.UnreadRune
      else ss.tokenLoop fuel { s1 with buf := s1.buf ++ encodeRune r }

/-- The call `s.token(true, notSpace)`, the next space-delimited word. -/
def ss.token (s : ss) : Scan (List Nat) :=
  match s.SkipSpace with
  | .err e s1 => .err e s1
  | .ok _ s1 =>
    match ss.tokenLoop s1.fuel s1 with
    | .err e s2 => .err e s2
    | .ok _ s2 => .ok s2.buf s2

/-- The method ss.convertString for the verb `%s`. -/
def ss.convertString (s : ss) : Scan (List Nat) :=
  match s.SkipSpace with
  | .err e s1 => .err e s1
  | .ok _ s1 =>
    match s1.notEOF with
    | .err e s2 => .err e s2
    | .ok _ s2 => s2.token

/-! ## strconv and the verb %d -/

/-- The digit loop of strconv.ParseUint in base 10 and 64 bits: ErrSyntax at
a byte that is no decimal digit (the underscore included), ErrRange as soon
as the value leaves uint64. -/
def ParseUint (n : Nat) (tok : List Nat) : Except ScanError Nat :=
  match tok with
  | [] => .ok n
  | c :: t =>
    if 48 ≤ c && c ≤ 57 then
      if (2 ^ 64 - 1) / 10 + 1 ≤ n then .error ScanError.ErrRange
      else if 2 ^ 64 - 1 < n * 10 + (c - 48) then .error ScanError.ErrRange
      else ParseUint (n * 10 + (c - 48)) t
    else .error ScanError.ErrSyntax

/-- The call `strconv.ParseInt(tok, 10, 64)`: an optional sign, at least one
digit, and a value in the range of int64. -/
def ParseInt (tok : List Nat) : Except ScanError Int :=
  match tok with
  | [] => .error ScanError.ErrSyntax
  | c :: t =>
    let neg : Bool := c = 45
    let body : List Nat := if c = 43 || c = 45 then t else tok
    if body = [] then .error ScanError.ErrSyntax
    else
      match ParseUint 0 body with
      | .error e => .error e
      | .ok un =>
        if !neg && 2 ^ 63 ≤ un then .error ScanError.ErrRange
        else if neg && 2 ^ 63 < un then .error ScanError.ErrRange
        else .ok (if neg then - (un : Int) else (un : Int))

/-- The runes that the verb `%d` takes for digits: `"0123456789_"`. -/
def decimalDigits : List Nat := [48, 49, 50, 51, 52, 53, 54, 55, 56, 57, 95]

/-- The runes of a sign: `"+-"`. -/
def sign : List Nat := [43, 45]

/-- The loop `for s.accept(digits) {}` of ss.scanNumber. -/
def ss.acceptLoop : Nat → ss → Scan Unit
  | 0, s => .ok () s
  | fuel + 1, s =>
    match s.accept decimalDigits with
    | .err e s1 => .err e s1
    | .ok false s1 => .ok () s1
    | .ok true s1 => ss.acceptLoop fuel s1

/-- The method ss.scanNumber for decimal digits (haveDigits false): at least
one digit, then all that follow; the token is the buffer. -/
def ss.scanNumber (s : ss) : Scan (List Nat) :=
  match s.notEOF with
  | .err e s1 => .err e s1
  | .ok _ s1 =>
    match s1.accept decimalDigits with
    | .err e s2 => .err e s2
    | .ok false s2 => .err ScanError.expectedInteger s2
    | .ok true s2 =>
      match ss.acceptLoop s2.fuel s2 with
      | .err e s3 => .err e s3
      | .ok _ s3 => .ok s3.buf s3

/-- The call `s.scanInt('d', 64)`. -/
def ss.scanInt (s : ss) : Scan Int :=
  match s.SkipSpace with
  | .err e s1 => .err e s1
  | .ok _ s1 =>
    match s1.notEOF with
    | .err e s2 => .err e s2
    | .ok _ s2 =>
      match s2.accept sign with
      | .err e s3 => .err e s3
      | .ok _ s3 =>
        match s3.scanNumber with
        | .err e s4 => .err e s4
        | .ok tok s4 =>
          match ParseInt tok with
          | .error e => .err e s4
          | .ok i => .ok i s4

/-- The method ss.scanPercent: a literal percent sign in the input. -/
def ss.scanPercent (s : ss) : Scan Unit :=
  match s.SkipSpace with
  | .err e s1 => .err e s1
  | .ok _ s1 =>
    match s1.notEOF with
    | .err e s2 => .err e s2
    | .ok _ s2 =>
      match s2.accept [37] with
      | .err e s3 => .err e s3
      | .ok false s3 => .err ScanError.missingLiteralPercent s3
      | .ok true s3 => .ok () s3

/-! ## fmt: the format interpreter -/

/-- Kinds of the pointers handed to Fscanf by this program. -/
inductive Arg where
  | string
  | int64
deriving DecidableEq, Repr

/-- A scanned value. -/
inductive Val where
  | str (v : List Nat)
  | int (v : Int)
deriving DecidableEq, Repr

/-- The method ss.scanOne for a `*string` and an `*int64`: the buffer is
emptied, then the verb must suit the argument. A `*string` is modelled for
the verb `%s` and an `*int64` for `%d`; another verb is badVerb. -/
def ss.scanOne (s : ss) (verb : Nat) (arg : Arg) : Scan Val :=
  let s0 : ss := { s with buf := [] }
  match arg with
  | Arg.string =>
    if verb = 115 then
      match s0.convertString with
      | .err e s1 => .err e s1
      | .ok v s1 => .ok (Val.str v) s1
    else .err ScanError.badVerb s0
  | Arg.int64 =>
    if verb = 100 then
      match s0.scanInt with
      | .err e s1 => .err e s1
      | .ok v s1 => .ok (Val.int v) s1
    else .err ScanError.badVerb s0

/-- The first loop of the space processing of ss.advance: run over the spaces
of the format, count the newlines and note whether spaces follow the last
newline. Gives the counts and the number of format runes passed. -/
def spaceRun (format : List Nat) (newlines : Nat) (trailingSpace : Bool) (i : Nat) :
    Nat × Bool × Nat :=
  match format with
  | [] => (newlines, trailingSpace, i)
  | c :: t =>
    if isSpace c then
      if c = 10 then spaceRun t (newlines + 1) false (i + 1)
      else spaceRun t newlines true (i + 1)
    else (newlines, trailingSpace, i)

/-- The loop `for isSpace(inputc) && inputc != '\n' { inputc = s.getRune() }`
of ss.advance. -/
def ss.skipBlanks : Nat → Option Nat → ss → Scan (Option Nat)
  | 0, inputc, s => .ok inputc s
  | fuel + 1, inputc, s =>
    match inputc with
    | none => .ok none s
    | some r =>
      if isSpace r && r ≠ 10 then
        match s.getRune with
        | .err e s1 => .err e s1
        | .ok c s1 => ss.skipBlanks fuel c s1
      else .ok (some r) s

/-- The loop of ss.advance over the newlines of the format: each matches
spaces and then a newline or the end of the input. -/
def ss.matchNewlines : Nat → ss → Scan Unit
  | 0, s => .ok () s
  | j + 1, s =>
    match s.getRune with
    | .err e s1 => .err e s1
    | .ok c s1 =>
      match ss.skipBlanks s1.fuel c s1 with
      | .err e s2 => .err e s2
      | .ok inputc s2 =>
        if inputc ≠ some 10 && inputc ≠ none then
          .err ScanError.newlineInFormatDoesNotMatchInput s2
        else ss.matchNewlines j s2

/-- The trailing-space step of ss.advance: spaces of the format after its
last newline, or standing alone. -/
def ss.matchTrailingSpace (s : ss) (newlines : Nat) : Scan Unit :=
  match s.getRune with
  | .err e s1 => .err e s1
  | .ok c s1 =>
    if newlines = 0 && (match c with | some r => !isSpace r | none => false) then
      .err ScanError.expectedSpaceInInput s1
    else if newlines = 0 && c = some 10 then
      .err ScanError.newlineInInputDoesNotMatchFormat s1
    else
      match ss.skipBlanks s1.fuel c s1 with
      | .err e s2 => .err e s2
      | .ok inputc s2 => .ok () (if inputc ≠ none then s2.UnreadRune else s2)

/-- How one turn of the loop of ss.advance ends: the method returns `w`, or
the loop goes on with the rest of the format and the count `i`. -/
inductive AdvanceTurn where
  | done (w : Int)
  | next (format : List Nat) (i : Nat)
deriving DecidableEq, Repr

/-- One turn of the loop of ss.advance on the format that is left (ASCII
runes); `i` counts the runes of the format already matched. A run of spaces
of the format is matched against the input; a percent sign that starts a verb
ends the method with `i`; any other rune must be the next rune of the input,
else the method ends with `-1`. -/
def ss.advanceTurn (s : ss) (format : List Nat) (i : Nat) : Scan AdvanceTurn :=
  match format with
  | [] => .ok (AdvanceTurn.done (i : Int)) s
  | fmtc :: rest =>
    if isSpace fmtc then
      let run := spaceRun format 0 false 0
      match ss.matchNewlines run.1 s with
      | .err e s1 => .err e s1
      | .ok _ s1 =>
        let r2 : Scan Unit := if run.2.1 then s1.matchTrailingSpace run.1 else .ok () s1
        match r2 with
        | .err e s2 => .err e s2
        | .ok _ s2 => .ok (AdvanceTurn.next (format.drop run.2.2) (i + run.2.2)) s2
    else if fmtc = 37 && rest = [] then .err ScanError.missingVerb s
    else if fmtc = 37 && rest.head? ≠ some 37 then .ok (AdvanceTurn.done (i : Int)) s
    else
      let skip : Nat := if fmtc = 37 then 1 else 0
      match s.mustReadRune with
      | .err e s1 => .err e s1
      | .ok inputc s1 =>
        if fmtc ≠ inputc then .ok (AdvanceTurn.done (-1)) s1.UnreadRune
        else .ok (AdvanceTurn.next (rest.drop skip) (i + skip + 1)) s1

/-- The method ss.advance: the number of runes of the format that were
matched, or `-1` when the input does not match. The first argument bounds
the turns of the loop by the length of the format. -/
def ss.advance : Nat → List Nat → Nat → ss → Scan Int
  | 0, _, i, s => .ok (i : Int) s
  | fuel + 1, format, i, s =>
    match s.advanceTurn format i with
    | .err e s1 => .err e s1
    | .ok (AdvanceTurn.done w) s1 => .ok w s1
    | .ok (AdvanceTurn.next format1 i1) s1 => ss.advance fuel format1 i1 s1

/-- The part of the loop of ss.doScanf that follows the percent sign, for the
verb `c`: skip spaces, then a literal percent sign or one operand. Gives the
values scanned so far and the operands left over. Widths are not modelled
(the formats of this program have none). -/
def ss.doVerb (s : ss) (c : Nat) (a : List Arg) (vals : List Val) : Scan (List Val × List Arg) :=
  let r1 : Scan Unit := if c ≠ 99 then s.SkipSpace else .ok () s
  match r1 with
  | .err e s2 => .err e s2
  | .ok _ s2 =>
    if c = 37 then
      match s2.scanPercent with
      | .err e s3 => .err e s3
      | .ok _ s3 => .ok (vals, a) s3
    else
      match a with
      | [] => .err ScanError.tooFewOperands s2
      | arg :: a1 =>
        match s2.scanOne c arg with
        | .err e s3 => .err e s3
        | .ok v s3 => .ok (vals ++ [v], a1) s3

/-- How one turn of the loop of ss.doScanf ends: the loop is left, or it
goes on with the rest of the format. -/
inductive Turn where
  | done (vals : List Val) (a : List Arg)
  | next (format : List Nat) (vals : List Val) (a : List Arg)
deriving DecidableEq, Repr

/-- One turn of the loop of ss.doScanf on the format that is left: literal
text and spaces through advance, or one verb. -/
def ss.doScanfTurn (s : ss) (format : List Nat) (a : List Arg) (vals : List Val) : Scan Turn :=
  match format with
  | [] => .ok (Turn.done vals a) s
  | f0 :: _ =>
    match ss.advance format.length format 0 s with
    | .err e s1 => .err e s1
    | .ok w s1 =>
      if 0 < w then .ok (Turn.next (format.drop w.toNat) vals a) s1
      else if f0 ≠ 37 then
        if w < 0 then .err ScanError.inputDoesNotMatchFormat s1 else .ok (Turn.done vals a) s1
      else
        match format.drop 1 with
        | [] => .ok (Turn.done vals a) s1
        | c :: rest =>
          match s1.doVerb c a vals with
          | .err e s2 => .err e s2
          | .ok r s2 => .ok (Turn.next rest r.1 r.2) s2

/-- The loop of ss.doScanf. Gives the values scanned, in order, and the
operands left over. The first argument bounds the turns by the length of the
format. -/
def ss.doScanfLoop : Nat → List Nat → List Arg → List Val → ss → Scan (List Val × List Arg)
  | 0, _, a, vals, s => .ok (vals, a) s
  | fuel + 1, format, a, vals, s =>
    match s.doScanfTurn format a vals with
    | .err e s1 => .err e s1
    | .ok (Turn.done vals1 a1) s1 => .ok (vals1, a1) s1
    | .ok (Turn.next format1 vals1 a1) s1 => ss.doScanfLoop fuel format1 a1 vals1 s1

/-- The method ss.doScanf. -/
def ss.doScanf (s : ss) (format : List Nat) (a : List Arg) : Scan (List Val) :=
  match ss.doScanfLoop format.length format a [] s with
  | .err e s1 => .err e s1
  | .ok (vals, left) s1 =>
    if left ≠ [] then .err ScanError.tooManyOperands s1 else .ok vals s1

/-- The function fmt.Fscanf on a reader without ReadRune: the values scanned
or the error, and the reader as the call leaves it. The readRune wrapper is
dropped when the call returns, and with it a rune that was put back and any
pending bytes. -/
def Fscanf (r : Stream) (format : List Nat) (a : List Arg) : Res ScanError Stream (List Val) :=
  match (newScanState r).doScanf format a with
  | .err e s1 => .err e s1.rs.reader
  | .ok vals s1 => .ok vals s1.rs.reader

/-! ## fmt.Sprintf -/

/-- ASCII text as bytes (for literals of ASCII characters only). -/
def ascii (s : String) : List Nat := s.toList.map Char.toNat

/-- The digit loop of the integer formatter: the decimal digits of `u`, put in
front of `acc`. The first argument bounds the turns; `u + 1` is enough. -/
def fmtUint : Nat → Nat → List Nat → List Nat
  | 0, _, acc => acc
  | fuel + 1, u, acc =>
    if 10 ≤ u then fmtUint fuel (u / 10) ((48 + u % 10) :: acc)
    else (48 + u) :: acc

/-- The verb `%d` of Sprintf for an int64: decimal digits, a minus sign in
front of a negative number. -/
def fmtInt (v : Int) : List Nat :=
  if v < 0 then 45 :: fmtUint (v.natAbs + 1) v.natAbs []
  else fmtUint (v.natAbs + 1) v.natAbs []

/-! ## main.go: headers -/

/-- The struct requestHeader. -/
structure requestHeader where
  filename : List Nat
  from_ : Int
deriving DecidableEq, Repr

/-- The struct responseHeader. -/
structure responseHeader where
  filename : List Nat
  from_ : Int
  size : Int
deriving DecidableEq, Repr

/-- The method responseHeader.asBytes:
`Sprintf("FILE %s\nFROM %d\nSIZE %d\n", h.filename, h.from, h.size)`. -/
def responseHeader.asBytes (h : responseHeader) : List Nat :=
  ascii "FILE " ++ h.filename ++ ascii "\nFROM " ++ fmtInt h.from_ ++ ascii "\nSIZE " ++
    fmtInt h.size ++ ascii "\n"

/-- The method requestHeader.asBytes:
`Sprintf("FILE %s\nFROM %d\n", h.filename, h.from)`. -/
def requestHeader.asBytes (h : requestHeader) : List Nat :=
  ascii "FILE " ++ h.filename ++ ascii "\nFROM " ++ fmtInt h.from_ ++ ascii "\n"

/-- The format of a request header. -/
def requestFormat : List Nat := ascii "FILE %s\nFROM %d\n"

/-- The format of a response header. -/
def responseFormat : List Nat := ascii "FILE %s\nFROM %d\nSIZE %d\n"

/-- The function readRequestHeader: the header read, or the zero header and
the error; and the reader after the call. -/
def readRequestHeader (r : Stream) : (requestHeader × Option ScanError) × Stream :=
  match Fscanf r requestFormat [Arg.string, Arg.int64] with
  | .ok [Val.str filename, Val.int from_] r1 => (({ filename := filename, from_ := from_ }, none), r1)
  | .ok _ r1 => (({ filename := [], from_ := 0 }, some ScanError.badVerb), r1)
  | .err e r1 => (({ filename := [], from_ := 0 }, some e), r1)

/-- The function readResponseHeader. -/
def readResponseHeader (r : Stream) : (responseHeader × Option ScanError) × Stream :=
  match Fscanf r responseFormat [Arg.string, Arg.int64, Arg.int64] with
  | .ok [Val.str filename, Val.int from_, Val.int size] r1 =>
    (({ filename := filename, from_ := from_, size := size }, none), r1)
  | .ok _ r1 => (({ filename := [], from_ := 0, size := 0 }, some ScanError.badVerb), r1)
  | .err e r1 => (({ filename := [], from_ := 0, size := 0 }, some e), r1)

/-! ## Files and connections -/

/-- An open *os.File on a regular file: the name it was opened with, the
bytes of the file, the read offset, and whether Stat fails. The receiver's
file is opened with O_APPEND: what is written goes to the end. -/
structure File where
  name : List Nat
  content : List Nat
  offset : Nat
  statFails : Bool
deriving DecidableEq, Repr

/-- The function filepath.Split on a system whose separator is the slash:
the path up to and with the last slash, and what follows it. -/
def filepathSplit (path : List Nat) : List Nat × List Nat :=
  match path with
  | [] => ([], [])
  | c :: t =>
    let r := filepathSplit t
    if c = 47 || r.1 ≠ [] then (c :: r.1, r.2) else ([], c :: r.2)

/-- The call `f.Stat()` followed by `stat.Size()`: the length of the file, or
`none` when Stat fails. -/
def File.Size (f : File) : Option Int :=
  if f.statFails then none else some (f.content.length : Int)

/-- The call `f.Seek(offset, io.SeekStart)` on a regular file: a negative
offset is an error, any other offset becomes the new read offset, also one
beyond the end of the file. -/
def File.Seek (f : File) (offset : Int) : Option File :=
  if offset < 0 then none else some { f with offset := offset.toNat }

/-- A *net.TCPConn. `inp` is what the peer sends; `out` is what has been
written; `room` is the number of bytes that the connection still takes before
a write fails (`none`: it never fails); `chunks` bounds the bytes that
successive ReadFrom calls move before they return without error (when the
list is used up a call moves all there is up to the end of the file). -/
structure TCPConn where
  inp : Stream
  out : List Nat
  room : Option Nat
  chunks : List Nat
deriving DecidableEq, Repr

/-- The method conn.Write: all of `b` is written, or as much as there is
room for and the call fails. Gives the success and the connection. -/
def TCPConn.Write (conn : TCPConn) (b : List Nat) : Bool × TCPConn :=
  match conn.room with
  | none => (true, { conn with out := conn.out ++ b })
  | some k =>
    if b.length ≤ k then (true, { conn with out := conn.out ++ b, room := some (k - b.length) })
    else (false, { conn with out := conn.out ++ b.take k, room := some 0 })

/-- The method conn.ReadFrom on a file: bytes from the read offset of the file
go to the connection and the offset moves on. Gives the number of bytes
moved, the success, the file and the connection. -/
def TCPConn.ReadFrom (conn : TCPConn) (f : File) : (Nat × Bool) × File × TCPConn :=
  let avail : List Nat := f.content.drop f.offset
  let want : List Nat :=
    match conn.chunks with
    | [] => avail
    | k :: _ => avail.take k
  let w := { conn with chunks := conn.chunks.tail }.Write want
  let n : Nat := w.2.out.length - conn.out.length
  ((n, w.1), { f with offset := f.offset + n }, w.2)

/-- The call `io.Copy(f, conn)` into a file opened for appending: all that the
peer sends is put at the end of the file; the call fails when the stream
ends with an error instead of an end of file. Failing writes to the file are
not modelled. -/
def ioCopy (f : File) (conn : TCPConn) : Bool × File × TCPConn :=
  (!conn.inp.broken, { f with content := f.content ++ conn.inp.data },
    { conn with inp := { conn.inp with data := [] } })

/-! ## main.go: the two roles -/

/-- The errors of send. -/
inductive SendError where
  | canNotReadFileStat
  | canNotSendFileName
  | canNotDoSendfile
deriving DecidableEq, Repr

/-- The loop `for remain > 0` of send. `none`: the loop is still running when
the turns given by the first argument are used up. -/
def sendLoop : Nat → Int → File → TCPConn → Option (Option SendError × File × TCPConn)
  | 0, remain, f, conn => if 0 < remain then none else some (none, f, conn)
  | fuel + 1, remain, f, conn =>
    if 0 < remain then
      let r := conn.ReadFrom f
      if !r.1.2 then some (some SendError.canNotDoSendfile, r.2.1, r.2.2)
      else sendLoop fuel (remain - (r.1.1 : Int)) r.2.1 r.2.2
    else some (none, f, conn)

/-- The function send. The first argument bounds the turns of its loop. -/
def send (fuel : Nat) (f : File) (from_ : Int) (conn : TCPConn) :
    Option (Option SendError × File × TCPConn) :=
  let filename := (filepathSplit f.name).2
  match f.Size with
  | none => some (some SendError.canNotReadFileStat, f, conn)
  | some size =>
    let remain := size - from_
    let h : responseHeader := { filename := filename, from_ := from_, size := remain }
    let w := conn.Write h.asBytes
    if !w.1 then some (some SendError.canNotSendFileName, f, w.2)
    else sendLoop fuel remain f w.2

/-- The errors of recive. -/
inductive ReciveError where
  | canNotReadFileStat
  | canNotSendRequestHeader
  | canNotReadResponseHeader (e : ScanError)
  | requestFileNameMismatch (want got : List Nat)
  | canNotReciveRemoteFile
deriving DecidableEq, Repr

/-- The function recive. -/
def recive (f : File) (conn : TCPConn) : Option ReciveError × File × TCPConn :=
  let filename := (filepathSplit f.name).2
  match f.Size with
  | none => (some ReciveError.canNotReadFileStat, f, conn)
  | some from_ =>
    let h : requestHeader := { filename := filename, from_ := from_ }
    let w := conn.Write h.asBytes
    if !w.1 then (some ReciveError.canNotSendRequestHeader, f, w.2)
    else
      let rd := readResponseHeader w.2.inp
      let conn1 : TCPConn := { w.2 with inp := rd.2 }
      match rd.1.2 with
      | some e => (some (ReciveError.canNotReadResponseHeader e), f, conn1)
      | none =>
        let resp := rd.1.1
        if resp.filename ≠ filename && from_ ≠ 0 then
          (some (ReciveError.requestFileNameMismatch filename resp.filename), f, conn1)
        else
          let c := ioCopy f conn1
          if !c.1 then (some ReciveError.canNotReciveRemoteFile, c.2.1, c.2.2)
          else (none, c.2.1, c.2.2)

/-- The errors of the sending branch of main. -/
inductive SenderError where
  | canNotReadRequestHeader (e : ScanError)
  | canNotSeek
  | canNotSendFile (e : SendError)
deriving DecidableEq, Repr

/-- The sending branch of main once the file is open and the connection is
made: read the request, seek to its offset, send. The first argument bounds
the turns of the loop of send. -/
def sender (fuel : Nat) (f : File) (conn : TCPConn) :
    Option (Option SenderError × File × TCPConn) :=
  let rd := readRequestHeader conn.inp
  let conn1 : TCPConn := { conn with inp := rd.2 }
  match rd.1.2 with
  | some e => some (some (SenderError.canNotReadRequestHeader e), f, conn1)
  | none =>
    let h := rd.1.1
    match f.Seek h.from_ with
    | none => some (some SenderError.canNotSeek, f, conn1)
    | some f1 =>
      match send fuel f1 h.from_ conn1 with
      | none => none
      | some (some e, f2, conn2) => some (some (SenderError.canNotSendFile e), f2, conn2)
      | some (none, f2, conn2) => some (none, f2, conn2)

/-! ## Example data -/

/-- A sender's file `a.txt` of 100 bytes. -/
def exSenderFile : File := ⟨ascii "a.txt", List.range 100, 0, false⟩

/-- The sender's file after the transfer: the read offset is at the end. -/
def exSenderFile1 : File := ⟨ascii "a.txt", List.range 100, 100, false⟩

/-- A receiver's file `a.txt` that holds 40 bytes. -/
def exReceiverFile : File := ⟨ascii "a.txt", List.replicate 40 7, 0, false⟩

/-- The receiver's file after the transfer. -/
def exReceiverFile1 : File :=
  ⟨ascii "a.txt", List.replicate 40 7 ++ (List.range 100).drop 40, 0, false⟩

/-- The request of the receiver of `a.txt` with 40 bytes. -/
def exRequest : List Nat := ascii "FILE a.txt\nFROM 40\n"

/-- The answer of the sender: the header and the bytes 40 to 99. -/
def exResponse : List Nat := ascii "FILE a.txt\nFROM 40\nSIZE 60\n" ++ (List.range 100).drop 40

/-- A receiver's file `a.txt` that holds 5 bytes. -/
def exShortFile : File := ⟨ascii "dir/a.txt", ascii "hello", 0, false⟩

/-- A receiver's file `a.txt` that is empty. -/
def exEmptyFile : File := ⟨ascii "dir/a.txt", [], 0, false⟩

/-- An answer for another file, `b.txt`, and three bytes after it. -/
def exOtherResponse : List Nat := ascii "FILE b.txt\nFROM 5\nSIZE 3\nxyz"

/-! ## Vocabulary of the proofs -/

/-- The bytes that a rune reader has still to deliver: pending ones first. -/
def readRune.logical (r : readRune) : List Nat := r.pendBuf ++ r.reader.data

/-- Shape of a pending buffer: every byte but the last starts no rune. -/
def pendOK : List Nat → Bool
  | [] => true
  | [_] => true
  | c :: d :: t => firstSize c == 1 && pendOK (d :: t)

/-- What ReadRune has to give on the bytes `L`. -/
def ReadRuneSpec (L : List Nat) (broken : Bool) (res : Res IOErr readRune Nat) : Prop :=
  match res with
  | .ok v r1 => v = (decodeRune L).1 ∧ r1.logical = L.drop (decodeRune L).2 ∧
      pendOK r1.pendBuf = true ∧ r1.avail = false ∧ r1.last = v ∧ r1.reader.broken = broken
  | .err _ _ => False

/-- A scan state in front of the bytes `L`, no rune put back. -/
structure Ready (s : ss) (L : List Nat) : Prop where
  atEOF : s.atEOF = false
  avail : s.rs.avail = false
  pend : pendOK s.rs.pendBuf = true
  logical : s.rs.logical = L

/-- A scan state in front of the bytes `L` with the rune `v` put back. -/
structure Peeked (s : ss) (v : Nat) (L : List Nat) : Prop where
  atEOF : s.atEOF = false
  avail : s.rs.avail = true
  last : s.rs.last = v
  pend : pendOK s.rs.pendBuf = true
  logical : s.rs.logical = L

/-- Value of a run of decimal digits read after the value `n0`. -/
def digitsVal (n0 : Nat) (ds : List Nat) : Nat := ds.foldl (fun a c => a * 10 + (c - 48)) n0

/-- All bytes are decimal digits. -/
def allDigits (ds : List Nat) : Prop := ∀ d ∈ ds, 48 ≤ d ∧ d ≤ 57

/-- A scan state with no pending bytes and not at end of file. -/
def st (data : List Nat) (br : Bool) (last : Nat) (avail : Bool) (buf : List Nat) : ss :=
  ⟨⟨⟨data, br⟩, [], last, avail⟩, buf, false⟩

/-- A scan state whose input is used up: no rune put back, no byte left, and
the stream ends without a read error. -/
structure Done (s : ss) : Prop where
  avail : s.rs.avail = false
  pend : s.rs.pendBuf = []
  data : s.rs.reader = ⟨[], false⟩

/-! ## Theorems -/

theorem decodeRune_ascii (c : Nat) (t : List Nat) (h : c < 0x80) : decodeRune (c :: t) = (c, 1) := by
  simp [decodeRune, firstSize, h]

theorem decodeRune_invalid (c : Nat) (t : List Nat) (h : firstSize c = 1) :
    decodeRune (c :: t) = (RuneError, 1) := by
  simp [decodeRune, h]

theorem firstSize_le (b : Nat) : firstSize b ≤ 4 := by
  unfold firstSize; split_ifs <;> omega

theorem decodeRune_size_pos (b : Nat) (t : List Nat) : 1 ≤ (decodeRune (b :: t)).2 := by
  rcases t with _ | ⟨b1, _ | ⟨b2, _ | ⟨b3, t3⟩⟩⟩ <;> simp only [decodeRune] <;> split_ifs <;> simp

theorem decodeRune_size_le (b : Nat) (t : List Nat) : (decodeRune (b :: t)).2 ≤ (b :: t).length := by
  rcases t with _ | ⟨b1, _ | ⟨b2, _ | ⟨b3, t3⟩⟩⟩ <;> simp only [decodeRune] <;> split_ifs <;> simp

theorem firstSize_of_accept (b0 b1 : Nat)
    (h : (decide (b1 < acceptLo b0) || decide (acceptHi b0 < b1)) = false) : firstSize b1 = 1 := by
  simp only [Bool.or_eq_false_iff, decide_eq_false_iff_not, not_lt] at h
  unfold acceptLo acceptHi at h
  unfold firstSize
  split_ifs at h ⊢ <;> omega

theorem firstSize_of_isCont (b : Nat) (h : isCont b = true) : firstSize b = 1 := by
  simp only [isCont, Bool.and_eq_true, decide_eq_true_eq] at h
  unfold firstSize
  split_ifs <;> omega

theorem ge_of_accept (b0 b1 : Nat)
    (h : (decide (b1 < acceptLo b0) || decide (acceptHi b0 < b1)) = false) : 0x80 ≤ b1 := by
  simp only [Bool.or_eq_false_iff, decide_eq_false_iff_not, not_lt] at h
  unfold acceptLo acceptHi at h
  split_ifs at h <;> omega

theorem firstSize_cases (b0 : Nat) (hb : ¬ b0 < 0x80) :
    firstSize b0 = 1 ∨ firstSize b0 = 2 ∨ firstSize b0 = 3 ∨ firstSize b0 = 4 := by
  unfold firstSize
  split_ifs <;> simp_all

theorem ReadRune_clean (b0 : Nat) (d : List Nat) (broken : Bool) (l : Nat)
    (h : broken = false ∨ ∃ a ∈ b0 :: d, a < 0x80) :
    ReadRuneSpec (b0 :: d) broken (readRune.ReadRune ⟨⟨b0 :: d, broken⟩, [], l, false⟩) := by
  by_cases hb : b0 < 0x80
  · simp [ReadRuneSpec, readRune.ReadRune, readRune.readByte, RuneSelf, hb, decodeRune_ascii, readRune.logical, pendOK]
  · have hk := firstSize_cases b0 hb
    have e1 : ∀ n : Nat, ¬ (n + 1 + 1 + 1 < 2) := by omega
    have e2 : ∀ n : Nat, ¬ (n + 1 + 1 + 1 + 1 < 2) := by omega
    have e3 : ∀ n : Nat, ¬ (n + 1 + 1 + 1 + 1 < 3) := by omega
    have e4 : ∀ n : Nat, ¬ (n + 1 + 1 + 1 + 1 < 4) := by omega
    rcases d with _ | ⟨b1, t1⟩
    · have hbr : broken = false := by
        rcases h with h | ⟨a, ha, ha2⟩
        · exact h
        · simp at ha; omega
      subst hbr
      rcases hk with hk | hk | hk | hk <;>
        simp [ReadRuneSpec, readRune.ReadRune, readRune.readByte, readRune.fill, fullRune, decodeRune,
          readRune.logical, pendOK, RuneSelf, hb, hk]
    · cases hout : (decide (b1 < acceptLo b0) || decide (acceptHi b0 < b1))
      · -- second byte acceptable
        have hf1 := firstSize_of_accept b0 b1 hout
        have hg1 := ge_of_accept b0 b1 hout
        rcases t1 with _ | ⟨b2, t2⟩
        · have hbr : broken = false := by
            rcases h with h | ⟨a, ha, ha2⟩
            · exact h
            · simp at ha; omega
          subst hbr
          rcases hk with hk | hk | hk | hk <;>
            simp [ReadRuneSpec, readRune.ReadRune, readRune.readByte, readRune.fill, fullRune,
              decodeRune, readRune.logical, pendOK, RuneSelf, hb, hk, hout]
        · cases hc2 : isCont b2
          · rcases hk with hk | hk | hk | hk <;>
              simp [ReadRuneSpec, readRune.ReadRune, readRune.readByte, readRune.fill, fullRune,
                decodeRune, readRune.logical, pendOK, RuneSelf, hb, hk, hout, hc2, hf1, e1, e2, e3, e4]
          · have hf2 := firstSize_of_isCont b2 hc2
            have hg2 : 0x80 ≤ b2 := by
              simp only [isCont, Bool.and_eq_true, decide_eq_true_eq] at hc2; omega
            rcases t2 with _ | ⟨b3, t3⟩
            · have hbr : broken = false := by
                rcases h with h | ⟨a, ha, ha2⟩
                · exact h
                · simp at ha; omega
              subst hbr
              rcases hk with hk | hk | hk | hk <;>
                simp [ReadRuneSpec, readRune.ReadRune, readRune.readByte, readRune.fill, fullRune,
                  decodeRune, readRune.logical, pendOK, RuneSelf, hb, hk, hout, hc2, hf1, e1, e2, e3, e4]
            · cases hc3 : isCont b3 <;> rcases hk with hk | hk | hk | hk <;>
                simp [ReadRuneSpec, readRune.ReadRune, readRune.readByte, readRune.fill, fullRune,
                  decodeRune, readRune.logical, pendOK, RuneSelf, hb, hk, hout, hc2, hc3, hf1, hf2, e1, e2, e3, e4]
      · rcases hk with hk | hk | hk | hk <;>
          simp [ReadRuneSpec, readRune.ReadRune, readRune.readByte, readRune.fill, fullRune,
            decodeRune, readRune.logical, pendOK, RuneSelf, hb, hk, hout]

theorem ReadRune_pend_single (x : Nat) (d : List Nat) (br : Bool) (l : Nat) :
    readRune.ReadRune ⟨⟨d, br⟩, [x], l, false⟩ = readRune.ReadRune ⟨⟨x :: d, br⟩, [], l, false⟩ := by
  simp [readRune.ReadRune, readRune.readByte]

theorem ReadRune_spec (r : readRune) (hav : r.avail = false) (hp : pendOK r.pendBuf = true)
    (hne : r.logical ≠ []) (h : r.reader.broken = false ∨ ∃ a ∈ r.logical, a < 0x80) :
    ReadRuneSpec r.logical r.reader.broken r.ReadRune := by
  obtain ⟨⟨d, br⟩, p, l, av⟩ := r
  simp only at hav; subst hav
  rcases p with _ | ⟨c, _ | ⟨c2, p⟩⟩
  · simp only [readRune.logical, List.nil_append] at hne h ⊢
    rcases d with _ | ⟨b0, d⟩
    · exact absurd rfl hne
    · exact ReadRune_clean b0 d br l h
  · simp only [readRune.logical, List.singleton_append] at hne h ⊢
    rw [ReadRune_pend_single]
    exact ReadRune_clean c d br l h
  · simp only [pendOK, Bool.and_eq_true, beq_iff_eq] at hp
    have hc : ¬ c < 0x80 := by
      intro hlt
      have : firstSize c = 0 := by simp [firstSize, hlt]
      omega
    simp [ReadRuneSpec, readRune.ReadRune, readRune.readByte, readRune.fill, fullRune, RuneSelf, hc,
      hp.1, hp.2, decodeRune, readRune.logical, pendOK]

theorem ReadRune_ok (r : readRune) (hav : r.avail = false) (hp : pendOK r.pendBuf = true)
    (hne : r.logical ≠ []) (h : r.reader.broken = false ∨ ∃ a ∈ r.logical, a < 0x80) :
    ∃ r1 : readRune, r.ReadRune = .ok (decodeRune r.logical).1 r1 ∧
      r1.logical = r.logical.drop (decodeRune r.logical).2 ∧ pendOK r1.pendBuf = true ∧
      r1.avail = false ∧ r1.last = (decodeRune r.logical).1 ∧
      r1.reader.broken = r.reader.broken := by
  have hs := ReadRune_spec r hav hp hne h
  cases hr : r.ReadRune with
  | ok v r1 =>
    rw [hr] at hs
    simp only [ReadRuneSpec] at hs
    obtain ⟨h1, h2, h3, h4, h5, h6⟩ := hs
    exact ⟨r1, by rw [h1], h2, h3, h4, by rw [h5, h1], h6⟩
  | err e r1 =>
    rw [hr] at hs
    exact absurd hs (by simp [ReadRuneSpec])

theorem ReadRune_ascii (r : readRune) (hav : r.avail = false) (hp : pendOK r.pendBuf = true)
    (a : Nat) (rest : List Nat) (hL : r.logical = a :: rest) (ha : a < 0x80) :
    r.ReadRune = .ok a ⟨⟨rest, r.reader.broken⟩, [], a, false⟩ := by
  obtain ⟨⟨d, br⟩, p, l, av⟩ := r
  simp only at hav; subst hav
  rcases p with _ | ⟨c, _ | ⟨c2, p⟩⟩
  · simp only [readRune.logical, List.nil_append] at hL
    subst hL
    simp [readRune.ReadRune, readRune.readByte, RuneSelf, ha]
  · simp only [readRune.logical, List.singleton_append, List.cons.injEq] at hL
    obtain ⟨rfl, rfl⟩ := hL
    simp [readRune.ReadRune, readRune.readByte, RuneSelf, ha]
  · simp only [pendOK, Bool.and_eq_true, beq_iff_eq] at hp
    simp only [readRune.logical, List.cons_append, List.cons.injEq] at hL
    obtain ⟨rfl, _⟩ := hL
    have : firstSize c = 0 := by simp [firstSize, ha]
    omega

/-- The bytes `name` are followed by an ASCII byte: the first rune is that of `name`. -/
theorem decodeRune_append_ascii (b0 : Nat) (t : List Nat) (a : Nat) (rest : List Nat)
    (ha : a < 0x80) : decodeRune ((b0 :: t) ++ a :: rest) = decodeRune (b0 :: t) := by
  by_cases hb : b0 < 0x80
  · simp [decodeRune_ascii, hb]
  · have hk := firstSize_cases b0 hb
    have ho : ∀ b : Nat, (decide (a < acceptLo b) || decide (acceptHi b < a)) = true := by
      intro b
      simp only [Bool.or_eq_true, decide_eq_true_eq]
      left; unfold acceptLo; split_ifs <;> omega
    have hc : isCont a = false := by
      simp only [isCont, Bool.and_eq_false_iff, decide_eq_false_iff_not]; left; omega
    have e1 : ∀ n : Nat, ¬ (n + 1 + 1 + 1 < 2) := by omega
    have e2 : ∀ n : Nat, ¬ (n + 1 + 1 + 1 + 1 < 2) := by omega
    have e3 : ∀ n : Nat, ¬ (n + 1 + 1 + 1 + 1 < 3) := by omega
    have e4 : ∀ n : Nat, ¬ (n + 1 + 1 + 1 + 1 < 4) := by omega
    have e5 : ∀ n : Nat, ¬ (n + 1 + 1 < 2) := by omega
    have e6 : ∀ n : Nat, ¬ (n + 1 + 1 + 1 < 3) := by omega
    have e7 : ∀ n m : Nat, ¬ (n + (m + 1) + 1 + 1 < 2) := by omega
    have e8 : ∀ n m : Nat, ¬ (n + (m + 1) + 1 + 1 + 1 < 3) := by omega
    have e9 : ∀ n m : Nat, ¬ (n + (m + 1) + 1 + 1 + 1 < 2) := by omega
    have e10 : ∀ n m : Nat, ¬ (n + (m + 1) + 1 + 1 + 1 + 1 < 4) := by omega
    have e11 : ∀ n m : Nat, ¬ (n + (m + 1) + 1 + 1 + 1 + 1 < 3) := by omega
    have e12 : ∀ n m : Nat, ¬ (n + (m + 1) + 1 + 1 + 1 + 1 < 2) := by omega
    rcases t with _ | ⟨b1, _ | ⟨b2, _ | ⟨b3, t3⟩⟩⟩
    · rcases hk with hk | hk | hk | hk <;> simp [decodeRune, hk, ho, e5]
    · cases hout : (decide (b1 < acceptLo b0) || decide (acceptHi b0 < b1)) <;>
        rcases hk with hk | hk | hk | hk <;> simp [decodeRune, hk, ho, hc, hout, e1, e5, e6]
    · cases hout : (decide (b1 < acceptLo b0) || decide (acceptHi b0 < b1)) <;>
        cases hc2 : isCont b2 <;>
        rcases hk with hk | hk | hk | hk <;>
        simp [decodeRune, hk, ho, hc, hout, hc2, e1, e2, e3, e4, e5, e6]
    · cases hout : (decide (b1 < acceptLo b0) || decide (acceptHi b0 < b1)) <;>
        cases hc2 : isCont b2 <;> cases hc3 : isCont b3 <;>
        rcases hk with hk | hk | hk | hk <;>
        simp [decodeRune, hk, ho, hc, hout, hc2, hc3, e1, e2, e3, e4, e5, e6, e7, e8, e9, e10, e11, e12]

theorem runesFrom_eq_drop (k : Nat) (p : List Nat) : runesFrom k p = runes (p.drop k) := by
  induction p generalizing k with
  | nil => cases k <;> simp [runesFrom, runes]
  | cons b t ih =>
    cases k with
    | zero => simp [runes]
    | succ k => simp only [runesFrom, List.drop_succ_cons]; exact ih k

theorem runes_nil : runes [] = [] := by simp [runes, runesFrom]

theorem runes_cons (b : Nat) (t : List Nat) :
    runes (b :: t) = (decodeRune (b :: t)).1 :: runes ((b :: t).drop (decodeRune (b :: t)).2) := by
  have h1 := decodeRune_size_pos b t
  conv_lhs => rw [runes, runesFrom]
  rw [runesFrom_eq_drop]
  congr 2
  obtain ⟨k, hk⟩ : ∃ k, (decodeRune (b :: t)).2 = k + 1 := ⟨(decodeRune (b :: t)).2 - 1, by omega⟩
  rw [hk]; simp

theorem getRune_peeked (s : ss) (v : Nat) (L : List Nat) (h : Peeked s v L) :
    s.getRune = .ok (some v) { s with rs := { s.rs with avail := false } } := by
  obtain ⟨⟨rd, p, l, av⟩, buf, eof⟩ := s
  obtain ⟨h1, h2, h3, h4, h5⟩ := h
  simp only at h1 h2 h3
  subst h1 h2 h3
  simp [ss.getRune, ss.ReadRune, readRune.ReadRune]

theorem ready_of_peeked (s : ss) (v : Nat) (L : List Nat) (h : Peeked s v L) :
    Ready { s with rs := { s.rs with avail := false } } L :=
  ⟨h.atEOF, rfl, h.pend, h.logical⟩

theorem unread_peeked (s : ss) (L : List Nat) (h : Ready s L) :
    Peeked s.UnreadRune s.rs.last L :=
  ⟨rfl, rfl, rfl, h.pend, h.logical⟩

theorem unread_of_peeked (s : ss) (v : Nat) (L : List Nat) (h : Peeked s v L) :
    ss.UnreadRune { s with rs := { s.rs with avail := false } } = s := by
  obtain ⟨⟨rd, p, l, av⟩, buf, eof⟩ := s
  obtain ⟨h1, h2, h3, h4, h5⟩ := h
  simp only at h1 h2 h3
  subst h1 h2 h3
  rfl

theorem getRune_ready (s : ss) (L : List Nat) (h : Ready s L) (hne : L ≠ [])
    (hb : s.rs.reader.broken = false ∨ ∃ a ∈ L, a < 0x80) :
    ∃ s1 : ss, s.getRune = .ok (some (decodeRune L).1) s1 ∧
      Ready s1 (L.drop (decodeRune L).2) ∧ s1.rs.last = (decodeRune L).1 ∧ s1.buf = s.buf ∧
      s1.rs.reader.broken = s.rs.reader.broken := by
  obtain ⟨h1, h2, h3, h4⟩ := h
  subst h4
  obtain ⟨r1, e1, e2, e3, e4, e5, e6⟩ := ReadRune_ok s.rs h2 h3 hne hb
  refine ⟨{ s with rs := r1 }, ?_, ⟨h1, e4, e3, e2⟩, e5, rfl, e6⟩
  simp [ss.getRune, ss.ReadRune, h1, e1]

theorem getRune_ready_ascii (s : ss) (a : Nat) (rest : List Nat) (h : Ready s (a :: rest))
    (ha : a < 0x80) :
    s.getRune = .ok (some a) ⟨⟨⟨rest, s.rs.reader.broken⟩, [], a, false⟩, s.buf, false⟩ := by
  obtain ⟨h1, h2, h3, h4⟩ := h
  have := ReadRune_ascii s.rs h2 h3 a rest h4 ha
  obtain ⟨rs, buf, eof⟩ := s
  simp only at h1; subst h1
  simp [ss.getRune, ss.ReadRune, this]

theorem isSpace_ne_cr (v : Nat) (h : isSpace v = false) : v ≠ 13 := by
  intro hv; subst hv; simp [isSpace] at h

theorem isSpace_ne_nl (v : Nat) (h : isSpace v = false) : v ≠ 10 := by
  intro hv; subst hv; simp [isSpace] at h

theorem SkipSpaceLoop_peeked (s : ss) (v : Nat) (L : List Nat) (h : Peeked s v L)
    (hv : isSpace v = false) (fuel : Nat) :
    ss.SkipSpaceLoop (fuel + 1) s = .ok () s := by
  simp [ss.SkipSpaceLoop, getRune_peeked s v L h, isSpace_ne_cr v hv, isSpace_ne_nl v hv, hv,
    unread_of_peeked s v L h]

theorem SkipSpace_peeked (s : ss) (v : Nat) (L : List Nat) (h : Peeked s v L)
    (hv : isSpace v = false) : s.SkipSpace = .ok () s := by
  unfold ss.SkipSpace ss.fuel
  exact SkipSpaceLoop_peeked s v L h hv _

theorem notEOF_peeked (s : ss) (v : Nat) (L : List Nat) (h : Peeked s v L) :
    s.notEOF = .ok () s := by
  simp [ss.notEOF, getRune_peeked s v L h, unread_of_peeked s v L h]

/-- The token loop in front of a word that an ASCII space ends. -/
theorem tokenLoop_ready (n : Nat) : ∀ (name : List Nat) (s : ss) (a : Nat) (rest : List Nat),
    name.length ≤ n → Ready s (name ++ a :: rest) → a < 0x80 → isSpace a = true →
    (∀ r ∈ runes name, isSpace r = false) → ∀ fuel, name.length + 1 ≤ fuel →
    ss.tokenLoop fuel s =
      .ok () ⟨⟨⟨rest, s.rs.reader.broken⟩, [], a, true⟩, s.buf ++ encodeRunes (runes name), false⟩ := by
  induction n with
  | zero =>
    intro name s a rest hn hr ha hsp _ fuel hf
    have : name = [] := List.length_eq_zero.mp (by omega)
    subst this
    obtain ⟨fuel, rfl⟩ : ∃ k, fuel = k + 1 := ⟨fuel - 1, by simp at hf; omega⟩
    simp only [List.nil_append] at hr
    simp [ss.tokenLoop, getRune_ready_ascii s a rest hr ha, hsp, ss.UnreadRune, readRune.UnreadRune,
      runes_nil, encodeRunes]
  | succ n ih =>
    intro name s a rest hn hr ha hsp hws fuel hf
    rcases name with _ | ⟨b, t⟩
    · exact ih [] s a rest (by simp) hr ha hsp hws fuel hf
    · obtain ⟨fuel, rfl⟩ : ∃ k, fuel = k + 1 := ⟨fuel - 1, by simp at hf; omega⟩
      have hdec := decodeRune_append_ascii b t a rest ha
      obtain ⟨s1, e1, e2, e3, e4, e5⟩ := getRune_ready s _ hr (by simp)
        (Or.inr ⟨a, by simp, ha⟩)
      rw [hdec] at e1 e2 e3
      have hpos := decodeRune_size_pos b t
      have hle := decodeRune_size_le b t
      rw [runes_cons] at hws
      have hv : isSpace (decodeRune (b :: t)).1 = false := hws _ (by simp)
      have hdrop : List.drop (decodeRune (b :: t)).2 (b :: t ++ a :: rest) =
          List.drop (decodeRune (b :: t)).2 (b :: t) ++ a :: rest := by
        rw [List.drop_append_of_le_length hle]
      rw [hdrop] at e2
      have hlen : (List.drop (decodeRune (b :: t)).2 (b :: t)).length ≤ n := by
        simp only [List.length_drop, List.length_cons] at hn ⊢; omega
      have hr2 : Ready { s1 with buf := s1.buf ++ encodeRune (decodeRune (b :: t)).1 }
          (List.drop (decodeRune (b :: t)).2 (b :: t) ++ a :: rest) :=
        ⟨e2.atEOF, e2.avail, e2.pend, e2.logical⟩
      have := ih _ { s1 with buf := s1.buf ++ encodeRune (decodeRune (b :: t)).1 } a rest hlen
        hr2 ha hsp (fun r hr => hws r (by simp [hr])) fuel
        (by simp only [List.length_drop, List.length_cons] at hf ⊢; omega)
      rw [ss.tokenLoop, e1]
      simp only [hv]
      rw [this, runes_cons b t]
      simp [encodeRunes, e4, e5, List.append_assoc]

theorem digitsVal_ge (ds : List Nat) : ∀ n0, n0 ≤ digitsVal n0 ds := by
  induction ds with
  | nil => intro n0; simp [digitsVal]
  | cons c t ih =>
    intro n0
    have := ih (n0 * 10 + (c - 48))
    simp only [digitsVal, List.foldl_cons] at this ⊢
    omega

theorem fmtUint_spec (fuel : Nat) : ∀ (u : Nat) (acc : List Nat), u < fuel →
    ∃ ds, fmtUint fuel u acc = ds ++ acc ∧ ds ≠ [] ∧ allDigits ds ∧ digitsVal 0 ds = u := by
  induction fuel with
  | zero => intro u acc h; omega
  | succ fuel ih =>
    intro u acc h
    by_cases hu : 10 ≤ u
    · obtain ⟨ds, e1, e2, e3, e4⟩ := ih (u / 10) ((48 + u % 10) :: acc) (by omega)
      refine ⟨ds ++ [48 + u % 10], ?_, by simp, ?_, ?_⟩
      · simp [fmtUint, hu, e1]
      · intro d hd
        simp only [List.mem_append, List.mem_singleton] at hd
        rcases hd with hd | hd
        · exact e3 d hd
        · omega
      · simp only [digitsVal, List.foldl_append, List.foldl_cons, List.foldl_nil] at e4 ⊢
        rw [e4]; omega
    · refine ⟨[48 + u], ?_, by simp, ?_, ?_⟩
      · simp [fmtUint, hu]
      · intro d hd
        simp only [List.mem_singleton] at hd
        omega
      · simp [digitsVal]

theorem ParseUint_digits (ds : List Nat) : ∀ n0, allDigits ds → digitsVal n0 ds < 2 ^ 64 →
    ParseUint n0 ds = .ok (digitsVal n0 ds) := by
  induction ds with
  | nil => intro n0 _ _; simp [ParseUint, digitsVal]
  | cons c t ih =>
    intro n0 hd hv
    have hc := hd c (by simp)
    have hge := digitsVal_ge t (n0 * 10 + (c - 48))
    simp only [digitsVal, List.foldl_cons] at hv hge ⊢
    have h1 : ¬ ((2 ^ 64 - 1) / 10 + 1 ≤ n0) := by
      norm_num at hv hge ⊢; omega
    have h2 : ¬ (2 ^ 64 - 1 < n0 * 10 + (c - 48)) := by
      norm_num at hv hge ⊢; omega
    rw [ParseUint]
    simp only [hc.1, hc.2, decide_True, Bool.and_self, if_true, h1, h2, if_false]
    exact ih _ (fun d hd2 => hd d (by simp [hd2])) hv

theorem ParseInt_fmtInt (n : Int) (h1 : -2 ^ 63 ≤ n) (h2 : n < 2 ^ 63) :
    ParseInt (fmtInt n) = .ok n := by
  obtain ⟨ds, e1, e2, e3, e4⟩ := fmtUint_spec (n.natAbs + 1) n.natAbs [] (by omega)
  simp only [List.append_nil] at e1
  obtain ⟨c, t, rfl⟩ := List.exists_cons_of_ne_nil e2
  have hc := e3 c (by simp)
  by_cases hn : n < 0
  · have hv : digitsVal 0 (c :: t) < 2 ^ 64 := by rw [e4]; norm_num at h1 h2 ⊢; omega
    have hp := ParseUint_digits (c :: t) 0 e3 hv
    rw [e4] at hp
    have h3 : ¬ (9223372036854775808 < n.natAbs) := by norm_num at h1 h2 ⊢; omega
    simp only [fmtInt, hn, if_true, e1, ParseInt]
    simp [hp, h3, abs_of_neg hn]
  · have hv : digitsVal 0 (c :: t) < 2 ^ 64 := by rw [e4]; norm_num at h1 h2 ⊢; omega
    have hp := ParseUint_digits (c :: t) 0 e3 hv
    rw [e4] at hp
    have h3 : ¬ (9223372036854775808 ≤ n.natAbs) := by norm_num at h1 h2 ⊢; omega
    have c43 : c ≠ 43 := by omega
    have c45 : c ≠ 45 := by omega
    simp only [fmtInt, hn, if_false, e1, ParseInt]
    simp [hp, h3, c43, c45, abs_of_nonneg (not_lt.mp hn)]

theorem newScanState_st (data : List Nat) (br : Bool) :
    newScanState ⟨data, br⟩ = st data br 0 false [] := rfl

@[simp] theorem getRune_st_avail (d : List Nat) (br : Bool) (l : Nat) (buf : List Nat) :
    (st d br l true buf).getRune = .ok (some l) (st d br l false buf) := by
  simp [st, ss.getRune, ss.ReadRune, readRune.ReadRune]

theorem getRune_st_ascii (c : Nat) (d : List Nat) (br : Bool) (l : Nat) (buf : List Nat)
    (h : c < 0x80) :
    (st (c :: d) br l false buf).getRune = .ok (some c) (st d br c false buf) := by
  simp [st, ss.getRune, ss.ReadRune, readRune.ReadRune, readRune.readByte, RuneSelf, h]

@[simp] theorem UnreadRune_st (d : List Nat) (br : Bool) (l : Nat) (av : Bool) (buf : List Nat) :
    (st d br l av buf).UnreadRune = st d br l true buf := rfl

@[simp] theorem st_buf (d : List Nat) (br : Bool) (l : Nat) (av : Bool) (buf : List Nat) :
    (st d br l av buf).buf = buf := rfl

@[simp] theorem st_set_buf (d : List Nat) (br : Bool) (l : Nat) (av : Bool) (buf b2 : List Nat) :
    { st d br l av buf with buf := b2 } = st d br l av b2 := rfl

@[simp] theorem st_fuel (d : List Nat) (br : Bool) (l : Nat) (av : Bool) (buf : List Nat) :
    (st d br l av buf).fuel = d.length + 2 := by
  simp [st, ss.fuel]

theorem ready_st (d : List Nat) (br : Bool) (l : Nat) (buf : List Nat) :
    Ready (st d br l false buf) d := ⟨rfl, rfl, rfl, rfl⟩

theorem peeked_st (d : List Nat) (br : Bool) (l : Nat) (buf : List Nat) :
    Peeked (st d br l true buf) l d := ⟨rfl, rfl, rfl, rfl, rfl⟩

theorem mem_decimalDigits (d : Nat) (h : 48 ≤ d ∧ d ≤ 57) : d ∈ decimalDigits := by
  obtain ⟨h1, h2⟩ := h
  unfold decimalDigits
  have : d = 48 ∨ d = 49 ∨ d = 50 ∨ d = 51 ∨ d = 52 ∨ d = 53 ∨ d = 54 ∨ d = 55 ∨ d = 56 ∨ d = 57 := by
    omega
  rcases this with h | h | h | h | h | h | h | h | h | h <;> simp [h]

theorem encodeRune_ascii (c : Nat) (h : c < 0x80) : encodeRune c = [c] := by
  have : c ≤ 0x7F := by omega
  simp [encodeRune, this]

/-- The loop of accept over a run of digits that an ASCII byte ends. -/
theorem acceptLoop_digits (ds : List Nat) : ∀ (l : Nat) (buf : List Nat) (a : Nat) (rest : List Nat)
    (br : Bool), allDigits ds → a < 0x80 → a ∉ decimalDigits → ∀ fuel, ds.length + 1 ≤ fuel →
    ss.acceptLoop fuel (st (ds ++ a :: rest) br l false buf) =
      .ok () (st rest br a true (buf ++ ds)) := by
  induction ds with
  | nil =>
    intro l buf a rest br _ ha hna fuel hf
    obtain ⟨fuel, rfl⟩ : ∃ k, fuel = k + 1 := ⟨fuel - 1, by simp at hf; omega⟩
    simp [ss.acceptLoop, ss.accept, ss.consume, getRune_st_ascii a rest br l buf ha, hna]
  | cons d t ih =>
    intro l buf a rest br hd ha hna fuel hf
    obtain ⟨fuel, rfl⟩ : ∃ k, fuel = k + 1 := ⟨fuel - 1, by simp at hf; omega⟩
    have hd0 := hd d (by simp)
    have hlt : d < 0x80 := by omega
    have := ih d (buf ++ [d]) a rest br (fun x hx => hd x (by simp [hx])) ha hna fuel
      (by simp at hf ⊢; omega)
    simp [ss.acceptLoop, ss.accept, ss.consume, getRune_st_ascii d _ br l buf hlt,
      mem_decimalDigits d hd0, encodeRune_ascii d hlt, this]

/-- The method scanNumber in front of a run of digits whose first was put back. -/
theorem scanNumber_peeked (d0 : Nat) (ds : List Nat) (buf : List Nat) (a : Nat) (rest : List Nat)
    (br : Bool) (hd : allDigits (d0 :: ds)) (ha : a < 0x80) (hna : a ∉ decimalDigits) :
    (st (ds ++ a :: rest) br d0 true buf).scanNumber =
      .ok (buf ++ d0 :: ds) (st rest br a true (buf ++ d0 :: ds)) := by
  have hd0 := hd d0 (by simp)
  have hlt : d0 < 0x80 := by omega
  simp only [ss.scanNumber, ss.notEOF, ss.accept, ss.consume, mem_decimalDigits d0 hd0,
    encodeRune_ascii d0 hlt, getRune_st_avail, UnreadRune_st, if_true, st_set_buf, st_buf, st_fuel]
  rw [acceptLoop_digits ds d0 (buf ++ [d0]) a rest br (fun x hx => hd x (by simp [hx])) ha hna
    _ (by simp; omega)]
  simp

theorem fmtInt_shape (n : Int) :
    (∃ d0 ds, fmtInt n = d0 :: ds ∧ allDigits (d0 :: ds)) ∨
    (∃ d0 ds, fmtInt n = 45 :: d0 :: ds ∧ allDigits (d0 :: ds)) := by
  obtain ⟨ds, e1, e2, e3, _⟩ := fmtUint_spec (n.natAbs + 1) n.natAbs [] (by omega)
  simp only [List.append_nil] at e1
  obtain ⟨c, t, rfl⟩ := List.exists_cons_of_ne_nil e2
  by_cases hn : n < 0
  · right; exact ⟨c, t, by simp [fmtInt, hn, e1], e3⟩
  · left; exact ⟨c, t, by simp [fmtInt, hn, e1], e3⟩

/-- The verb `%d` in front of a number written by `%d` whose first byte was put back. -/
theorem scanInt_fmtInt (n : Int) (h1 : -2 ^ 63 ≤ n) (h2 : n < 2 ^ 63) (c0 : Nat) (tl : List Nat)
    (hfmt : fmtInt n = c0 :: tl) (a : Nat) (rest : List Nat) (br : Bool)
    (ha : a < 0x80) (hna : a ∉ decimalDigits) :
    (st (tl ++ a :: rest) br c0 true []).scanInt = .ok n (st rest br a true (c0 :: tl)) := by
  have hparse := ParseInt_fmtInt n h1 h2
  rw [hfmt] at hparse
  rcases fmtInt_shape n with ⟨d0, ds, e, hd⟩ | ⟨d0, ds, e, hd⟩
  · rw [hfmt] at e
    obtain ⟨rfl, rfl⟩ := List.cons.inj e
    have hd0 := hd c0 (by simp)
    have hsp : isSpace c0 = false := by
      simp only [isSpace]; simp; omega
    have hP := peeked_st (tl ++ a :: rest) br c0 []
    have hs : c0 ∉ sign := by simp [sign]; omega
    simp [ss.scanInt, SkipSpace_peeked _ _ _ hP hsp, notEOF_peeked _ _ _ hP, ss.accept, ss.consume,
      hs, scanNumber_peeked c0 tl [] a rest br hd ha hna, hparse]
  · rw [hfmt] at e
    obtain ⟨rfl, rfl⟩ := List.cons.inj e
    have hd0 := hd d0 (by simp)
    have hlt : d0 < 0x80 := by omega
    have hP := peeked_st (d0 :: (ds ++ a :: rest)) br 45 []
    have hsp : isSpace 45 = false := by decide
    have hs : 45 ∈ sign := by simp [sign]
    have hnum := scanNumber_peeked d0 ds [45] a rest br hd ha hna
    have he : encodeRune 45 = [45] := by decide
    have hn1 : (st (d0 :: (ds ++ a :: rest)) br 45 false [45]).scanNumber =
        .ok (45 :: d0 :: ds) (st rest br a true (45 :: d0 :: ds)) := by
      simp only [ss.scanNumber, ss.notEOF, getRune_st_ascii d0 _ br 45 [45] hlt, ss.accept,
        ss.consume, mem_decimalDigits d0 hd0, encodeRune_ascii d0 hlt, getRune_st_avail,
        UnreadRune_st, if_true, st_set_buf, st_buf, st_fuel]
      rw [acceptLoop_digits ds d0 ([45] ++ [d0]) a rest br (fun x hx => hd x (by simp [hx]))
        ha hna _ (by simp; omega)]
      simp
    simp [ss.scanInt, SkipSpace_peeked _ _ _ hP hsp, notEOF_peeked _ _ _ hP, ss.accept, ss.consume,
      hs, he, hn1, hparse]

theorem doScanfTurn_cons (s : ss) (f0 : Nat) (t : List Nat) (a : List Arg) (vals : List Val) :
    s.doScanfTurn (f0 :: t) a vals =
      match ss.advance (f0 :: t).length (f0 :: t) 0 s with
      | .err e s1 => .err e s1
      | .ok w s1 =>
        if 0 < w then .ok (Turn.next ((f0 :: t).drop w.toNat) vals a) s1
        else if f0 ≠ 37 then
          if w < 0 then .err ScanError.inputDoesNotMatchFormat s1 else .ok (Turn.done vals a) s1
        else
          match (f0 :: t).drop 1 with
          | [] => .ok (Turn.done vals a) s1
          | c :: rest =>
            match s1.doVerb c a vals with
            | .err e s2 => .err e s2
            | .ok r s2 => .ok (Turn.next rest r.1 r.2) s2 := rfl

theorem doScanfTurn_nil (s : ss) (a : List Arg) (vals : List Val) :
    s.doScanfTurn [] a vals = .ok (Turn.done vals a) s := rfl

theorem advanceTurn_nil (s : ss) (i : Nat) :
    s.advanceTurn [] i = .ok (AdvanceTurn.done (i : Int)) s := rfl

/-- A turn of advance at a rune of the format that is neither a space nor a percent sign. -/
theorem advanceTurn_lit (s : ss) (fmtc : Nat) (rest : List Nat) (i : Nat)
    (h1 : isSpace fmtc = false) (h2 : fmtc ≠ 37) :
    s.advanceTurn (fmtc :: rest) i =
      match s.mustReadRune with
      | .err e s1 => .err e s1
      | .ok inputc s1 =>
        if fmtc ≠ inputc then .ok (AdvanceTurn.done (-1)) s1.UnreadRune
        else .ok (AdvanceTurn.next rest (i + 1)) s1 := by
  unfold ss.advanceTurn
  simp [h1, h2]
  try rfl

/-- A turn of advance at a percent sign that starts a verb. -/
theorem advanceTurn_verb (s : ss) (c : Nat) (rest : List Nat) (i : Nat) (h : c ≠ 37) :
    s.advanceTurn (37 :: c :: rest) i = .ok (AdvanceTurn.done (i : Int)) s := by
  unfold ss.advanceTurn
  have : isSpace 37 = false := by decide
  simp [this, h]

/-- A turn of advance at a space of the format. -/
theorem advanceTurn_space (s : ss) (fmtc : Nat) (rest : List Nat) (i : Nat)
    (h1 : isSpace fmtc = true) :
    s.advanceTurn (fmtc :: rest) i =
      match ss.matchNewlines (spaceRun (fmtc :: rest) 0 false 0).1 s with
      | .err e s1 => .err e s1
      | .ok _ s1 =>
        match (if (spaceRun (fmtc :: rest) 0 false 0).2.1
            then s1.matchTrailingSpace (spaceRun (fmtc :: rest) 0 false 0).1 else .ok () s1) with
        | .err e s2 => .err e s2
        | .ok _ s2 => .ok (AdvanceTurn.next ((fmtc :: rest).drop (spaceRun (fmtc :: rest) 0 false 0).2.2)
            (i + (spaceRun (fmtc :: rest) 0 false 0).2.2)) s2 := by
  unfold ss.advanceTurn
  simp [h1]
  try rfl

theorem mustReadRune_st_ascii (c : Nat) (d : List Nat) (br : Bool) (l : Nat) (buf : List Nat)
    (h : c < 0x80) :
    (st (c :: d) br l false buf).mustReadRune = .ok c (st d br c false buf) := by
  simp [ss.mustReadRune, getRune_st_ascii c d br l buf h]

theorem mustReadRune_st_avail (d : List Nat) (br : Bool) (l : Nat) (buf : List Nat) :
    (st d br l true buf).mustReadRune = .ok l (st d br l false buf) := by
  simp [ss.mustReadRune]

theorem peeked_fuel (s : ss) (v : Nat) (L : List Nat) (h : Peeked s v L) :
    s.fuel = L.length + 2 := by
  rw [← h.logical]; simp [ss.fuel, readRune.logical]

theorem ready_fuel (s : ss) (L : List Nat) (h : Ready s L) : s.fuel = L.length + 2 := by
  rw [← h.logical]; simp [ss.fuel, readRune.logical]

theorem tokenLoop_peeked_word (s : ss) (v : Nat) (name : List Nat) (a : Nat) (rest : List Nat)
    (h : Peeked s v (name ++ a :: rest)) (hv : isSpace v = false) (ha : a < 0x80)
    (hsp : isSpace a = true) (hws : ∀ r ∈ runes name, isSpace r = false) (fuel : Nat)
    (hf : name.length + 2 ≤ fuel) :
    ss.tokenLoop fuel s =
      .ok () (st rest s.rs.reader.broken a true (s.buf ++ encodeRune v ++ encodeRunes (runes name))) := by
  obtain ⟨fuel, rfl⟩ : ∃ k, fuel = k + 1 := ⟨fuel - 1, by omega⟩
  have hr : Ready { s with rs := { s.rs with avail := false }, buf := s.buf ++ encodeRune v }
      (name ++ a :: rest) := ⟨h.atEOF, rfl, h.pend, h.logical⟩
  have := tokenLoop_ready name.length name _ a rest (le_refl _) hr ha hsp hws fuel (by omega)
  rw [ss.tokenLoop, getRune_peeked s v _ h]
  simp only [hv, Bool.false_eq_true, if_false]
  exact this.trans (by simp [st])

/-- The verb `%s` when the first rune of the word was put back. -/
theorem convertString_peeked (s : ss) (v : Nat) (name : List Nat) (a : Nat) (rest : List Nat)
    (h : Peeked s v (name ++ a :: rest)) (hv : isSpace v = false) (ha : a < 0x80)
    (hsp : isSpace a = true) (hws : ∀ r ∈ runes name, isSpace r = false) :
    s.convertString =
      .ok (s.buf ++ encodeRune v ++ encodeRunes (runes name))
        (st rest s.rs.reader.broken a true (s.buf ++ encodeRune v ++ encodeRunes (runes name))) := by
  have hf := peeked_fuel s v _ h
  simp only [ss.convertString, ss.token, SkipSpace_peeked s v _ h hv, notEOF_peeked s v _ h]
  rw [tokenLoop_peeked_word s v name a rest h hv ha hsp hws _ (by rw [hf]; simp)]
  simp

/-- The loop that skips blanks stops at once at a rune that is no space. -/
theorem skipBlanks_stop (fuel : Nat) (v : Nat) (s : ss) (hv : isSpace v = false) :
    ss.skipBlanks (fuel + 1) (some v) s = .ok (some v) s := by
  simp [ss.skipBlanks, hv]

theorem skipBlanks_nl (fuel : Nat) (s : ss) :
    ss.skipBlanks (fuel + 1) (some 10) s = .ok (some 10) s := by
  simp [ss.skipBlanks]

/-- A space of the format in front of one space and a word. -/
theorem matchTrailingSpace_word (L : List Nat) (hne : L ≠ []) (br : Bool) (l : Nat)
    (buf : List Nat) (hb : isSpace (decodeRune L).1 = false)
    (hbr : br = false ∨ ∃ a ∈ L, a < 0x80) :
    ∃ P : ss, (st (32 :: L) br l false buf).matchTrailingSpace 0 = .ok () P ∧
      Peeked P (decodeRune L).1 (L.drop (decodeRune L).2) ∧
      P.buf = buf ∧ P.rs.reader.broken = br := by
  obtain ⟨s2, e1, e2, e3, e4, e5⟩ := getRune_ready (st L br 32 false buf) _
    (ready_st _ _ _ _) hne hbr
  refine ⟨s2.UnreadRune, ?_, ?_, e4, e5⟩
  · have h32 : (32 : Nat) < 0x80 := by norm_num
    have hs32 : isSpace 32 = true := by decide
    simp only [ss.matchTrailingSpace, getRune_st_ascii 32 _ br l buf h32, st_fuel]
    simp [ss.skipBlanks, hs32, e1, hb]
  · have := unread_peeked s2 _ e2
    rw [e3] at this
    exact this

theorem doScanfLoop_last (fuel : Nat) (vals : List Val) (rest : List Nat) (br : Bool)
    (buf : List Nat) :
    ss.doScanfLoop (fuel + 1) [10] [] vals (st rest br 10 true buf) =
      .ok (vals, []) (st rest br 10 false buf) := by
  have hs10 : isSpace 10 = true := by decide
  rw [ss.doScanfLoop]
  simp [doScanfTurn_cons, ss.advance, advanceTurn_space, advanceTurn_nil, hs10, spaceRun,
    ss.matchNewlines, skipBlanks_nl]
  cases fuel <;> simp [ss.doScanfLoop, doScanfTurn_nil]

theorem doVerb_string_peeked (P : ss) (v : Nat) (name : List Nat) (a : Nat) (rest : List Nat)
    (args : List Arg) (vals : List Val)
    (h : Peeked P v (name ++ a :: rest)) (hv : isSpace v = false) (ha : a < 0x80)
    (hsp : isSpace a = true) (hws : ∀ r ∈ runes name, isSpace r = false) :
    P.doVerb 115 (Arg.string :: args) vals =
      .ok (vals ++ [Val.str (encodeRune v ++ encodeRunes (runes name))], args)
        (st rest P.rs.reader.broken a true (encodeRune v ++ encodeRunes (runes name))) := by
  have h0 : Peeked { P with buf := [] } v (name ++ a :: rest) :=
    ⟨h.atEOF, h.avail, h.last, h.pend, h.logical⟩
  have := convertString_peeked _ v name a rest h0 hv ha hsp hws
  simp only [List.nil_append] at this
  simp [ss.doVerb, SkipSpace_peeked P v _ h hv, ss.scanOne, this]

/-- The turns of doScanf for the text `FILE ` and the verb `%s` that follows it. -/
theorem doScanfLoop_FILE (fuel : Nat) (fmt1 : List Nat) (args : List Arg) (vals : List Val)
    (name : List Nat) (hne : name ≠ []) (hws : ∀ r ∈ runes name, isSpace r = false)
    (a : Nat) (rest : List Nat) (br : Bool) (buf : List Nat) (l : Nat)
    (ha : a < 0x80) (hsp : isSpace a = true) :
    ss.doScanfLoop (fuel + 2) (70 :: 73 :: 76 :: 69 :: 32 :: 37 :: 115 :: fmt1) (Arg.string :: args)
        vals (st (70 :: 73 :: 76 :: 69 :: 32 :: (name ++ a :: rest)) br l false buf) =
      ss.doScanfLoop fuel fmt1 args (vals ++ [Val.str (encodeRunes (runes name))])
        (st rest br a true (encodeRunes (runes name))) := by
  obtain ⟨b, t, rfl⟩ := List.exists_cons_of_ne_nil hne
  have hdec := decodeRune_append_ascii b t a rest ha
  have hle := decodeRune_size_le b t
  have hrc := runes_cons b t
  rw [hrc] at hws
  have hv : isSpace (decodeRune (b :: t)).1 = false := hws _ (by simp)
  obtain ⟨P, eP, hP, hbuf, hbr⟩ := matchTrailingSpace_word ((b :: t) ++ a :: rest) (by simp) br 69
    buf (by rw [hdec]; exact hv) (Or.inr ⟨a, by simp, ha⟩)
  rw [hdec, List.drop_append_of_le_length hle] at hP
  simp only [List.cons_append] at eP
  have hverb := doVerb_string_peeked P _ _ a rest args vals hP hv ha hsp
    (fun r hr => hws r (by simp [hr]))
  rw [hbr] at hverb
  have henc : encodeRunes (runes (b :: t)) = encodeRune (decodeRune (b :: t)).1 ++
      encodeRunes (runes (List.drop (decodeRune (b :: t)).2 (b :: t))) := by rw [hrc]; rfl
  rw [henc]
  have s70 : isSpace 70 = false := by decide
  have s73 : isSpace 73 = false := by decide
  have s76 : isSpace 76 = false := by decide
  have s69 : isSpace 69 = false := by decide
  have s32 : isSpace 32 = true := by decide
  have s37 : isSpace 37 = false := by decide
  have hadv : ss.advance (70 :: 73 :: 76 :: 69 :: 32 :: 37 :: 115 :: fmt1).length
      (70 :: 73 :: 76 :: 69 :: 32 :: 37 :: 115 :: fmt1) 0
      (st (70 :: 73 :: 76 :: 69 :: 32 :: ((b :: t) ++ a :: rest)) br l false buf) = .ok 5 P := by
    simp only [List.length_cons, ss.advance]
    rw [advanceTurn_lit _ 70 _ _ s70 (by norm_num), mustReadRune_st_ascii _ _ _ _ _ (by norm_num)]
    simp only [ne_eq, not_true_eq_false, if_false]
    rw [advanceTurn_lit _ 73 _ _ s73 (by norm_num), mustReadRune_st_ascii _ _ _ _ _ (by norm_num)]
    simp only [ne_eq, not_true_eq_false, if_false]
    rw [advanceTurn_lit _ 76 _ _ s76 (by norm_num), mustReadRune_st_ascii _ _ _ _ _ (by norm_num)]
    simp only [ne_eq, not_true_eq_false, if_false]
    rw [advanceTurn_lit _ 69 _ _ s69 (by norm_num), mustReadRune_st_ascii _ _ _ _ _ (by norm_num)]
    simp only [ne_eq, not_true_eq_false, if_false]
    rw [advanceTurn_space _ 32 _ _ s32]
    simp [spaceRun, s32, s37, ss.matchNewlines, eP, advanceTurn_verb]
  have hadv2 : ss.advance (37 :: 115 :: fmt1).length (37 :: 115 :: fmt1) 0 P = .ok 0 P := by
    simp [ss.advance, advanceTurn_verb]
  rw [ss.doScanfLoop, doScanfTurn_cons, hadv]
  simp only [show (0 : Int) < 5 by norm_num, if_true, show Int.toNat 5 = 5 by rfl,
    List.drop_succ_cons, List.drop_zero]
  rw [ss.doScanfLoop, doScanfTurn_cons, hadv2]
  simp [hverb]

theorem matchTrailingSpace_ascii (c0 : Nat) (d : List Nat) (br : Bool) (l : Nat) (buf : List Nat)
    (hc : c0 < 0x80) (hs : isSpace c0 = false) :
    (st (32 :: c0 :: d) br l false buf).matchTrailingSpace 0 = .ok () (st d br c0 true buf) := by
  have h32 : (32 : Nat) < 0x80 := by norm_num
  have hs32 : isSpace 32 = true := by decide
  simp only [ss.matchTrailingSpace, getRune_st_ascii 32 _ br l buf h32, st_fuel]
  simp [ss.skipBlanks, hs32, getRune_st_ascii c0 d br 32 buf hc, hs]

theorem fmtInt_head (n : Int) : ∃ c0 tl, fmtInt n = c0 :: tl ∧ c0 < 0x80 ∧ isSpace c0 = false := by
  rcases fmtInt_shape n with ⟨d0, ds, e, hd⟩ | ⟨d0, ds, e, _⟩
  · have := hd d0 (by simp)
    refine ⟨d0, ds, e, by omega, ?_⟩
    simp only [isSpace]; simp; omega
  · exact ⟨45, d0 :: ds, e, by norm_num, by decide⟩

theorem doVerb_int (n : Int) (h1 : -2 ^ 63 ≤ n) (h2 : n < 2 ^ 63) (c0 : Nat) (tl : List Nat)
    (hfmt : fmtInt n = c0 :: tl) (hs : isSpace c0 = false) (a : Nat) (rest : List Nat) (br : Bool)
    (buf : List Nat) (args : List Arg) (vals : List Val) (ha : a < 0x80) (hna : a ∉ decimalDigits) :
    (st (tl ++ a :: rest) br c0 true buf).doVerb 100 (Arg.int64 :: args) vals =
      .ok (vals ++ [Val.int n], args) (st rest br a true (c0 :: tl)) := by
  have hP := peeked_st (tl ++ a :: rest) br c0 buf
  simp [ss.doVerb, SkipSpace_peeked _ _ _ hP hs, ss.scanOne,
    scanInt_fmtInt n h1 h2 c0 tl hfmt a rest br ha hna]

/-- The turns of doScanf for a newline, a keyword of four letters, a space and
the verb `%d`, in front of the keyword, a space and a number written by `%d`. -/
theorem doScanfLoop_int (fuel : Nat) (k1 k2 k3 k4 : Nat)
    (a1 : k1 < 0x80) (a2 : k2 < 0x80) (a3 : k3 < 0x80) (a4 : k4 < 0x80)
    (s1 : isSpace k1 = false) (s2 : isSpace k2 = false) (s3 : isSpace k3 = false)
    (s4 : isSpace k4 = false) (p1 : k1 ≠ 37) (p2 : k2 ≠ 37) (p3 : k3 ≠ 37) (p4 : k4 ≠ 37)
    (fmt1 : List Nat) (args : List Arg) (vals : List Val)
    (n : Int) (h1 : -2 ^ 63 ≤ n) (h2 : n < 2 ^ 63)
    (a : Nat) (rest : List Nat) (br : Bool) (buf : List Nat)
    (ha : a < 0x80) (hna : a ∉ decimalDigits) :
    ss.doScanfLoop (fuel + 2) (10 :: k1 :: k2 :: k3 :: k4 :: 32 :: 37 :: 100 :: fmt1)
        (Arg.int64 :: args) vals
        (st (k1 :: k2 :: k3 :: k4 :: 32 :: (fmtInt n ++ a :: rest)) br 10 true buf) =
      ss.doScanfLoop fuel fmt1 args (vals ++ [Val.int n]) (st rest br a true (fmtInt n)) := by
  obtain ⟨c0, tl, hfmt, hc0, hs0⟩ := fmtInt_head n
  rw [hfmt]
  have hverb := doVerb_int n h1 h2 c0 tl hfmt hs0 a rest br buf args vals ha hna
  have s10 : isSpace 10 = true := by decide
  have s32 : isSpace 32 = true := by decide
  have s37 : isSpace 37 = false := by decide
  have hadv : ss.advance (10 :: k1 :: k2 :: k3 :: k4 :: 32 :: 37 :: 100 :: fmt1).length
      (10 :: k1 :: k2 :: k3 :: k4 :: 32 :: 37 :: 100 :: fmt1) 0
      (st (k1 :: k2 :: k3 :: k4 :: 32 :: ((c0 :: tl) ++ a :: rest)) br 10 true buf) =
        .ok 6 (st (tl ++ a :: rest) br c0 true buf) := by
    simp [ss.advance, advanceTurn_space, advanceTurn_lit, advanceTurn_verb, mustReadRune_st_ascii,
      spaceRun, ss.matchNewlines, skipBlanks_nl, matchTrailingSpace_ascii, s10, s32, s37,
      s1, s2, s3, s4, a1, a2, a3, a4, p1, p2, p3, p4, hc0, hs0]
  have hadv2 : ∀ P : ss, ss.advance (37 :: 100 :: fmt1).length (37 :: 100 :: fmt1) 0 P = .ok 0 P := by
    intro P
    simp [ss.advance, advanceTurn_verb]
  rw [ss.doScanfLoop, doScanfTurn_cons, hadv]
  simp only [show (0 : Int) < 6 by norm_num, if_true, show Int.toNat 6 = 6 by rfl,
    List.drop_succ_cons, List.drop_zero]
  rw [ss.doScanfLoop, doScanfTurn_cons, hadv2]
  simp [hverb]

theorem whitespaceFree_iff (p : List Nat) :
    whitespaceFree p = true ↔ ∀ r ∈ runes p, isSpace r = false := by
  simp [whitespaceFree, List.all_eq_true]

theorem requestFormat_eq : requestFormat =
    [70, 73, 76, 69, 32, 37, 115, 10, 70, 82, 79, 77, 32, 37, 100, 10] := by decide

theorem responseFormat_eq : responseFormat =
    [70, 73, 76, 69, 32, 37, 115, 10, 70, 82, 79, 77, 32, 37, 100, 10,
      83, 73, 90, 69, 32, 37, 100, 10] := by decide

theorem requestHeader_asBytes_eq (name : List Nat) (n : Int) (rest : List Nat) :
    requestHeader.asBytes ⟨name, n⟩ ++ rest =
      70 :: 73 :: 76 :: 69 :: 32 :: (name ++ 10 :: 70 :: 82 :: 79 :: 77 :: 32 ::
        (fmtInt n ++ 10 :: rest)) := by
  have e1 : ascii "FILE " = [70, 73, 76, 69, 32] := by decide
  have e2 : ascii "\nFROM " = [10, 70, 82, 79, 77, 32] := by decide
  have e3 : ascii "\n" = [10] := by decide
  simp [requestHeader.asBytes, e1, e2, e3]

theorem responseHeader_asBytes_eq (name : List Nat) (n sz : Int) (rest : List Nat) :
    responseHeader.asBytes ⟨name, n, sz⟩ ++ rest =
      70 :: 73 :: 76 :: 69 :: 32 :: (name ++ 10 :: 70 :: 82 :: 79 :: 77 :: 32 ::
        (fmtInt n ++ 10 :: 83 :: 73 :: 90 :: 69 :: 32 :: (fmtInt sz ++ 10 :: rest))) := by
  have e1 : ascii "FILE " = [70, 73, 76, 69, 32] := by decide
  have e2 : ascii "\nFROM " = [10, 70, 82, 79, 77, 32] := by decide
  have e3 : ascii "\n" = [10] := by decide
  have e4 : ascii "\nSIZE " = [10, 83, 73, 90, 69, 32] := by decide
  simp [responseHeader.asBytes, e1, e2, e3, e4]

theorem nl_not_digit : (10 : Nat) ∉ decimalDigits := by decide

/-- Reading back a request header that asBytes wrote: the name comes back rune
by rune, the offset as it was, and the reader stands right behind the header. -/
theorem readRequestHeader_asBytes (name : List Nat) (hne : name ≠ [])
    (hws : whitespaceFree name = true) (n : Int) (h1 : -2 ^ 63 ≤ n) (h2 : n < 2 ^ 63)
    (rest : List Nat) (br : Bool) :
    readRequestHeader ⟨requestHeader.asBytes ⟨name, n⟩ ++ rest, br⟩ =
      ((⟨encodeRunes (runes name), n⟩, none), ⟨rest, br⟩) := by
  rw [whitespaceFree_iff] at hws
  have s10 : isSpace 10 = true := by decide
  have hF := doScanfLoop_FILE 14 [10, 70, 82, 79, 77, 32, 37, 100, 10] [Arg.int64] [] name hne hws
    10 (70 :: 82 :: 79 :: 77 :: 32 :: (fmtInt n ++ 10 :: rest)) br [] 0 (by norm_num) s10
  have hI := doScanfLoop_int 12 70 82 79 77 (by norm_num) (by norm_num) (by norm_num) (by norm_num)
    (by decide) (by decide) (by decide) (by decide) (by norm_num) (by norm_num) (by norm_num)
    (by norm_num) [10] [] [Val.str (encodeRunes (runes name))] n h1 h2 10 rest br
    (encodeRunes (runes name)) (by norm_num) nl_not_digit
  have hL := doScanfLoop_last 11 [Val.str (encodeRunes (runes name)), Val.int n] rest br (fmtInt n)
  simp only [List.nil_append, List.cons_append] at hF hI hL
  simp only [readRequestHeader, Fscanf, ss.doScanf, requestFormat_eq, requestHeader_asBytes_eq,
    newScanState_st, List.length_cons, List.length_nil]
  rw [hF, hI, hL]
  rfl

/-- Reading back a response header that asBytes wrote. -/
theorem readResponseHeader_asBytes (name : List Nat) (hne : name ≠ [])
    (hws : whitespaceFree name = true) (n : Int) (h1 : -2 ^ 63 ≤ n) (h2 : n < 2 ^ 63)
    (sz : Int) (h3 : -2 ^ 63 ≤ sz) (h4 : sz < 2 ^ 63) (rest : List Nat) (br : Bool) :
    readResponseHeader ⟨responseHeader.asBytes ⟨name, n, sz⟩ ++ rest, br⟩ =
      ((⟨encodeRunes (runes name), n, sz⟩, none), ⟨rest, br⟩) := by
  rw [whitespaceFree_iff] at hws
  have s10 : isSpace 10 = true := by decide
  have hF := doScanfLoop_FILE 22
    [10, 70, 82, 79, 77, 32, 37, 100, 10, 83, 73, 90, 69, 32, 37, 100, 10] [Arg.int64, Arg.int64]
    [] name hne hws 10
    (70 :: 82 :: 79 :: 77 :: 32 :: (fmtInt n ++ 10 :: 83 :: 73 :: 90 :: 69 :: 32 ::
      (fmtInt sz ++ 10 :: rest))) br [] 0 (by norm_num) s10
  have hI := doScanfLoop_int 20 70 82 79 77 (by norm_num) (by norm_num) (by norm_num) (by norm_num)
    (by decide) (by decide) (by decide) (by decide) (by norm_num) (by norm_num) (by norm_num)
    (by norm_num) [10, 83, 73, 90, 69, 32, 37, 100, 10] [Arg.int64]
    [Val.str (encodeRunes (runes name))] n h1 h2 10
    (83 :: 73 :: 90 :: 69 :: 32 :: (fmtInt sz ++ 10 :: rest)) br
    (encodeRunes (runes name)) (by norm_num) nl_not_digit
  have hJ := doScanfLoop_int 18 83 73 90 69 (by norm_num) (by norm_num) (by norm_num) (by norm_num)
    (by decide) (by decide) (by decide) (by decide) (by norm_num) (by norm_num) (by norm_num)
    (by norm_num) [10] [] [Val.str (encodeRunes (runes name)), Val.int n] sz h3 h4 10 rest br
    (fmtInt n) (by norm_num) nl_not_digit
  have hL := doScanfLoop_last 17 [Val.str (encodeRunes (runes name)), Val.int n, Val.int sz]
    rest br (fmtInt sz)
  simp only [List.nil_append, List.cons_append] at hF hI hJ hL
  simp only [readResponseHeader, Fscanf, ss.doScanf, responseFormat_eq, responseHeader_asBytes_eq,
    newScanState_st, List.length_cons, List.length_nil]
  rw [hF, hI, hJ, hL]
  rfl

theorem decodeRune_two (b0 b1 : Nat) (rest : List Nat) (h0 : firstSize b0 = 2)
    (h1 : (decide (b1 < acceptLo b0) || decide (acceptHi b0 < b1)) = false) :
    decodeRune (b0 :: b1 :: rest) = ((b0 % 32) * 64 + b1 % 64, 2) := by
  simp [decodeRune, h0, h1]

theorem decodeRune_three (b0 b1 b2 : Nat) (rest : List Nat) (h0 : firstSize b0 = 3)
    (h1 : (decide (b1 < acceptLo b0) || decide (acceptHi b0 < b1)) = false)
    (h2 : isCont b2 = true) :
    decodeRune (b0 :: b1 :: b2 :: rest) = ((b0 % 16) * 4096 + (b1 % 64) * 64 + b2 % 64, 3) := by
  simp [decodeRune, h0, h1, h2]

theorem decodeRune_four (b0 b1 b2 b3 : Nat) (rest : List Nat) (h0 : firstSize b0 = 4)
    (h1 : (decide (b1 < acceptLo b0) || decide (acceptHi b0 < b1)) = false)
    (h2 : isCont b2 = true) (h3 : isCont b3 = true) :
    decodeRune (b0 :: b1 :: b2 :: b3 :: rest) =
      ((b0 % 8) * 262144 + (b1 % 64) * 4096 + (b2 % 64) * 64 + b3 % 64, 4) := by
  simp [decodeRune, h0, h1, h2, h3]

theorem isCont_low (x : Nat) : isCont (0x80 + x % 64) = true := by
  simp only [isCont, Bool.and_eq_true, decide_eq_true_eq]; omega

/-- Decoding what AppendRune wrote for a Unicode scalar value. -/
theorem decodeRune_encodeRune (r : Nat) (hv : validRune r = true) (rest : List Nat) :
    decodeRune (encodeRune r ++ rest) = (r, (encodeRune r).length) := by
  simp only [validRune, Bool.or_eq_true, Bool.and_eq_true, decide_eq_true_eq] at hv
  by_cases c1 : r ≤ 0x7F
  · have : r < 0x80 := by omega
    simp [encodeRune, c1, decodeRune_ascii, this]
  · by_cases c2 : r ≤ 0x7FF
    · have h0 : firstSize (0xC0 + r / 64) = 2 := by unfold firstSize; split_ifs <;> omega
      have h1 : (decide (0x80 + r % 64 < acceptLo (0xC0 + r / 64)) ||
          decide (acceptHi (0xC0 + r / 64) < 0x80 + r % 64)) = false := by
        simp only [Bool.or_eq_false_iff, decide_eq_false_iff_not, not_lt]
        unfold acceptLo acceptHi; split_ifs <;> omega
      simp only [encodeRune, c1, c2, if_false, if_true, List.cons_append, List.nil_append,
        decodeRune_two _ _ rest h0 h1, List.length_cons, List.length_nil, Prod.mk.injEq]
      refine ⟨by omega, by simp⟩
    · have c3 : ¬ (0x10FFFF < r) := by omega
      have c4 : ¬ (0xD800 ≤ r ∧ r ≤ 0xDFFF) := by omega
      have c34 : (decide (0x10FFFF < r) || (decide (0xD800 ≤ r) && decide (r ≤ 0xDFFF))) = false := by
        simp only [Bool.or_eq_false_iff, decide_eq_false_iff_not, Bool.and_eq_false_iff, not_le]
        omega
      by_cases c5 : r ≤ 0xFFFF
      · have h0 : firstSize (0xE0 + r / 4096) = 3 := by unfold firstSize; split_ifs <;> omega
        have h1 : (decide (0x80 + r / 64 % 64 < acceptLo (0xE0 + r / 4096)) ||
            decide (acceptHi (0xE0 + r / 4096) < 0x80 + r / 64 % 64)) = false := by
          simp only [Bool.or_eq_false_iff, decide_eq_false_iff_not, not_lt]
          unfold acceptLo acceptHi; split_ifs <;> omega
        simp only [encodeRune, c1, c2, c34, c5, if_false, if_true, List.cons_append,
          List.nil_append, Bool.false_eq_true,
          decodeRune_three _ _ _ rest h0 h1 (isCont_low r), List.length_cons, List.length_nil,
          Prod.mk.injEq]
        refine ⟨by omega, by simp⟩
      · have h0 : firstSize (0xF0 + r / 262144) = 4 := by unfold firstSize; split_ifs <;> omega
        have h1 : (decide (0x80 + r / 4096 % 64 < acceptLo (0xF0 + r / 262144)) ||
            decide (acceptHi (0xF0 + r / 262144) < 0x80 + r / 4096 % 64)) = false := by
          simp only [Bool.or_eq_false_iff, decide_eq_false_iff_not, not_lt]
          unfold acceptLo acceptHi; split_ifs <;> omega
        simp only [encodeRune, c1, c2, c34, c5, if_false, if_true, List.cons_append,
          List.nil_append, Bool.false_eq_true,
          decodeRune_four _ _ _ _ rest h0 h1 (isCont_low (r / 64)) (isCont_low r),
          List.length_cons, List.length_nil, Prod.mk.injEq]
        refine ⟨by omega, by simp⟩

theorem encodeRune_ne_nil (r : Nat) : encodeRune r ≠ [] := by
  unfold encodeRune; split_ifs <;> simp

/-- The runes of the UTF-8 encoding of Unicode scalar values are these values. -/
theorem runes_encodeRunes (rs : List Nat) (hv : ∀ r ∈ rs, validRune r = true) :
    runes (encodeRunes rs) = rs := by
  induction rs with
  | nil => simp [encodeRunes, runes_nil]
  | cons r t ih =>
    obtain ⟨b, tl, hb⟩ := List.exists_cons_of_ne_nil (encodeRune_ne_nil r)
    have hd := decodeRune_encodeRune r (hv r (by simp)) (encodeRunes t)
    have ih2 := ih (fun x hx => hv x (by simp [hx]))
    simp only [encodeRunes]
    rw [hb] at hd ⊢
    simp only [List.cons_append] at hd ⊢
    rw [runes_cons, hd]
    simp only [List.length_cons]
    rw [show b :: (tl ++ encodeRunes t) = (b :: tl) ++ encodeRunes t by simp,
      List.drop_append_of_le_length (by simp), List.drop_of_length_le (by simp)]
    simp [ih2]

theorem encodeRunes_ne_nil (rs : List Nat) (h : rs ≠ []) : encodeRunes rs ≠ [] := by
  obtain ⟨r, t, rfl⟩ := List.exists_cons_of_ne_nil h
  have := encodeRune_ne_nil r
  simp [encodeRunes, this]

/-! ## The transfer -/

theorem Write_out (conn : TCPConn) (b : List Nat) (h : (conn.Write b).1 = true) :
    (conn.Write b).2.out = conn.out ++ b ∧ (conn.Write b).2.inp = conn.inp ∧
      (conn.Write b).2.chunks = conn.chunks := by
  unfold TCPConn.Write at h ⊢
  cases hr : conn.room with
  | none => simp
  | some k =>
    simp only [hr] at h ⊢
    by_cases hk : b.length ≤ k
    · simp [hk]
    · simp [hk] at h

theorem Write_none (conn : TCPConn) (b : List Nat) (h : conn.room = none) :
    conn.Write b = (true, { conn with out := conn.out ++ b }) := by
  simp [TCPConn.Write, h]

/-- What a successful ReadFrom does: it moves a prefix of the bytes from the
read offset on. -/
theorem ReadFrom_ok (conn : TCPConn) (f : File) (h : (conn.ReadFrom f).1.2 = true) :
    ∃ k, (conn.ReadFrom f).1.1 = ((f.content.drop f.offset).take k).length ∧
      (conn.ReadFrom f).2.2.out = conn.out ++ (f.content.drop f.offset).take k ∧
      (conn.ReadFrom f).2.1 = { f with offset := f.offset + ((f.content.drop f.offset).take k).length } ∧
      (conn.ReadFrom f).2.2.chunks = conn.chunks.tail ∧
      (conn.chunks = [] → (f.content.drop f.offset).take k = f.content.drop f.offset) := by
  cases hc : conn.chunks with
  | nil =>
    refine ⟨(f.content.drop f.offset).length, ?_⟩
    simp only [List.take_length]
    cases hr : conn.room with
    | none => simp [TCPConn.ReadFrom, TCPConn.Write, hc, hr]
    | some m =>
      simp only [TCPConn.ReadFrom, TCPConn.Write, hc, hr] at h ⊢
      by_cases hk : (List.drop f.offset f.content).length ≤ m
      · simp only [hk, ↓reduceIte]; simp
      · simp only [hk, ↓reduceIte] at h; simp at h
  | cons k t =>
    refine ⟨k, ?_⟩
    cases hr : conn.room with
    | none => simp [TCPConn.ReadFrom, TCPConn.Write, hc, hr]
    | some m =>
      simp only [TCPConn.ReadFrom, TCPConn.Write, hc, hr] at h ⊢
      by_cases hk : (List.take k (List.drop f.offset f.content)).length ≤ m
      · simp only [hk, ↓reduceIte]; simp
      · simp only [hk, ↓reduceIte] at h; simp at h

theorem ReadFrom_room_none (conn : TCPConn) (f : File) (h : conn.room = none) :
    (conn.ReadFrom f).1.2 = true ∧ (conn.ReadFrom f).2.2.room = none := by
  cases hc : conn.chunks <;> simp [TCPConn.ReadFrom, TCPConn.Write, h, hc]

/-- The loop of send: when it ends without error all bytes from the read
offset to the end of the file are on the connection; it ends within one turn
more than there are short transfers. -/
theorem sendLoop_spec (fuel : Nat) : ∀ (remain : Int) (f : File) (conn : TCPConn),
    f.offset ≤ f.content.length → remain = (f.content.length : Int) - (f.offset : Int) →
    (∀ f1 conn1, sendLoop fuel remain f conn = some (none, f1, conn1) →
      conn1.out = conn.out ++ f.content.drop f.offset) ∧
    (conn.chunks.length + 1 ≤ fuel ∨ remain ≤ 0 → sendLoop fuel remain f conn ≠ none) ∧
    (conn.room = none → conn.chunks.length + 1 ≤ fuel ∨ remain ≤ 0 →
      ∃ f1 conn1, sendLoop fuel remain f conn = some (none, f1, conn1)) := by
  induction fuel with
  | zero =>
    intro remain f conn hoff hrem
    by_cases hr : 0 < remain
    · refine ⟨?_, ?_, ?_⟩
      · intro f1 conn1 h
        simp [sendLoop, hr] at h
      · intro h; omega
      · intro _ h; omega
    · have hstep : sendLoop 0 remain f conn = some (none, f, conn) := by
        simp [sendLoop, hr]
      rw [hstep]
      refine ⟨?_, by simp, fun _ _ => ⟨f, conn, rfl⟩⟩
      intro f1 conn1 h
      simp only [Option.some.injEq, Prod.mk.injEq, true_and] at h
      obtain ⟨_, rfl⟩ := h
      have : f.content.length ≤ f.offset := by omega
      simp [List.drop_of_length_le this]
  | succ fuel ih =>
    intro remain f conn hoff hrem
    by_cases hr : 0 < remain
    · by_cases hok : (conn.ReadFrom f).1.2 = true
      · obtain ⟨k, e1, e2, e3, e4, e5⟩ := ReadFrom_ok conn f hok
        have hlen : ((f.content.drop f.offset).take k).length ≤ f.content.length - f.offset := by
          simp
        have hstep : sendLoop (fuel + 1) remain f conn =
            sendLoop fuel (remain - ((conn.ReadFrom f).1.1 : Int)) (conn.ReadFrom f).2.1
              (conn.ReadFrom f).2.2 := by
          simp [sendLoop, hr, hok]
        have ho : (conn.ReadFrom f).2.1.offset =
            f.offset + ((f.content.drop f.offset).take k).length := by rw [e3]
        have hc : (conn.ReadFrom f).2.1.content = f.content := by rw [e3]
        have hoff2 : (conn.ReadFrom f).2.1.offset ≤ (conn.ReadFrom f).2.1.content.length := by
          rw [ho, hc]; omega
        have hrem2 : remain - ((conn.ReadFrom f).1.1 : Int) =
            ((conn.ReadFrom f).2.1.content.length : Int) - ((conn.ReadFrom f).2.1.offset : Int) := by
          rw [e1, ho, hc]; push_cast; omega
        have hch : (conn.ReadFrom f).2.2.chunks.length = conn.chunks.length - 1 := by
          rw [e4, List.length_tail]
        have hprem : conn.chunks.length + 1 ≤ fuel + 1 ∨ remain ≤ 0 →
            (conn.ReadFrom f).2.2.chunks.length + 1 ≤ fuel ∨
              remain - ((conn.ReadFrom f).1.1 : Int) ≤ 0 := by
          intro hf
          rcases hf with hf | hf
          · by_cases hnil : conn.chunks = []
            · right
              have := e5 hnil
              rw [e1, this, List.length_drop]
              omega
            · left
              have : 0 < conn.chunks.length := List.length_pos.mpr hnil
              omega
          · omega
        obtain ⟨i1, i2, i3⟩ := ih _ _ _ hoff2 hrem2
        rw [hstep]
        refine ⟨?_, ?_, ?_⟩
        · intro f1 conn1 h
          rw [i1 f1 conn1 h, e2, ho, hc, List.append_assoc]
          congr 1
          rw [List.length_take, ← List.drop_drop, List.length_drop]
          conv_rhs => rw [← List.take_append_drop k (List.drop f.offset f.content)]
          congr 1
          by_cases hk : k ≤ f.content.length - f.offset
          · rw [Nat.min_eq_left hk]
          · have h1 : (List.drop f.offset f.content).length ≤ k := by
              rw [List.length_drop]; omega
            rw [Nat.min_eq_right (by omega), List.drop_of_length_le h1, List.drop_of_length_le]
            rw [List.length_drop]
        · intro hf
          exact i2 (hprem hf)
        · intro hroom hf
          exact i3 (ReadFrom_room_none conn f hroom).2 (hprem hf)
      · have hstep : sendLoop (fuel + 1) remain f conn =
            some (some SendError.canNotDoSendfile, (conn.ReadFrom f).2.1, (conn.ReadFrom f).2.2) := by
          simp [sendLoop, hr, hok]
        rw [hstep]
        refine ⟨by simp, by simp, ?_⟩
        intro hroom
        exact absurd (ReadFrom_room_none conn f hroom).1 hok
    · have hstep : sendLoop (fuel + 1) remain f conn = some (none, f, conn) := by
        simp [sendLoop, hr]
      rw [hstep]
      refine ⟨?_, by simp, fun _ _ => ⟨f, conn, rfl⟩⟩
      intro f1 conn1 h
      simp only [Option.some.injEq, Prod.mk.injEq, true_and] at h
      obtain ⟨_, rfl⟩ := h
      have : f.content.length ≤ f.offset := by omega
      simp [List.drop_of_length_le this]

/-- What send has done when it returns without error. -/
theorem send_none (fuel : Nat) (f : File) (from_ : Nat) (conn : TCPConn)
    (hoff : f.offset = from_) (hF : from_ ≤ f.content.length) (f1 : File) (conn1 : TCPConn)
    (h : send fuel f (from_ : Int) conn = some (none, f1, conn1)) :
    conn1.out = conn.out ++ responseHeader.asBytes
      ⟨(filepathSplit f.name).2, (from_ : Int), (f.content.length : Int) - (from_ : Int)⟩ ++
        f.content.drop from_ := by
  by_cases hs : f.statFails = true
  · simp [send, File.Size, hs] at h
  · simp only [Bool.not_eq_true] at hs
    simp only [send, File.Size, hs, Bool.false_eq_true, if_false] at h
    by_cases hw : (conn.Write (responseHeader.asBytes
        ⟨(filepathSplit f.name).2, (from_ : Int), (f.content.length : Int) - (from_ : Int)⟩)).1 = true
    · simp only [hw, Bool.not_true, Bool.false_eq_true, if_false] at h
      obtain ⟨e1, _, _⟩ := Write_out _ _ hw
      have := (sendLoop_spec fuel _ f _ (by omega) (by rw [hoff])).1 f1 conn1 h
      rw [this, e1, hoff]
    · simp only [Bool.not_eq_true] at hw
      simp [hw] at h

/-- The function send returns when the turns suffice, and without error when
the connection takes all that is written. -/
theorem send_returns (fuel : Nat) (f : File) (from_ : Nat) (conn : TCPConn)
    (hoff : f.offset = from_) (hF : from_ ≤ f.content.length)
    (hfuel : conn.chunks.length + 1 ≤ fuel) :
    send fuel f (from_ : Int) conn ≠ none ∧
      (f.statFails = false → conn.room = none →
        ∃ f1 conn1, send fuel f (from_ : Int) conn = some (none, f1, conn1)) := by
  by_cases hs : f.statFails = true
  · simp [send, File.Size, hs]
  · simp only [Bool.not_eq_true] at hs
    simp only [send, File.Size, hs, Bool.false_eq_true, if_false]
    by_cases hw : (conn.Write (responseHeader.asBytes
        ⟨(filepathSplit f.name).2, (from_ : Int), (f.content.length : Int) - (from_ : Int)⟩)).1 = true
    · simp only [hw, Bool.not_true, Bool.false_eq_true, if_false]
      obtain ⟨_, _, e3⟩ := Write_out _ _ hw
      obtain ⟨_, i2, i3⟩ := sendLoop_spec fuel ((f.content.length : Int) - (from_ : Int)) f
        (conn.Write (responseHeader.asBytes
        ⟨(filepathSplit f.name).2, (from_ : Int), (f.content.length : Int) - (from_ : Int)⟩)).2
        (by omega) (by rw [hoff])
      refine ⟨i2 (Or.inl (by rw [e3]; exact hfuel)), ?_⟩
      intro _ hroom
      refine i3 ?_ (Or.inl (by rw [e3]; exact hfuel))
      rw [Write_none _ _ hroom]
      exact hroom
    · simp only [Bool.not_eq_true] at hw
      simp only [hw, Bool.not_false, if_true]
      refine ⟨by simp, ?_⟩
      intro _ hroom
      rw [Write_none _ _ hroom] at hw
      simp at hw

/-- What recive has done when it returns without error. -/
theorem recive_none (f : File) (conn : TCPConn) (f1 : File) (conn1 : TCPConn)
    (h : recive f conn = (none, f1, conn1)) :
    f.statFails = false ∧
    (conn.Write (requestHeader.asBytes ⟨(filepathSplit f.name).2, (f.content.length : Int)⟩)).1 = true ∧
    (readResponseHeader conn.inp).1.2 = none ∧
    f1.content = f.content ++ (readResponseHeader conn.inp).2.data ∧
    conn1.out = conn.out ++
      requestHeader.asBytes ⟨(filepathSplit f.name).2, (f.content.length : Int)⟩ := by
  by_cases hs : f.statFails = true
  · simp [recive, File.Size, hs] at h
  · simp only [Bool.not_eq_true] at hs
    simp only [recive, File.Size, hs, Bool.false_eq_true, if_false] at h
    by_cases hw : (conn.Write (requestHeader.asBytes
        ⟨(filepathSplit f.name).2, (f.content.length : Int)⟩)).1 = true
    · obtain ⟨e1, e2, _⟩ := Write_out _ _ hw
      simp only [hw, Bool.not_true, Bool.false_eq_true, if_false, e2] at h
      cases hrd : (readResponseHeader conn.inp).1.2 with
      | some e => simp [hrd] at h
      | none =>
        simp only [hrd] at h
        split_ifs at h with hm hc
        · simp at h
        · simp at h
        · simp only [ioCopy, Prod.mk.injEq, true_and] at h
          obtain ⟨rfl, rfl⟩ := h
          exact ⟨hs, hw, rfl, rfl, e1⟩
    · simp only [Bool.not_eq_true] at hw
      simp [hw] at h

/-- What the sending branch of main has done when it returns without error. -/
theorem sender_none (fuel : Nat) (f : File) (conn : TCPConn) (f1 : File) (conn1 : TCPConn)
    (h : sender fuel f conn = some (none, f1, conn1)) :
    (readRequestHeader conn.inp).1.2 = none ∧ 0 ≤ (readRequestHeader conn.inp).1.1.from_ ∧
    send fuel { f with offset := (readRequestHeader conn.inp).1.1.from_.toNat }
      (readRequestHeader conn.inp).1.1.from_ { conn with inp := (readRequestHeader conn.inp).2 } =
        some (none, f1, conn1) := by
  simp only [sender] at h
  cases hrd : (readRequestHeader conn.inp).1.2 with
  | some e => simp [hrd] at h
  | none =>
    simp only [hrd] at h
    by_cases hneg : (readRequestHeader conn.inp).1.1.from_ < 0
    · simp [File.Seek, hneg] at h
    · simp only [File.Seek, hneg, if_false] at h
      refine ⟨rfl, by omega, ?_⟩
      cases hsend : send fuel { f with offset := (readRequestHeader conn.inp).1.1.from_.toNat }
          (readRequestHeader conn.inp).1.1.from_ { conn with inp := (readRequestHeader conn.inp).2 } with
      | none => simp [hsend] at h
      | some r =>
        obtain ⟨e, f2, conn2⟩ := r
        cases e with
        | some e => simp [hsend] at h
        | none =>
          simp only [hsend, Option.some.injEq, Prod.mk.injEq, true_and] at h
          obtain ⟨rfl, rfl⟩ := h
          rfl

/-! ## The claims -/

/-- C1. End-to-end resume: the sender has a file with content D, the receiver
a file with content P that is not longer, both with the same non-empty base
name without white space; the sender reads what the receiver wrote and the
receiver reads what the sender wrote, up to the end of the stream. When the
sending branch of main and recive both return without error, the receiver's
file is P followed by the bytes of D from offset |P| on: it is as long as D
and from offset |P| on it equals D. -/
theorem C1_end_to_end_resume (fuel : Nat) (sf rf sf1 rf1 : File) (sc rc sc1 rc1 : TCPConn)
    (b : List Nat) (hsn : (filepathSplit sf.name).2 = b) (hrn : (filepathSplit rf.name).2 = b)
    (hb : b ≠ []) (hws : whitespaceFree b = true)
    (hK : rf.content.length ≤ sf.content.length) (hS : sf.content.length < 2 ^ 63)
    (hsc : sc.out = []) (hrc : rc.out = [])
    (hsend : sender fuel sf sc = some (none, sf1, sc1))
    (hrecv : recive rf rc = (none, rf1, rc1))
    (hreq : sc.inp.data = rc1.out) (hresp : rc.inp = ⟨sc1.out, false⟩) :
    rf1.content = rf.content ++ sf.content.drop rf.content.length ∧
      rf1.content.length = sf.content.length ∧
      rf1.content.drop rf.content.length = sf.content.drop rf.content.length := by
  obtain ⟨_, _, _, r4, r5⟩ := recive_none rf rc rf1 rc1 hrecv
  obtain ⟨_, _, s3⟩ := sender_none fuel sf sc sf1 sc1 hsend
  have hK1 : (-2 : Int) ^ 63 ≤ (rf.content.length : Int) := by
    have : (0 : Int) ≤ (rf.content.length : Int) := Int.ofNat_nonneg _
    norm_num; omega
  have hK2 : (rf.content.length : Int) < 2 ^ 63 := by
    have : (rf.content.length : Int) < ((2 ^ 63 : Nat) : Int) := by exact_mod_cast (by omega)
    simpa using this
  have hinp : sc.inp = ⟨requestHeader.asBytes ⟨b, (rf.content.length : Int)⟩ ++ [], sc.inp.broken⟩ := by
    rw [hrc, hrn, List.nil_append] at r5
    rw [List.append_nil, ← r5, ← hreq]
  have hrq := readRequestHeader_asBytes b hb hws (rf.content.length : Int) (by simpa using hK1) hK2 []
    sc.inp.broken
  rw [← hinp] at hrq
  rw [hrq] at s3
  simp only [Int.toNat_ofNat] at s3
  have hout := send_none fuel { sf with offset := rf.content.length } rf.content.length _ rfl hK
    sf1 sc1 s3
  simp only [hsc, hsn, List.nil_append] at hout
  have hD1 : (-2 : Int) ^ 63 ≤ (sf.content.length : Int) - (rf.content.length : Int) := by
    norm_num; omega
  have hD2 : (sf.content.length : Int) - (rf.content.length : Int) < 2 ^ 63 := by
    have : (sf.content.length : Int) < ((2 ^ 63 : Nat) : Int) := by exact_mod_cast hS
    have h0 : (0 : Int) ≤ (rf.content.length : Int) := Int.ofNat_nonneg _
    simp only [Nat.cast_pow, Nat.cast_ofNat] at this
    omega
  have hrs := readResponseHeader_asBytes b hb hws (rf.content.length : Int) (by simpa using hK1) hK2
    ((sf.content.length : Int) - (rf.content.length : Int)) (by simpa using hD1) hD2
    (sf.content.drop rf.content.length) false
  rw [← hout, ← hresp] at hrs
  rw [hrs] at r4
  refine ⟨r4, ?_, ?_⟩
  · rw [r4, List.length_append, List.length_drop]; omega
  · rw [r4, List.drop_left]

/-- C2. Sender byte count: for a file of size S whose read offset is F, with
F at most S, send returns when its loop is given one turn more than there are
short transfers (without error when the connection takes all that is
written), and whenever it returns without error the connection holds, after
what it held, the response header with `from` F and `size` S - F and then the
bytes of the file from offset F to its end, however the bytes were spread
over the ReadFrom calls. -/
theorem C2_send_byte_count (fuel : Nat) (f : File) (F : Nat) (conn : TCPConn)
    (hoff : f.offset = F) (hF : F ≤ f.content.length) :
    (conn.chunks.length + 1 ≤ fuel → send fuel f (F : Int) conn ≠ none) ∧
    (conn.chunks.length + 1 ≤ fuel → f.statFails = false → conn.room = none →
      ∃ f1 conn1, send fuel f (F : Int) conn = some (none, f1, conn1)) ∧
    (∀ f1 conn1, send fuel f (F : Int) conn = some (none, f1, conn1) →
      conn1.out = conn.out ++ responseHeader.asBytes
        ⟨(filepathSplit f.name).2, (F : Int), (f.content.length : Int) - (F : Int)⟩ ++
          f.content.drop F ∧
      (f.content.drop F).length = f.content.length - F) :=
  ⟨fun h => (send_returns fuel f F conn hoff hF h).1,
    fun h => (send_returns fuel f F conn hoff hF h).2,
    fun f1 conn1 h => ⟨send_none fuel f F conn hoff hF f1 conn1 h, List.length_drop _ _⟩⟩

/-- C3. Resume offset in the request: when Stat succeeds and the connection
takes the header, what recive writes to the connection is the request header
of the base name of the local file and of its size: `FILE`, a space, the
name, a newline, `FROM`, a space, the size in decimal, a newline. -/
theorem C3_request_carries_local_size (f : File) (conn : TCPConn) (hs : f.statFails = false)
    (hw : (conn.Write (requestHeader.asBytes
      ⟨(filepathSplit f.name).2, (f.content.length : Int)⟩)).1 = true) :
    (recive f conn).2.2.out = conn.out ++
        requestHeader.asBytes ⟨(filepathSplit f.name).2, (f.content.length : Int)⟩ ∧
      requestHeader.asBytes ⟨(filepathSplit f.name).2, (f.content.length : Int)⟩ =
        ascii "FILE " ++ (filepathSplit f.name).2 ++ ascii "\nFROM " ++
          fmtInt (f.content.length : Int) ++ ascii "\n" := by
  refine ⟨?_, rfl⟩
  obtain ⟨e1, _, _⟩ := Write_out _ _ hw
  simp only [recive, File.Size, hs, Bool.false_eq_true, if_false, hw, Bool.not_true]
  cases hrd : (readResponseHeader (conn.Write (requestHeader.asBytes
      ⟨(filepathSplit f.name).2, (f.content.length : Int)⟩)).2.inp).1.2 with
  | some e => simp [e1]
  | none =>
    simp only
    split_ifs <;> simp [ioCopy, e1]

/-- C4. Mismatch rejection: the local file is not empty, the request was sent
and a response header was read whose file name is not the local base name.
Then recive returns the mismatch error, the file is as it was, and the bytes
that follow the header are still on the connection, unread. -/
theorem C4_mismatch_rejection (f : File) (conn : TCPConn) (resp : responseHeader) (rest : Stream)
    (hs : f.statFails = false) (hK : f.content ≠ [])
    (hw : (conn.Write (requestHeader.asBytes
      ⟨(filepathSplit f.name).2, (f.content.length : Int)⟩)).1 = true)
    (hrd : readResponseHeader conn.inp = ((resp, none), rest))
    (hne : resp.filename ≠ (filepathSplit f.name).2) :
    (recive f conn).1 =
        some (ReciveError.requestFileNameMismatch (filepathSplit f.name).2 resp.filename) ∧
      (recive f conn).2.1 = f ∧ (recive f conn).2.2.inp = rest := by
  obtain ⟨_, e2, _⟩ := Write_out _ _ hw
  have hlen : ¬ ((f.content.length : Int) = 0) := by
    have : f.content.length ≠ 0 := fun h => hK (List.length_eq_zero.mp h)
    exact_mod_cast this
  simp [recive, File.Size, hs, hw, e2, hrd, hne, hlen]

/-- C5. When the mismatch is raised: the request was sent and a response
header was read. Then recive returns the mismatch error exactly when the file
name of the response is not the local base name and the local file is not
empty; in every other case, so whenever the local file is empty, recive goes
on to the copy: the bytes after the header are put at the end of the file. -/
theorem C5_mismatch_iff (f : File) (conn : TCPConn) (resp : responseHeader) (rest : Stream)
    (hs : f.statFails = false)
    (hw : (conn.Write (requestHeader.asBytes
      ⟨(filepathSplit f.name).2, (f.content.length : Int)⟩)).1 = true)
    (hrd : readResponseHeader conn.inp = ((resp, none), rest)) :
    ((∃ want got, (recive f conn).1 = some (ReciveError.requestFileNameMismatch want got)) ↔
        (resp.filename ≠ (filepathSplit f.name).2 ∧ f.content.length ≠ 0)) ∧
      (¬ (resp.filename ≠ (filepathSplit f.name).2 ∧ f.content.length ≠ 0) →
        (recive f conn).2.1.content = f.content ++ rest.data ∧
        (recive f conn).1 = (if rest.broken then some ReciveError.canNotReciveRemoteFile else none)) ∧
      (f.content.length = 0 →
        (recive f conn).2.1.content = f.content ++ rest.data) := by
  obtain ⟨_, e2, _⟩ := Write_out _ _ hw
  have hcast : ((f.content.length : Int) = 0) ↔ f.content.length = 0 := by
    constructor <;> intro h <;> exact_mod_cast h
  by_cases hm : resp.filename ≠ (filepathSplit f.name).2 ∧ f.content.length ≠ 0
  · have h1 : ¬ ((f.content.length : Int) = 0) := fun h => hm.2 (hcast.mp h)
    refine ⟨⟨fun _ => hm, fun _ => ⟨(filepathSplit f.name).2, resp.filename, ?_⟩⟩,
      fun h => absurd hm h, fun h => absurd h hm.2⟩
    simp [recive, File.Size, hs, hw, e2, hrd, hm.1, h1]
  · have hcond : (decide (resp.filename ≠ (filepathSplit f.name).2) &&
        decide ((f.content.length : Int) ≠ 0)) = false := by
      rw [Bool.and_eq_false_iff]
      by_cases h1 : resp.filename ≠ (filepathSplit f.name).2
      · right
        have : f.content.length = 0 := by
          by_contra h2; exact hm ⟨h1, h2⟩
        simp [this]
      · left; simp only [ne_eq, Decidable.not_not] at h1; simp [h1]
    have hres : recive f conn =
        ((if rest.broken then some ReciveError.canNotReciveRemoteFile else none),
          { f with content := f.content ++ rest.data },
          { (conn.Write (requestHeader.asBytes
              ⟨(filepathSplit f.name).2, (f.content.length : Int)⟩)).2 with
            inp := { rest with data := [] } }) := by
      simp only [recive, File.Size, hs, Bool.false_eq_true, if_false, hw, Bool.not_true, e2, hrd,
        hcond, ioCopy]
      cases rest.broken <;> simp
    refine ⟨⟨?_, fun h => absurd h hm⟩, fun _ => ?_, fun _ => ?_⟩
    · rintro ⟨want, got, h⟩
      rw [hres] at h
      cases hb : rest.broken <;> simp [hb] at h
    · rw [hres]; exact ⟨rfl, rfl⟩
    · rw [hres]

/-! ### Instances of the claims -/

theorem C1_witness :
    exReceiverFile1.content = exReceiverFile.content ++
        exSenderFile.content.drop exReceiverFile.content.length ∧
      exReceiverFile1.content.length = exSenderFile.content.length ∧
      exReceiverFile1.content.drop exReceiverFile.content.length =
        exSenderFile.content.drop exReceiverFile.content.length :=
  C1_end_to_end_resume 1 exSenderFile exReceiverFile exSenderFile1 exReceiverFile1
    ⟨⟨exRequest, false⟩, [], none, []⟩ ⟨⟨exResponse, false⟩, [], none, []⟩
    ⟨⟨[], false⟩, exResponse, none, []⟩ ⟨⟨[], false⟩, exRequest, none, []⟩
    (ascii "a.txt") (by decide) (by decide) (by decide) (by decide) (by decide)
    (by norm_num [exSenderFile]) rfl rfl (by decide) (by decide) rfl rfl

theorem C2_witness :
    (([2, 0, 1] : List Nat).length + 1 ≤ 4 →
      send 4 { exSenderFile with offset := 40 } ((40 : Nat) : Int) ⟨⟨[], false⟩, [], none, [2, 0, 1]⟩ ≠
        none) ∧
    (([2, 0, 1] : List Nat).length + 1 ≤ 4 → ({ exSenderFile with offset := 40 } : File).statFails = false →
      (none : Option Nat) = none →
      ∃ f1 conn1, send 4 { exSenderFile with offset := 40 } ((40 : Nat) : Int)
        ⟨⟨[], false⟩, [], none, [2, 0, 1]⟩ = some (none, f1, conn1)) ∧
    (∀ f1 conn1, send 4 { exSenderFile with offset := 40 } ((40 : Nat) : Int)
        ⟨⟨[], false⟩, [], none, [2, 0, 1]⟩ = some (none, f1, conn1) →
      conn1.out = [] ++ responseHeader.asBytes
        ⟨(filepathSplit exSenderFile.name).2, ((40 : Nat) : Int),
          (exSenderFile.content.length : Int) - ((40 : Nat) : Int)⟩ ++
          exSenderFile.content.drop 40 ∧
      (exSenderFile.content.drop 40).length = exSenderFile.content.length - 40) :=
  C2_send_byte_count 4 { exSenderFile with offset := 40 } 40 ⟨⟨[], false⟩, [], none, [2, 0, 1]⟩
    rfl (by decide)

theorem C3_witness :
    (recive exReceiverFile ⟨⟨exResponse, false⟩, [], none, []⟩).2.2.out =
        [] ++ requestHeader.asBytes ⟨(filepathSplit exReceiverFile.name).2,
          (exReceiverFile.content.length : Int)⟩ ∧
      requestHeader.asBytes ⟨(filepathSplit exReceiverFile.name).2,
          (exReceiverFile.content.length : Int)⟩ =
        ascii "FILE " ++ (filepathSplit exReceiverFile.name).2 ++ ascii "\nFROM " ++
          fmtInt (exReceiverFile.content.length : Int) ++ ascii "\n" :=
  C3_request_carries_local_size exReceiverFile ⟨⟨exResponse, false⟩, [], none, []⟩ rfl (by decide)

theorem C4_witness :
    (recive exShortFile ⟨⟨exOtherResponse, false⟩, [], none, []⟩).1 =
        some (ReciveError.requestFileNameMismatch (filepathSplit exShortFile.name).2 (ascii "b.txt")) ∧
      (recive exShortFile ⟨⟨exOtherResponse, false⟩, [], none, []⟩).2.1 = exShortFile ∧
      (recive exShortFile ⟨⟨exOtherResponse, false⟩, [], none, []⟩).2.2.inp = ⟨ascii "xyz", false⟩ :=
  C4_mismatch_rejection exShortFile ⟨⟨exOtherResponse, false⟩, [], none, []⟩
    ⟨ascii "b.txt", 5, 3⟩ ⟨ascii "xyz", false⟩ rfl (by decide) (by decide) (by decide) (by decide)

theorem C5_witness :
    ((∃ want got, (recive exEmptyFile ⟨⟨exOtherResponse, false⟩, [], none, []⟩).1 =
          some (ReciveError.requestFileNameMismatch want got)) ↔
        (ascii "b.txt" ≠ (filepathSplit exEmptyFile.name).2 ∧ exEmptyFile.content.length ≠ 0)) ∧
      (¬ (ascii "b.txt" ≠ (filepathSplit exEmptyFile.name).2 ∧ exEmptyFile.content.length ≠ 0) →
        (recive exEmptyFile ⟨⟨exOtherResponse, false⟩, [], none, []⟩).2.1.content =
          exEmptyFile.content ++ ascii "xyz" ∧
        (recive exEmptyFile ⟨⟨exOtherResponse, false⟩, [], none, []⟩).1 =
          (if false then some ReciveError.canNotReciveRemoteFile else none)) ∧
      (exEmptyFile.content.length = 0 →
        (recive exEmptyFile ⟨⟨exOtherResponse, false⟩, [], none, []⟩).2.1.content =
          exEmptyFile.content ++ ascii "xyz") :=
  C5_mismatch_iff exEmptyFile ⟨⟨exOtherResponse, false⟩, [], none, []⟩
    ⟨ascii "b.txt", 5, 3⟩ ⟨ascii "xyz", false⟩ rfl (by decide) (by decide)

/-- C6, as stated, fails: the empty file name has no white space, and the
request header written for it and offset 0 is not read back: the scan ends
with the error `unexpected newline`. -/
theorem C6_counterexample :
    whitespaceFree [] = true ∧
      (readRequestHeader ⟨requestHeader.asBytes ⟨[], 0⟩, false⟩).1 =
        (⟨[], 0⟩, some ScanError.unexpectedNewline) := by
  decide

/-- C6, amended. Request round trip: for every file name that is the UTF-8
encoding of a non-empty sequence of Unicode scalar values none of which is
white space, and every offset from 0 to 2^63 - 1, readRequestHeader on a
stream that starts with the bytes of asBytes gives the header back without
error, and has read these bytes and no more. -/
theorem C6_request_round_trip (rs : List Nat) (n : Int) (rest : List Nat) (br : Bool)
    (hne : rs ≠ []) (hv : ∀ r ∈ rs, validRune r = true) (hsp : ∀ r ∈ rs, isSpace r = false)
    (h0 : 0 ≤ n) (h1 : n < 2 ^ 63) :
    readRequestHeader ⟨requestHeader.asBytes ⟨encodeRunes rs, n⟩ ++ rest, br⟩ =
      ((⟨encodeRunes rs, n⟩, none), ⟨rest, br⟩) := by
  have hr := runes_encodeRunes rs hv
  have hws : whitespaceFree (encodeRunes rs) = true := by
    rw [whitespaceFree_iff, hr]; exact hsp
  have := readRequestHeader_asBytes (encodeRunes rs) (encodeRunes_ne_nil rs hne) hws n
    (by norm_num; omega) h1 rest br
  rw [hr] at this
  exact this

theorem C6_witness :
    readRequestHeader ⟨requestHeader.asBytes ⟨encodeRunes [97, 0x20AC, 46, 116], 40⟩ ++ [1, 2], false⟩ =
      ((⟨encodeRunes [97, 0x20AC, 46, 116], 40⟩, none), ⟨[1, 2], false⟩) :=
  C6_request_round_trip [97, 0x20AC, 46, 116] 40 [1, 2] false (by decide) (by decide) (by decide)
    (by decide) (by norm_num)

/-- C7, as stated, fails: the file name of the one byte 0xFF is not empty and
has no white space, yet the response header written for it is read back with
another name, the three bytes of U+FFFD. -/
theorem C7_counterexample :
    whitespaceFree [0xFF] = true ∧
      readResponseHeader ⟨responseHeader.asBytes ⟨[0xFF], 0, 0⟩ ++ [1, 2], false⟩ =
        ((⟨[0xEF, 0xBF, 0xBD], 0, 0⟩, none), ⟨[1, 2], false⟩) := by
  decide

/-- C7, amended. Response round trip: for every file name that is the UTF-8
encoding of a non-empty sequence of Unicode scalar values none of which is
white space, and all `from` and `size` in the range of int64, readResponseHeader
on a stream that holds the bytes of asBytes and then the bytes `rest` gives
the header back without error and leaves a reader that holds `rest`: no byte
of `rest` was read, whatever its first byte is. -/
theorem C7_response_round_trip (rs : List Nat) (n sz : Int) (rest : List Nat) (br : Bool)
    (hne : rs ≠ []) (hv : ∀ r ∈ rs, validRune r = true) (hsp : ∀ r ∈ rs, isSpace r = false)
    (h0 : -2 ^ 63 ≤ n) (h1 : n < 2 ^ 63) (h2 : -2 ^ 63 ≤ sz) (h3 : sz < 2 ^ 63) :
    readResponseHeader ⟨responseHeader.asBytes ⟨encodeRunes rs, n, sz⟩ ++ rest, br⟩ =
      ((⟨encodeRunes rs, n, sz⟩, none), ⟨rest, br⟩) := by
  have hr := runes_encodeRunes rs hv
  have hws : whitespaceFree (encodeRunes rs) = true := by
    rw [whitespaceFree_iff, hr]; exact hsp
  have := readResponseHeader_asBytes (encodeRunes rs) (encodeRunes_ne_nil rs hne) hws n h0 h1 sz
    h2 h3 rest br
  rw [hr] at this
  exact this

theorem C7_witness :
    readResponseHeader
        ⟨responseHeader.asBytes ⟨encodeRunes [97, 0x20AC, 46, 116], 40, 60⟩ ++ [48, 10, 32], true⟩ =
      ((⟨encodeRunes [97, 0x20AC, 46, 116], 40, 60⟩, none), ⟨[48, 10, 32], true⟩) :=
  C7_response_round_trip [97, 0x20AC, 46, 116] 40 60 [48, 10, 32] true (by decide) (by decide)
    (by decide) (by norm_num) (by norm_num) (by norm_num) (by norm_num)

/-- C9. The code at a request beyond the end of the file: the file has 3
bytes and the request asks for offset 5. Seek succeeds, send returns without
error, and the response header `FILE a`, `FROM 5`, `SIZE -2` is written, with
a negative size and no bytes after it. -/
theorem C9_negative_size_sent :
    sender 1 ⟨ascii "a", [120, 121, 122], 0, false⟩ ⟨⟨ascii "FILE a\nFROM 5\n", false⟩, [], none, []⟩ =
      some (none, ⟨ascii "a", [120, 121, 122], 5, false⟩,
        ⟨⟨[], false⟩, ascii "FILE a\nFROM 5\nSIZE -2\n", none, []⟩) := by
  decide

/-! ### Streams that the scan rejects at the text `FILE ` -/

/-- A rune that starts with a byte from 0x80 on is no ASCII rune. -/
theorem decodeRune_ge (b : Nat) (t : List Nat) (hb : ¬ b < 0x80) :
    0x80 ≤ (decodeRune (b :: t)).1 := by
  have h2 : firstSize b = 2 → 0xC2 ≤ b ∧ b < 0xE0 := by unfold firstSize; split_ifs <;> omega
  have h3 : firstSize b = 3 → 0xE0 ≤ b ∧ b < 0xF0 := by unfold firstSize; split_ifs <;> omega
  have h4 : firstSize b = 4 → 0xF0 ≤ b ∧ b < 0xF5 := by unfold firstSize; split_ifs <;> omega
  have h5 : firstSize b ≤ 4 := firstSize_le b
  have l1 : 0x80 ≤ acceptLo b := by unfold acceptLo; split_ifs <;> omega
  have l2 : b = 0xE0 → 0xA0 ≤ acceptLo b := by unfold acceptLo; split_ifs <;> omega
  have l3 : b = 0xF0 → 0x90 ≤ acceptLo b := by unfold acceptLo; split_ifs <;> omega
  have l4 : acceptHi b ≤ 0xBF := by unfold acceptHi; split_ifs <;> omega
  rcases t with _ | ⟨b1, _ | ⟨b2, _ | ⟨b3, t3⟩⟩⟩ <;> simp only [decodeRune, List.length_cons,
    List.length_nil] <;> generalize firstSize b = k at * <;> generalize acceptLo b = lo at * <;>
    generalize acceptHi b = hi at * <;> split_ifs <;>
    simp only [RuneError, Bool.or_eq_true, decide_eq_true_eq, not_or, not_lt] at * <;> omega

/-- The rune that ReadRune gives, when it gives one, is the first rune of the
bytes to come, also on a stream that ends with a read error. -/
theorem ReadRune_clean_value (b0 : Nat) (d : List Nat) (broken : Bool) (l : Nat) :
    match readRune.ReadRune ⟨⟨b0 :: d, broken⟩, [], l, false⟩ with
    | .ok v _ => v = (decodeRune (b0 :: d)).1
    | .err _ _ => True := by
  by_cases hb : b0 < 0x80
  · simp [readRune.ReadRune, readRune.readByte, RuneSelf, hb, decodeRune_ascii]
  · have hk := firstSize_cases b0 hb
    have e1 : ∀ n : Nat, ¬ (n + 1 + 1 + 1 < 2) := by omega
    have e2 : ∀ n : Nat, ¬ (n + 1 + 1 + 1 + 1 < 2) := by omega
    have e3 : ∀ n : Nat, ¬ (n + 1 + 1 + 1 + 1 < 3) := by omega
    have e4 : ∀ n : Nat, ¬ (n + 1 + 1 + 1 + 1 < 4) := by omega
    rcases d with _ | ⟨b1, t1⟩
    · cases broken <;> rcases hk with hk | hk | hk | hk <;>
        simp [readRune.ReadRune, readRune.readByte, readRune.fill, fullRune, decodeRune,
          RuneSelf, hb, hk]
    · cases hout : (decide (b1 < acceptLo b0) || decide (acceptHi b0 < b1))
      · have hf1 := firstSize_of_accept b0 b1 hout
        rcases t1 with _ | ⟨b2, t2⟩
        · cases broken <;> rcases hk with hk | hk | hk | hk <;>
            simp [readRune.ReadRune, readRune.readByte, readRune.fill, fullRune,
              decodeRune, RuneSelf, hb, hk, hout]
        · cases hc2 : isCont b2
          · rcases hk with hk | hk | hk | hk <;>
              simp [readRune.ReadRune, readRune.readByte, readRune.fill, fullRune,
                decodeRune, RuneSelf, hb, hk, hout, hc2, hf1, e1, e2, e3, e4]
          · have hf2 := firstSize_of_isCont b2 hc2
            rcases t2 with _ | ⟨b3, t3⟩
            · cases broken <;> rcases hk with hk | hk | hk | hk <;>
                simp [readRune.ReadRune, readRune.readByte, readRune.fill, fullRune,
                  decodeRune, RuneSelf, hb, hk, hout, hc2, hf1, e1, e2, e3, e4]
            · cases hc3 : isCont b3 <;> rcases hk with hk | hk | hk | hk <;>
                simp [readRune.ReadRune, readRune.readByte, readRune.fill, fullRune,
                  decodeRune, RuneSelf, hb, hk, hout, hc2, hc3, hf1, hf2, e1, e2, e3, e4]
      · rcases hk with hk | hk | hk | hk <;>
          simp [readRune.ReadRune, readRune.readByte, readRune.fill, fullRune,
            decodeRune, RuneSelf, hb, hk, hout]

/-- The method getRune in front of at least one byte: an error, or the first
rune of the bytes. -/
theorem getRune_st_value (b : Nat) (t : List Nat) (br : Bool) (l : Nat) (buf : List Nat) :
    (∃ e s1, (st (b :: t) br l false buf).getRune = .err e s1) ∨
      ∃ s1, (st (b :: t) br l false buf).getRune = .ok (some (decodeRune (b :: t)).1) s1 := by
  have h := ReadRune_clean_value b t br l
  cases hr : readRune.ReadRune ⟨⟨b :: t, br⟩, [], l, false⟩ with
  | ok v r1 =>
    rw [hr] at h
    simp only at h
    subst h
    right
    simp [st, ss.getRune, ss.ReadRune, hr]
  | err e r1 =>
    cases e with
    | EOF =>
      right
      exfalso
      revert hr
      by_cases hb : b < 0x80
      · simp [readRune.ReadRune, readRune.readByte, RuneSelf, hb]
      · simp only [readRune.ReadRune, readRune.readByte, RuneSelf, hb, Bool.false_eq_true,
          if_false]
        cases hf : readRune.fill 4 [b] ⟨⟨t, br⟩, [], l, false⟩ with
        | ok buf2 r2 => simp
        | err e2 r2 =>
          simp only [Res.err.injEq]
          rintro ⟨rfl, _⟩
          revert hf
          have hfull : ∀ (n : Nat) (bf : List Nat) (r r2 : readRune),
              readRune.fill n bf r ≠ .err IOErr.EOF r2 := by
            intro n
            induction n with
            | zero => intro bf r r2; simp [readRune.fill]
            | succ n ih =>
              intro bf r r2
              rw [readRune.fill]
              split_ifs
              · simp
              · cases hrb : r.readByte with
                | ok b1 r1 => simp only; exact ih _ _ _
                | err e3 r3 => cases e3 <;> simp
          exact hfull _ _ _ _
    | other =>
      left
      simp [st, ss.getRune, ss.ReadRune, hr]

/-- The method mustReadRune at the end of the bytes fails. -/
theorem mustReadRune_st_nil (br : Bool) (l : Nat) (buf : List Nat) :
    ∃ e s1, (st [] br l false buf).mustReadRune = .err e s1 := by
  cases br <;>
    simp [st, ss.mustReadRune, ss.getRune, ss.ReadRune, readRune.ReadRune, readRune.readByte]

/-- A turn of advance at an ASCII letter of the format: the input starts with
that letter and the loop goes on behind it, or the method ends with an error
or with `-1`. -/
theorem advance_lit_cases (fuel : Nat) (c : Nat) (rest : List Nat) (i : Nat) (d : List Nat)
    (br : Bool) (l : Nat) (buf : List Nat) (hc : c < 0x80) (hs : isSpace c = false)
    (hp : c ≠ 37) :
    (∃ d1, d = c :: d1 ∧ ss.advance (fuel + 1) (c :: rest) i (st d br l false buf) =
        ss.advance fuel rest (i + 1) (st d1 br c false buf)) ∨
      (∃ e s1, ss.advance (fuel + 1) (c :: rest) i (st d br l false buf) = .err e s1) ∨
      ∃ s1, ss.advance (fuel + 1) (c :: rest) i (st d br l false buf) = .ok (-1) s1 := by
  rw [ss.advance, advanceTurn_lit _ c _ _ hs hp]
  rcases d with _ | ⟨b, t⟩
  · obtain ⟨e, s1, h⟩ := mustReadRune_st_nil br l buf
    right; left
    exact ⟨e, s1, by rw [h]⟩
  · by_cases hb : b < 0x80
    · rw [mustReadRune_st_ascii b t br l buf hb]
      by_cases hcb : c = b
      · subst hcb
        left
        exact ⟨t, rfl, by simp⟩
      · right; right
        simp [hcb]
    · have hge := decodeRune_ge b t hb
      rcases getRune_st_value b t br l buf with ⟨e, s1, h⟩ | ⟨s1, h⟩
      · right; left
        simp [ss.mustReadRune, h]
      · right; right
        have hne : c ≠ (decodeRune (b :: t)).1 := by omega
        simp [ss.mustReadRune, h, hne]

/-- The scan fails when the first call of advance does. -/
theorem Fscanf_err_of_advance (r : Stream) (f0 : Nat) (t : List Nat) (a : List Arg)
    (hf : f0 ≠ 37)
    (h : (∃ e s1, ss.advance (f0 :: t).length (f0 :: t) 0 (newScanState r) = .err e s1) ∨
      ∃ s1, ss.advance (f0 :: t).length (f0 :: t) 0 (newScanState r) = .ok (-1) s1) :
    ∃ e r1, Fscanf r (f0 :: t) a = .err e r1 := by
  rcases h with ⟨e, s1, h⟩ | ⟨s1, h⟩
  · refine ⟨e, s1.rs.reader, ?_⟩
    simp only [Fscanf, ss.doScanf]
    rw [show (f0 :: t).length = t.length + 1 from rfl, ss.doScanfLoop, doScanfTurn_cons, h]
  · refine ⟨ScanError.inputDoesNotMatchFormat, s1.rs.reader, ?_⟩
    simp only [Fscanf, ss.doScanf]
    rw [show (f0 :: t).length = t.length + 1 from rfl, ss.doScanfLoop, doScanfTurn_cons, h]
    simp [hf]

/-- The space of the format in front of a rune that is no space, or is a
newline: the scan fails. -/
theorem matchTrailingSpace_reject (b : Nat) (t : List Nat) (br : Bool) (l : Nat) (buf : List Nat)
    (h : isSpace (decodeRune (b :: t)).1 = false ∨ (decodeRune (b :: t)).1 = 10) :
    ∃ e s1, (st (b :: t) br l false buf).matchTrailingSpace 0 = .err e s1 := by
  rcases getRune_st_value b t br l buf with ⟨e, s1, hg⟩ | ⟨s1, hg⟩
  · simp [ss.matchTrailingSpace, hg]
  · rcases h with h | h
    · simp [ss.matchTrailingSpace, hg, h]
    · have hs10 : isSpace 10 = true := by decide
      simp [ss.matchTrailingSpace, hg, h, hs10]

/-- The first call of advance for a format that starts with `FILE ` and a
verb, on bytes that do not start with FILE and a space other than a newline. -/
theorem advance_FILE_reject (fmt1 : List Nat) (c : Nat) (d : List Nat) (br : Bool)
    (hne : d ≠ [70, 73, 76, 69])
    (h : ∀ rest, d = 70 :: 73 :: 76 :: 69 :: rest →
      isSpace (decodeRune rest).1 = false ∨ (decodeRune rest).1 = 10) :
    (∃ e s1, ss.advance (70 :: 73 :: 76 :: 69 :: 32 :: 37 :: c :: fmt1).length
        (70 :: 73 :: 76 :: 69 :: 32 :: 37 :: c :: fmt1) 0 (newScanState ⟨d, br⟩) = .err e s1) ∨
      ∃ s1, ss.advance (70 :: 73 :: 76 :: 69 :: 32 :: 37 :: c :: fmt1).length
        (70 :: 73 :: 76 :: 69 :: 32 :: 37 :: c :: fmt1) 0 (newScanState ⟨d, br⟩) = .ok (-1) s1 := by
  have s70 : isSpace 70 = false := by decide
  have s73 : isSpace 73 = false := by decide
  have s76 : isSpace 76 = false := by decide
  have s69 : isSpace 69 = false := by decide
  have s32 : isSpace 32 = true := by decide
  have s37 : isSpace 37 = false := by decide
  rw [newScanState_st]
  simp only [List.length_cons]
  rcases advance_lit_cases _ 70 (73 :: 76 :: 69 :: 32 :: 37 :: c :: fmt1) 0 d br 0 [] (by norm_num)
    s70 (by norm_num) with ⟨d1, rfl, e1⟩ | hbad | hbad
  swap
  · exact Or.inl hbad
  swap
  · exact Or.inr hbad
  rw [e1]
  rcases advance_lit_cases _ 73 (76 :: 69 :: 32 :: 37 :: c :: fmt1) 1 d1 br 70 [] (by norm_num)
    s73 (by norm_num) with ⟨d2, rfl, e2⟩ | hbad | hbad
  swap
  · exact Or.inl hbad
  swap
  · exact Or.inr hbad
  rw [e2]
  rcases advance_lit_cases _ 76 (69 :: 32 :: 37 :: c :: fmt1) 2 d2 br 73 [] (by norm_num)
    s76 (by norm_num) with ⟨d3, rfl, e3⟩ | hbad | hbad
  swap
  · exact Or.inl hbad
  swap
  · exact Or.inr hbad
  rw [e3]
  rcases advance_lit_cases _ 69 (32 :: 37 :: c :: fmt1) 3 d3 br 76 [] (by norm_num)
    s69 (by norm_num) with ⟨d4, rfl, e4⟩ | hbad | hbad
  swap
  · exact Or.inl hbad
  swap
  · exact Or.inr hbad
  rw [e4]
  rcases d4 with _ | ⟨b, t⟩
  · exact absurd rfl hne
  · obtain ⟨e, s1, hm⟩ := matchTrailingSpace_reject b t br 69 [] (h _ rfl)
    left
    refine ⟨e, s1, ?_⟩
    rw [ss.advance, advanceTurn_space _ 32 _ _ s32]
    simp [spaceRun, s32, s37, ss.matchNewlines, hm]

/-- An error of readRequestHeader comes with the zero header. -/
theorem readRequestHeader_zero (r : Stream) (h : (readRequestHeader r).1.2 ≠ none) :
    (readRequestHeader r).1.1 = ⟨[], 0⟩ := by
  unfold readRequestHeader at h ⊢
  split <;> simp_all

/-- An error of readResponseHeader comes with the zero header. -/
theorem readResponseHeader_zero (r : Stream) (h : (readResponseHeader r).1.2 ≠ none) :
    (readResponseHeader r).1.1 = ⟨[], 0, 0⟩ := by
  unfold readResponseHeader at h ⊢
  split <;> simp_all

theorem readRequestHeader_of_err (r : Stream) (h : ∃ e r1, Fscanf r requestFormat
    [Arg.string, Arg.int64] = .err e r1) :
    (readRequestHeader r).1.2 ≠ none ∧ (readRequestHeader r).1.1 = ⟨[], 0⟩ := by
  obtain ⟨e, r1, h⟩ := h
  simp [readRequestHeader, h]

theorem readResponseHeader_of_err (r : Stream) (h : ∃ e r1, Fscanf r responseFormat
    [Arg.string, Arg.int64, Arg.int64] = .err e r1) :
    (readResponseHeader r).1.2 ≠ none ∧ (readResponseHeader r).1.1 = ⟨[], 0, 0⟩ := by
  obtain ⟨e, r1, h⟩ := h
  simp [readResponseHeader, h]

/-- C8, as stated, fails: the stream `FILE`, tab, `a`, newline, `FROM 0`,
newline does not start with the five bytes `FILE ` (its fifth byte is a tab),
and readRequestHeader reads the header {a, 0} from it without error. -/
theorem C8_counterexample :
    ¬ (ascii "FILE " <+: ascii "FILE\ta\nFROM 0\n") ∧
      readRequestHeader ⟨ascii "FILE\ta\nFROM 0\n", false⟩ =
        ((⟨ascii "a", 0⟩, none), ⟨[], false⟩) := by
  decide

/-- C8, amended. Parse failure on a wrong prefix: for every input stream that
does not start with the four bytes `FILE` followed by a white-space rune other
than the newline (a space, a tab, a carriage return, U+00A0 and so on, as the
rune reader decodes it), readRequestHeader returns a non-nil error together
with the zero header. -/
theorem C8_wrong_prefix_rejected (r : Stream)
    (h : ∀ rest, r.data = 70 :: 73 :: 76 :: 69 :: rest →
      isSpace (decodeRune rest).1 = false ∨ (decodeRune rest).1 = 10) :
    (readRequestHeader r).1.2 ≠ none ∧ (readRequestHeader r).1.1 = ⟨[], 0⟩ := by
  obtain ⟨d, br⟩ := r
  by_cases hd : d = [70, 73, 76, 69]
  · subst hd
    cases br <;> decide
  · apply readRequestHeader_of_err
    rw [requestFormat_eq]
    exact Fscanf_err_of_advance ⟨d, br⟩ 70 _ _ (by norm_num)
      (advance_FILE_reject _ 115 d br hd h)

/-- C8, amended, on the stream `GET /`: it does not start with `FILE`. -/
theorem C8_witness :
    (∀ rest, (⟨[71, 69, 84, 32, 47], false⟩ : Stream).data = 70 :: 73 :: 76 :: 69 :: rest →
      isSpace (decodeRune rest).1 = false ∨ (decodeRune rest).1 = 10) ∧
    (readRequestHeader ⟨[71, 69, 84, 32, 47], false⟩).1.2 ≠ none ∧
      (readRequestHeader ⟨[71, 69, 84, 32, 47], false⟩).1.1 = ⟨[], 0⟩ :=
  ⟨fun _ h => absurd (List.cons.inj h).1 (by decide),
    C8_wrong_prefix_rejected ⟨[71, 69, 84, 32, 47], false⟩
      (fun _ h => absurd (List.cons.inj h).1 (by decide))⟩

/-! ### The scan at the end of the input -/

theorem getRune_done (s : ss) (h : Done s) : s.getRune = .ok none { s with atEOF := true } := by
  obtain ⟨⟨rd, p, l, av⟩, buf, eof⟩ := s
  obtain ⟨h1, h2, h3⟩ := h
  simp only at h1 h2 h3
  subst h1 h2 h3
  cases eof <;> simp [ss.getRune, ss.ReadRune, readRune.ReadRune, readRune.readByte]

theorem done_eof (s : ss) (h : Done s) : Done { s with atEOF := true } :=
  ⟨h.avail, h.pend, h.data⟩

theorem done_fuel (s : ss) (h : Done s) : s.fuel = 2 := by
  simp [ss.fuel, h.pend, h.data]

theorem mustReadRune_done (s : ss) (h : Done s) :
    s.mustReadRune = .err ScanError.ErrUnexpectedEOF { s with atEOF := true } := by
  simp [ss.mustReadRune, getRune_done s h]

theorem notEOF_done (s : ss) (h : Done s) :
    s.notEOF = .err ScanError.EOF { s with atEOF := true } := by
  simp [ss.notEOF, getRune_done s h]

theorem SkipSpace_done (s : ss) (h : Done s) : s.SkipSpace = .ok () { s with atEOF := true } := by
  unfold ss.SkipSpace
  rw [done_fuel s h, ss.SkipSpaceLoop, getRune_done s h]

theorem done_of_ready_nil (s : ss) (h : Ready s []) (hbr : s.rs.reader.broken = false) :
    Done s := by
  obtain ⟨⟨⟨d, br⟩, p, l, av⟩, buf, eof⟩ := s
  obtain ⟨h1, h2, h3, h4⟩ := h
  simp only [readRune.logical, List.append_eq_nil] at h4 hbr h2
  obtain ⟨rfl, rfl⟩ := h4
  subst hbr h2
  exact ⟨rfl, rfl, rfl⟩

theorem done_st_nil (l : Nat) (buf : List Nat) : Done (st [] false l false buf) :=
  ⟨rfl, rfl, rfl⟩

/-- The token loop in front of a word that the end of the input ends. -/
theorem tokenLoop_eof (n : Nat) : ∀ (L : List Nat) (s : ss),
    L.length ≤ n → Ready s L → s.rs.reader.broken = false →
    (∀ r ∈ runes L, isSpace r = false) → ∀ fuel, L.length + 1 ≤ fuel →
    ∃ s1, ss.tokenLoop fuel s = .ok () s1 ∧ Done s1 := by
  induction n with
  | zero =>
    intro L s hn hr hbr _ fuel hf
    have : L = [] := List.length_eq_zero.mp (by omega)
    subst this
    obtain ⟨fuel, rfl⟩ : ∃ k, fuel = k + 1 := ⟨fuel - 1, by simp at hf; omega⟩
    have hd := done_of_ready_nil s hr hbr
    exact ⟨_, by rw [ss.tokenLoop, getRune_done s hd], done_eof s hd⟩
  | succ n ih =>
    intro L s hn hr hbr hws fuel hf
    rcases L with _ | ⟨b, t⟩
    · exact ih [] s (by simp) hr hbr hws fuel hf
    · obtain ⟨fuel, rfl⟩ : ∃ k, fuel = k + 1 := ⟨fuel - 1, by simp at hf; omega⟩
      obtain ⟨s1, e1, e2, e3, e4, e5⟩ := getRune_ready s _ hr (by simp) (Or.inl hbr)
      have hpos := decodeRune_size_pos b t
      rw [runes_cons] at hws
      have hv : isSpace (decodeRune (b :: t)).1 = false := hws _ (by simp)
      have hlen : (List.drop (decodeRune (b :: t)).2 (b :: t)).length ≤ n := by
        simp only [List.length_drop, List.length_cons] at hn ⊢; omega
      have hr2 : Ready { s1 with buf := s1.buf ++ encodeRune (decodeRune (b :: t)).1 }
          (List.drop (decodeRune (b :: t)).2 (b :: t)) :=
        ⟨e2.atEOF, e2.avail, e2.pend, e2.logical⟩
      obtain ⟨s2, e6, e7⟩ := ih _ { s1 with buf := s1.buf ++ encodeRune (decodeRune (b :: t)).1 }
        hlen hr2 (by rw [← hbr]; exact e5) (fun r hr => hws r (by simp [hr])) fuel
        (by simp only [List.length_drop, List.length_cons] at hf ⊢; omega)
      refine ⟨s2, ?_, e7⟩
      rw [ss.tokenLoop, e1]
      simp only [hv]
      exact e6

/-- The verb `%s` in front of a word that the end of the input ends, when the
first rune of the word was put back. -/
theorem doVerb_string_eof (P : ss) (v : Nat) (L : List Nat) (args : List Arg) (vals : List Val)
    (h : Peeked P v L) (hbr : P.rs.reader.broken = false) (hv : isSpace v = false)
    (hws : ∀ r ∈ runes L, isSpace r = false) :
    ∃ vals1 s1, P.doVerb 115 (Arg.string :: args) vals = .ok (vals1, args) s1 ∧ Done s1 := by
  have h0 : Peeked { P with buf := [] } v L := ⟨h.atEOF, h.avail, h.last, h.pend, h.logical⟩
  have hf := peeked_fuel _ v L h0
  have hr : Ready { P with rs := { P.rs with avail := false }, buf := [] ++ encodeRune v } L :=
    ⟨h.atEOF, rfl, h.pend, h.logical⟩
  obtain ⟨s1, e1, e2⟩ := tokenLoop_eof L.length L _ (le_refl _) hr hbr hws (L.length + 1)
    (le_refl _)
  have ht : ss.tokenLoop ({ P with buf := [] } : ss).fuel { P with buf := [] } = .ok () s1 := by
    rw [hf, ss.tokenLoop, getRune_peeked _ v L h0]
    simp only [hv, Bool.false_eq_true, if_false]
    exact e1
  refine ⟨vals ++ [Val.str s1.buf], s1, ?_, e2⟩
  simp [ss.doVerb, SkipSpace_peeked P v _ h hv, ss.scanOne, ss.convertString, ss.token,
    SkipSpace_peeked _ v _ h0 hv, notEOF_peeked _ v _ h0, ht]

/-- The turns of doScanf for the text `FILE ` and the verb `%s`, in front of
`FILE `, a word and the end of the input. -/
theorem doScanfLoop_FILE_eof (fuel : Nat) (fmt1 : List Nat) (args : List Arg) (vals : List Val)
    (q : List Nat) (hne : q ≠ []) (hws : ∀ r ∈ runes q, isSpace r = false)
    (buf : List Nat) (l : Nat) :
    ∃ vals1 s1, ss.doScanfLoop (fuel + 2) (70 :: 73 :: 76 :: 69 :: 32 :: 37 :: 115 :: fmt1)
        (Arg.string :: args) vals (st (70 :: 73 :: 76 :: 69 :: 32 :: q) false l false buf) =
      ss.doScanfLoop fuel fmt1 args vals1 s1 ∧ Done s1 := by
  obtain ⟨b, t, rfl⟩ := List.exists_cons_of_ne_nil hne
  have hrc := runes_cons b t
  rw [hrc] at hws
  have hv : isSpace (decodeRune (b :: t)).1 = false := hws _ (by simp)
  obtain ⟨P, eP, hP, hbuf, hbr⟩ := matchTrailingSpace_word (b :: t) (by simp) false 69
    buf hv (Or.inl rfl)
  obtain ⟨vals1, s1, hverb, hd⟩ := doVerb_string_eof P _ _ args vals hP hbr hv
    (fun r hr => hws r (by simp [hr]))
  refine ⟨vals1, s1, ?_, hd⟩
  have s70 : isSpace 70 = false := by decide
  have s73 : isSpace 73 = false := by decide
  have s76 : isSpace 76 = false := by decide
  have s69 : isSpace 69 = false := by decide
  have s32 : isSpace 32 = true := by decide
  have s37 : isSpace 37 = false := by decide
  have hadv : ss.advance (70 :: 73 :: 76 :: 69 :: 32 :: 37 :: 115 :: fmt1).length
      (70 :: 73 :: 76 :: 69 :: 32 :: 37 :: 115 :: fmt1) 0
      (st (70 :: 73 :: 76 :: 69 :: 32 :: b :: t) false l false buf) = .ok 5 P := by
    simp only [List.length_cons, ss.advance]
    rw [advanceTurn_lit _ 70 _ _ s70 (by norm_num), mustReadRune_st_ascii _ _ _ _ _ (by norm_num)]
    simp only [ne_eq, not_true_eq_false, if_false]
    rw [advanceTurn_lit _ 73 _ _ s73 (by norm_num), mustReadRune_st_ascii _ _ _ _ _ (by norm_num)]
    simp only [ne_eq, not_true_eq_false, if_false]
    rw [advanceTurn_lit _ 76 _ _ s76 (by norm_num), mustReadRune_st_ascii _ _ _ _ _ (by norm_num)]
    simp only [ne_eq, not_true_eq_false, if_false]
    rw [advanceTurn_lit _ 69 _ _ s69 (by norm_num), mustReadRune_st_ascii _ _ _ _ _ (by norm_num)]
    simp only [ne_eq, not_true_eq_false, if_false]
    rw [advanceTurn_space _ 32 _ _ s32]
    simp [spaceRun, s32, s37, ss.matchNewlines, eP, advanceTurn_verb]
  have hadv2 : ss.advance (37 :: 115 :: fmt1).length (37 :: 115 :: fmt1) 0 P = .ok 0 P := by
    simp [ss.advance, advanceTurn_verb]
  rw [ss.doScanfLoop, doScanfTurn_cons, hadv]
  simp only [show (0 : Int) < 5 by norm_num, if_true, show Int.toNat 5 = 5 by rfl,
    List.drop_succ_cons, List.drop_zero]
  rw [ss.doScanfLoop, doScanfTurn_cons, hadv2]
  simp [hverb]

/-- The turns of doScanf for a newline and a letter of the format at the end
of the input: the end stands for the newline, the letter is missing. -/
theorem doScanfLoop_done_nl (fuel : Nat) (c : Nat) (rest : List Nat) (args : List Arg)
    (vals : List Val) (s : ss) (h : Done s) (hs : isSpace c = false) (hp : c ≠ 37) :
    ∃ e s1, ss.doScanfLoop (fuel + 1) (10 :: c :: rest) args vals s = .err e s1 := by
  have s10 : isSpace 10 = true := by decide
  have h1 := done_eof s h
  have hadv : ss.advance (10 :: c :: rest).length (10 :: c :: rest) 0 s =
      .err ScanError.ErrUnexpectedEOF { s with atEOF := true } := by
    simp only [List.length_cons]
    rw [ss.advance, advanceTurn_space _ 10 _ _ s10]
    simp only [spaceRun, s10, hs, if_true, Bool.false_eq_true, if_false, ss.matchNewlines,
      getRune_done s h, done_fuel _ h1, ss.skipBlanks]
    simp only [ne_eq, reduceCtorEq, not_false_eq_true, decide_True, not_true_eq_false,
      decide_False, Bool.and_false, Bool.false_eq_true, if_false, List.drop_succ_cons,
      List.drop_zero]
    rw [ss.advance, advanceTurn_lit _ c _ _ hs hp, mustReadRune_done _ h1]
  rw [ss.doScanfLoop, doScanfTurn_cons, hadv]
  exact ⟨_, _, rfl⟩

/-- The scan fails when the loop of doScanf does. -/
theorem Fscanf_err_of_loop (r : Stream) (format : List Nat) (a : List Arg)
    (h : ∃ e s1, ss.doScanfLoop format.length format a [] (newScanState r) = .err e s1) :
    ∃ e r1, Fscanf r format a = .err e r1 := by
  obtain ⟨e, s1, h⟩ := h
  exact ⟨e, s1.rs.reader, by simp [Fscanf, ss.doScanf, h]⟩

/-! ### The scan of a number field that the end of the input cuts short -/

theorem getRune_st_nil (l : Nat) (buf : List Nat) :
    (st [] false l false buf).getRune = .ok none { st [] false l false buf with atEOF := true } :=
  getRune_done _ (done_st_nil l buf)

theorem mustReadRune_st_end (l : Nat) (buf : List Nat) :
    (st [] false l false buf).mustReadRune =
      .err ScanError.ErrUnexpectedEOF { st [] false l false buf with atEOF := true } :=
  mustReadRune_done _ (done_st_nil l buf)

/-- A space of the format at the end of the input. -/
theorem matchTrailingSpace_done (s : ss) (h : Done s) :
    s.matchTrailingSpace 0 = .ok () { s with atEOF := true } := by
  simp [ss.matchTrailingSpace, getRune_done s h, done_fuel _ (done_eof s h), ss.skipBlanks]

/-- A space of the format in front of one space and the end of the input. -/
theorem matchTrailingSpace_space_eof (l : Nat) (buf : List Nat) :
    (st [32] false l false buf).matchTrailingSpace 0 =
      .ok () { st [] false 32 false buf with atEOF := true } := by
  have a32 : (32 : Nat) < 0x80 := by norm_num
  have s32 : isSpace 32 = true := by decide
  simp only [ss.matchTrailingSpace, getRune_st_ascii 32 [] false l buf a32, st_fuel]
  simp [ss.skipBlanks, s32, getRune_st_nil]

/-- The verb `%d` at the end of the input. -/
theorem doVerb_int_done (s : ss) (h : Done s) (args : List Arg) (vals : List Val) :
    ∃ e s1, s.doVerb 100 (Arg.int64 :: args) vals = .err e s1 := by
  have h1 := done_eof s h
  have h2 : Done { s with buf := [], atEOF := true } := ⟨h.avail, h.pend, h.data⟩
  have h3 := done_eof _ h2
  simp only at h3
  simp [ss.doVerb, SkipSpace_done s h, ss.scanOne, ss.scanInt, SkipSpace_done _ h2,
    notEOF_done _ h3]

/-- The verb `%d` in front of a minus sign and the end of the input. -/
theorem doVerb_int_sign_eof (buf : List Nat) (args : List Arg) (vals : List Val) :
    ∃ e s1, (st [] false 45 true buf).doVerb 100 (Arg.int64 :: args) vals = .err e s1 := by
  have hP := peeked_st [] false 45 buf
  have hP0 := peeked_st [] false 45 []
  have hsp : isSpace 45 = false := by decide
  have hs : 45 ∈ sign := by simp [sign]
  have he : encodeRune 45 = [45] := by decide
  have hd := done_st_nil 45 [45]
  simp [ss.doVerb, SkipSpace_peeked _ _ _ hP hsp, ss.scanOne, ss.scanInt,
    SkipSpace_peeked _ _ _ hP0 hsp, notEOF_peeked _ _ _ hP0, ss.accept, ss.consume, hs, he,
    ss.scanNumber, notEOF_done _ hd]

/-- The turns of doScanf for a newline, a keyword of four letters, a space and
the verb `%d`, when the input ends in the keyword, behind it, or behind a
minus sign. -/
theorem doScanfLoop_keyword_cut (fuel : Nat) (k1 k2 k3 k4 : Nat)
    (a1 : k1 < 0x80) (a2 : k2 < 0x80) (a3 : k3 < 0x80) (a4 : k4 < 0x80)
    (s1 : isSpace k1 = false) (s2 : isSpace k2 = false) (s3 : isSpace k3 = false)
    (s4 : isSpace k4 = false) (p1 : k1 ≠ 37) (p2 : k2 ≠ 37) (p3 : k3 ≠ 37) (p4 : k4 ≠ 37)
    (fmt1 : List Nat) (args : List Arg) (vals : List Val) (data : List Nat) (buf : List Nat)
    (hd : data = [] ∨ data = [k1] ∨ data = [k1, k2] ∨ data = [k1, k2, k3] ∨
      data = [k1, k2, k3, k4] ∨ data = [k1, k2, k3, k4, 32] ∨ data = [k1, k2, k3, k4, 32, 45]) :
    ∃ e s1, ss.doScanfLoop (fuel + 2) (10 :: k1 :: k2 :: k3 :: k4 :: 32 :: 37 :: 100 :: fmt1)
        (Arg.int64 :: args) vals (st data false 10 true buf) = .err e s1 := by
  have s10 : isSpace 10 = true := by decide
  have s32 : isSpace 32 = true := by decide
  have s37 : isSpace 37 = false := by decide
  have a32 : (32 : Nat) < 0x80 := by norm_num
  have hadv2 : ∀ P : ss, ss.advance (37 :: 100 :: fmt1).length (37 :: 100 :: fmt1) 0 P = .ok 0 P := by
    intro P
    simp [ss.advance, advanceTurn_verb]
  rcases hd with rfl | rfl | rfl | rfl | rfl | rfl | rfl
  · rw [ss.doScanfLoop, doScanfTurn_cons]
    simp [ss.advance, advanceTurn_space, advanceTurn_lit, mustReadRune_st_ascii,
      spaceRun, ss.matchNewlines, skipBlanks_nl, s10, s32, s37,
      s1, s2, s3, s4, a1, a2, a3, a4, p1, p2, p3, p4, mustReadRune_st_end]
  · rw [ss.doScanfLoop, doScanfTurn_cons]
    simp [ss.advance, advanceTurn_space, advanceTurn_lit, mustReadRune_st_ascii,
      spaceRun, ss.matchNewlines, skipBlanks_nl, s10, s32, s37,
      s1, s2, s3, s4, a1, a2, a3, a4, p1, p2, p3, p4, mustReadRune_st_end]
  · rw [ss.doScanfLoop, doScanfTurn_cons]
    simp [ss.advance, advanceTurn_space, advanceTurn_lit, mustReadRune_st_ascii,
      spaceRun, ss.matchNewlines, skipBlanks_nl, s10, s32, s37,
      s1, s2, s3, s4, a1, a2, a3, a4, p1, p2, p3, p4, mustReadRune_st_end]
  · rw [ss.doScanfLoop, doScanfTurn_cons]
    simp [ss.advance, advanceTurn_space, advanceTurn_lit, mustReadRune_st_ascii,
      spaceRun, ss.matchNewlines, skipBlanks_nl, s10, s32, s37,
      s1, s2, s3, s4, a1, a2, a3, a4, p1, p2, p3, p4, mustReadRune_st_end]
  · obtain ⟨S, hD, hadv⟩ : ∃ S, Done S ∧
        ss.advance (10 :: k1 :: k2 :: k3 :: k4 :: 32 :: 37 :: 100 :: fmt1).length
          (10 :: k1 :: k2 :: k3 :: k4 :: 32 :: 37 :: 100 :: fmt1) 0
          (st [k1, k2, k3, k4] false 10 true buf) = .ok 6 S := by
      refine ⟨{ st [] false k4 false buf with atEOF := true },
        done_eof _ (done_st_nil k4 buf), ?_⟩
      simp [ss.advance, advanceTurn_space, advanceTurn_lit, advanceTurn_verb,
        mustReadRune_st_ascii, spaceRun, ss.matchNewlines, skipBlanks_nl, s10, s32, s37,
        s1, s2, s3, s4, a1, a2, a3, a4, p1, p2, p3, p4,
        matchTrailingSpace_done _ (done_st_nil k4 buf)]
    obtain ⟨e, s5, hv⟩ := doVerb_int_done _ hD args vals
    rw [ss.doScanfLoop, doScanfTurn_cons, hadv]
    simp only [show (0 : Int) < 6 by norm_num, if_true, show Int.toNat 6 = 6 by rfl,
      List.drop_succ_cons, List.drop_zero]
    rw [ss.doScanfLoop, doScanfTurn_cons, hadv2]
    simp [hv]
  · obtain ⟨S, hD, hadv⟩ : ∃ S, Done S ∧
        ss.advance (10 :: k1 :: k2 :: k3 :: k4 :: 32 :: 37 :: 100 :: fmt1).length
          (10 :: k1 :: k2 :: k3 :: k4 :: 32 :: 37 :: 100 :: fmt1) 0
          (st [k1, k2, k3, k4, 32] false 10 true buf) = .ok 6 S := by
      refine ⟨{ st [] false 32 false buf with atEOF := true },
        done_eof _ (done_st_nil 32 buf), ?_⟩
      simp [ss.advance, advanceTurn_space, advanceTurn_lit, advanceTurn_verb,
        mustReadRune_st_ascii, spaceRun, ss.matchNewlines, skipBlanks_nl, s10, s32, s37,
        s1, s2, s3, s4, a1, a2, a3, a4, p1, p2, p3, p4, matchTrailingSpace_space_eof]
    obtain ⟨e, s5, hv⟩ := doVerb_int_done _ hD args vals
    rw [ss.doScanfLoop, doScanfTurn_cons, hadv]
    simp only [show (0 : Int) < 6 by norm_num, if_true, show Int.toNat 6 = 6 by rfl,
      List.drop_succ_cons, List.drop_zero]
    rw [ss.doScanfLoop, doScanfTurn_cons, hadv2]
    simp [hv]
  · have hadv : ss.advance (10 :: k1 :: k2 :: k3 :: k4 :: 32 :: 37 :: 100 :: fmt1).length
        (10 :: k1 :: k2 :: k3 :: k4 :: 32 :: 37 :: 100 :: fmt1) 0
        (st [k1, k2, k3, k4, 32, 45] false 10 true buf) = .ok 6 (st [] false 45 true buf) := by
      have h45 : (45 : Nat) < 0x80 := by norm_num
      have hs45 : isSpace 45 = false := by decide
      simp [ss.advance, advanceTurn_space, advanceTurn_lit, advanceTurn_verb,
        mustReadRune_st_ascii, spaceRun, ss.matchNewlines, skipBlanks_nl, s10, s32, s37,
        s1, s2, s3, s4, a1, a2, a3, a4, p1, p2, p3, p4,
        matchTrailingSpace_ascii 45 [] false k4 buf h45 hs45]
    obtain ⟨e, s5, hv⟩ := doVerb_int_sign_eof buf args vals
    rw [ss.doScanfLoop, doScanfTurn_cons, hadv]
    simp only [show (0 : Int) < 6 by norm_num, if_true, show Int.toNat 6 = 6 by rfl,
      List.drop_succ_cons, List.drop_zero]
    rw [ss.doScanfLoop, doScanfTurn_cons, hadv2]
    simp [hv]

/-- The loop of accept over a run of digits that the end of the input ends. -/
theorem acceptLoop_eof (ds : List Nat) : ∀ (l : Nat) (buf : List Nat), allDigits ds →
    ∀ fuel, ds.length + 1 ≤ fuel →
    ∃ s1, ss.acceptLoop fuel (st ds false l false buf) = .ok () s1 ∧ Done s1 := by
  induction ds with
  | nil =>
    intro l buf _ fuel hf
    obtain ⟨fuel, rfl⟩ : ∃ k, fuel = k + 1 := ⟨fuel - 1, by simp at hf; omega⟩
    refine ⟨_, ?_, done_eof _ (done_st_nil l buf)⟩
    simp [ss.acceptLoop, ss.accept, ss.consume, getRune_st_nil]
  | cons d t ih =>
    intro l buf hd fuel hf
    obtain ⟨fuel, rfl⟩ : ∃ k, fuel = k + 1 := ⟨fuel - 1, by simp at hf; omega⟩
    have hd0 := hd d (by simp)
    have hlt : d < 0x80 := by omega
    obtain ⟨s1, e1, e2⟩ := ih d (buf ++ [d]) (fun x hx => hd x (by simp [hx])) fuel
      (by simp at hf ⊢; omega)
    refine ⟨s1, ?_, e2⟩
    simp [ss.acceptLoop, ss.accept, ss.consume, getRune_st_ascii d _ false l buf hlt,
      mem_decimalDigits d hd0, encodeRune_ascii d hlt, e1]

/-- The method scanNumber in front of a run of digits whose first was put
back and that the end of the input ends. -/
theorem scanNumber_peeked_eof (d0 : Nat) (ds : List Nat) (buf : List Nat)
    (hd : allDigits (d0 :: ds)) :
    ∃ tok s1, (st ds false d0 true buf).scanNumber = .ok tok s1 ∧ Done s1 := by
  have hd0 := hd d0 (by simp)
  have hlt : d0 < 0x80 := by omega
  obtain ⟨s1, e1, e2⟩ := acceptLoop_eof ds d0 (buf ++ [d0]) (fun x hx => hd x (by simp [hx]))
    (ds.length + 2) (by omega)
  refine ⟨s1.buf, s1, ?_, e2⟩
  simp only [ss.scanNumber, ss.notEOF, ss.accept, ss.consume, mem_decimalDigits d0 hd0,
    encodeRune_ascii d0 hlt, getRune_st_avail, UnreadRune_st, if_true, st_set_buf, st_buf, st_fuel]
  rw [e1]

/-- The call scanInt in front of a number that the end of the input ends: an
error, or a value with the input used up. -/
theorem scanInt_eof (c0 : Nat) (tl : List Nat)
    (h : allDigits (c0 :: tl) ∨ (c0 = 45 ∧ tl ≠ [] ∧ allDigits tl)) :
    (∃ e s1, (st tl false c0 true []).scanInt = .err e s1) ∨
      ∃ v s1, (st tl false c0 true []).scanInt = .ok v s1 ∧ Done s1 := by
  rcases h with hd | ⟨rfl, hne, hd⟩
  · have hd0 := hd c0 (by simp)
    have hsp : isSpace c0 = false := by
      simp only [isSpace]; simp; omega
    have hP := peeked_st tl false c0 []
    have hs : c0 ∉ sign := by simp [sign]; omega
    obtain ⟨tok, s1, e1, e2⟩ := scanNumber_peeked_eof c0 tl [] hd
    cases hp : ParseInt tok with
    | error e =>
      left
      simp [ss.scanInt, SkipSpace_peeked _ _ _ hP hsp, notEOF_peeked _ _ _ hP, ss.accept,
        ss.consume, hs, e1, hp]
    | ok v =>
      right
      refine ⟨v, s1, ?_, e2⟩
      simp [ss.scanInt, SkipSpace_peeked _ _ _ hP hsp, notEOF_peeked _ _ _ hP, ss.accept,
        ss.consume, hs, e1, hp]
  · obtain ⟨d0, ds, rfl⟩ := List.exists_cons_of_ne_nil hne
    have hd0 := hd d0 (by simp)
    have hlt : d0 < 0x80 := by omega
    have hP := peeked_st (d0 :: ds) false 45 []
    have hsp : isSpace 45 = false := by decide
    have hs : 45 ∈ sign := by simp [sign]
    have he : encodeRune 45 = [45] := by decide
    obtain ⟨s1, e1, e2⟩ := acceptLoop_eof ds d0 ([45] ++ [d0]) (fun x hx => hd x (by simp [hx]))
      (ds.length + 2) (by omega)
    have hn1 : (st (d0 :: ds) false 45 false [45]).scanNumber = .ok s1.buf s1 := by
      simp only [ss.scanNumber, ss.notEOF, getRune_st_ascii d0 _ false 45 [45] hlt, ss.accept,
        ss.consume, mem_decimalDigits d0 hd0, encodeRune_ascii d0 hlt, getRune_st_avail,
        UnreadRune_st, if_true, st_set_buf, st_buf, st_fuel]
      rw [e1]
    cases hp : ParseInt s1.buf with
    | error e =>
      left
      simp [ss.scanInt, SkipSpace_peeked _ _ _ hP hsp, notEOF_peeked _ _ _ hP, ss.accept,
        ss.consume, hs, he, hn1, hp]
    | ok v =>
      right
      refine ⟨v, s1, ?_, e2⟩
      simp [ss.scanInt, SkipSpace_peeked _ _ _ hP hsp, notEOF_peeked _ _ _ hP, ss.accept,
        ss.consume, hs, he, hn1, hp]

/-- The turns of doScanf for a newline, a keyword of four letters, a space and
the verb `%d`, in front of the keyword, a space and a number that the end of
the input ends, when the format goes on with a newline and a letter: the
letter is missing. -/
theorem doScanfLoop_int_eof (fuel : Nat) (k1 k2 k3 k4 : Nat)
    (a1 : k1 < 0x80) (a2 : k2 < 0x80) (a3 : k3 < 0x80) (a4 : k4 < 0x80)
    (s1 : isSpace k1 = false) (s2 : isSpace k2 = false) (s3 : isSpace k3 = false)
    (s4 : isSpace k4 = false) (p1 : k1 ≠ 37) (p2 : k2 ≠ 37) (p3 : k3 ≠ 37) (p4 : k4 ≠ 37)
    (c : Nat) (hcs : isSpace c = false) (hcp : c ≠ 37)
    (fmt1 : List Nat) (args : List Arg) (vals : List Val) (c0 : Nat) (tl : List Nat)
    (h : allDigits (c0 :: tl) ∨ (c0 = 45 ∧ tl ≠ [] ∧ allDigits tl)) (buf : List Nat) :
    ∃ e s5, ss.doScanfLoop (fuel + 3) (10 :: k1 :: k2 :: k3 :: k4 :: 32 :: 37 :: 100 :: 10 :: c :: fmt1)
        (Arg.int64 :: args) vals (st (k1 :: k2 :: k3 :: k4 :: 32 :: c0 :: tl) false 10 true buf) =
      .err e s5 := by
  have s10 : isSpace 10 = true := by decide
  have s32 : isSpace 32 = true := by decide
  have s37 : isSpace 37 = false := by decide
  have hc0 : c0 < 0x80 ∧ isSpace c0 = false := by
    rcases h with hd | ⟨rfl, _, _⟩
    · have := hd c0 (by simp)
      refine ⟨by omega, ?_⟩
      simp only [isSpace]; simp; omega
    · exact ⟨by norm_num, by decide⟩
  have hadv : ss.advance (10 :: k1 :: k2 :: k3 :: k4 :: 32 :: 37 :: 100 :: 10 :: c :: fmt1).length
      (10 :: k1 :: k2 :: k3 :: k4 :: 32 :: 37 :: 100 :: 10 :: c :: fmt1) 0
      (st (k1 :: k2 :: k3 :: k4 :: 32 :: c0 :: tl) false 10 true buf) =
        .ok 6 (st tl false c0 true buf) := by
    simp [ss.advance, advanceTurn_space, advanceTurn_lit, advanceTurn_verb, mustReadRune_st_ascii,
      spaceRun, ss.matchNewlines, skipBlanks_nl, matchTrailingSpace_ascii, s10, s32, s37,
      s1, s2, s3, s4, a1, a2, a3, a4, p1, p2, p3, p4, hc0.1, hc0.2]
  have hadv2 : ∀ P : ss, ss.advance (37 :: 100 :: 10 :: c :: fmt1).length
      (37 :: 100 :: 10 :: c :: fmt1) 0 P = .ok 0 P := by
    intro P
    simp [ss.advance, advanceTurn_verb]
  have hP := peeked_st tl false c0 buf
  rw [ss.doScanfLoop, doScanfTurn_cons, hadv]
  simp only [show (0 : Int) < 6 by norm_num, if_true, show Int.toNat 6 = 6 by rfl,
    List.drop_succ_cons, List.drop_zero]
  rw [ss.doScanfLoop, doScanfTurn_cons, hadv2]
  rcases scanInt_eof c0 tl h with ⟨e, s5, hv⟩ | ⟨v, s5, hv, hD⟩
  · simp [ss.doVerb, SkipSpace_peeked _ _ _ hP hc0.2, ss.scanOne, hv]
  · obtain ⟨e, s6, hl⟩ := doScanfLoop_done_nl fuel c fmt1 args (vals ++ [Val.int v]) s5 hD hcs hcp
    simp [ss.doVerb, SkipSpace_peeked _ _ _ hP hc0.2, ss.scanOne, hv, hl]

/-! ### Headers that the end of the input cuts short -/

/-- Bytes that start no rune decode to U+FFFD, one by one. -/
theorem runes_invalid (p : List Nat) (h : ∀ x ∈ p, firstSize x = 1) :
    ∀ r ∈ runes p, r = RuneError := by
  induction p with
  | nil => intro r hr; simp [runes_nil] at hr
  | cons b t ih =>
    intro r hr
    rw [runes_cons, decodeRune_invalid b t (h b (by simp))] at hr
    simp only [List.drop_succ_cons, List.drop_zero, List.mem_cons] at hr
    rcases hr with rfl | hr
    · rfl
    · exact ih (fun x hx => h x (by simp [hx])) r hr

/-- The first rune of a byte string that is cut short: the rune of the whole
string, or U+FFFD when the cut falls into its encoding; then only
continuation bytes are left. -/
theorem decodeRune_take (b : Nat) (t : List Nat) (j : Nat) :
    decodeRune (b :: t.take j) = decodeRune (b :: t) ∨
      (decodeRune (b :: t.take j) = (RuneError, 1) ∧ ∀ x ∈ t.take j, firstSize x = 1) := by
  by_cases hb : b < 0x80
  · left; rw [decodeRune_ascii b _ hb, decodeRune_ascii b _ hb]
  · have hk := firstSize_cases b hb
    have e1 : ∀ n : Nat, ¬ (n + 1 + 1 < 2) := by omega
    have e2 : ∀ n : Nat, ¬ (n + 1 + 1 + 1 < 2) := by omega
    have e3 : ∀ n : Nat, ¬ (n + 1 + 1 + 1 < 3) := by omega
    have e4 : ∀ n : Nat, ¬ (n + 1 + 1 + 1 + 1 < 2) := by omega
    have e5 : ∀ n : Nat, ¬ (n + 1 + 1 + 1 + 1 < 3) := by omega
    have e6 : ∀ n : Nat, ¬ (n + 1 + 1 + 1 + 1 < 4) := by omega
    rcases t with _ | ⟨b1, t1⟩
    · left; simp
    · rcases j with _ | j
      · rcases hk with hk | hk | hk | hk
        · left; rw [decodeRune_invalid _ _ hk, decodeRune_invalid _ _ hk]
        all_goals (right; simp [decodeRune, hk])
      · cases hout : (decide (b1 < acceptLo b) || decide (acceptHi b < b1))
        · have hf1 := firstSize_of_accept b b1 hout
          rcases t1 with _ | ⟨b2, t2⟩
          · left; simp
          · rcases j with _ | j
            · rcases hk with hk | hk | hk | hk
              · left; rw [decodeRune_invalid _ _ hk, decodeRune_invalid _ _ hk]
              · left; simp [decodeRune, hk, hout, e1, e2, e3, e4, e5, e6]
              · right; simp [decodeRune, hk, hout, hf1]
              · right; simp [decodeRune, hk, hout, hf1]
            · cases hc2 : isCont b2
              · left
                rcases hk with hk | hk | hk | hk <;>
                  simp [decodeRune, hk, hout, hc2, e1, e2, e3, e4, e5, e6]
              · have hf2 := firstSize_of_isCont b2 hc2
                rcases t2 with _ | ⟨b3, t3⟩
                · left; simp
                · rcases j with _ | j
                  · rcases hk with hk | hk | hk | hk
                    · left; rw [decodeRune_invalid _ _ hk, decodeRune_invalid _ _ hk]
                    · left; simp [decodeRune, hk, hout, e1, e2, e3, e4, e5, e6]
                    · left; simp [decodeRune, hk, hout, hc2, e1, e2, e3, e4, e5, e6]
                    · right; simp [decodeRune, hk, hout, hc2, hf1, hf2]
                  · left
                    rcases hk with hk | hk | hk | hk <;>
                      simp [decodeRune, hk, hout, hc2, e1, e2, e3, e4, e5, e6]
        · left
          rcases hk with hk | hk | hk | hk <;> simp [decodeRune, hk, hout]

/-- A byte string without white space stays so when it is cut short. -/
theorem runes_take (n : Nat) : ∀ f : List Nat, f.length ≤ n →
    (∀ r ∈ runes f, isSpace r = false) → ∀ j, ∀ r ∈ runes (f.take j), isSpace r = false := by
  have hRE : isSpace RuneError = false := by decide
  induction n with
  | zero =>
    intro f hn _ j r hr
    have : f = [] := List.length_eq_zero.mp (by omega)
    subst this
    simp [runes_nil] at hr
  | succ n ih =>
    intro f hn hws j r hr
    rcases f with _ | ⟨b, t⟩
    · simp [runes_nil] at hr
    · rcases j with _ | j
      · simp [runes_nil] at hr
      · rw [List.take_succ_cons, runes_cons] at hr
        rw [runes_cons] at hws
        have hpos := decodeRune_size_pos b t
        rcases decodeRune_take b t j with h | ⟨h, hinv⟩
        · rw [h] at hr
          rcases List.mem_cons.mp hr with rfl | hr
          · exact hws _ (by simp)
          · rw [← List.take_succ_cons, List.drop_take] at hr
            refine ih (List.drop (decodeRune (b :: t)).2 (b :: t)) ?_
              (fun r hr => hws r (by simp [hr])) _ r hr
            simp only [List.length_drop, List.length_cons] at hn ⊢
            omega
        · rw [h] at hr
          simp only [List.drop_succ_cons, List.drop_zero, List.mem_cons] at hr
          rcases hr with rfl | hr
          · exact hRE
          · rw [runes_invalid _ hinv r hr]
            exact hRE

/-- The bytes that `%d` writes: a minus sign for a negative number, then
digits. -/
theorem fmtInt_cases (n : Int) :
    (n < 0 ∧ ∃ d0 ds, fmtInt n = 45 :: d0 :: ds ∧ allDigits (d0 :: ds)) ∨
    (¬ n < 0 ∧ ∃ d0 ds, fmtInt n = d0 :: ds ∧ allDigits (d0 :: ds)) := by
  obtain ⟨ds, e1, e2, e3, _⟩ := fmtUint_spec (n.natAbs + 1) n.natAbs [] (by omega)
  simp only [List.append_nil] at e1
  obtain ⟨c, t, rfl⟩ := List.exists_cons_of_ne_nil e2
  by_cases hn : n < 0
  · left; exact ⟨hn, c, t, by simp [fmtInt, hn, e1], e3⟩
  · right; exact ⟨hn, c, t, by simp [fmtInt, hn, e1], e3⟩

theorem allDigits_take (ds : List Nat) (h : allDigits ds) (m : Nat) : allDigits (ds.take m) :=
  fun d hd => h d (List.mem_of_mem_take hd)

theorem take_add5 (j : Nat) (a b c d e : Nat) (X : List Nat) :
    List.take (j + 5) (a :: b :: c :: d :: e :: X) = a :: b :: c :: d :: e :: List.take j X := rfl

theorem take_add6 (j : Nat) (a b c d e g : Nat) (X : List Nat) :
    List.take (j + 6) (a :: b :: c :: d :: e :: g :: X) =
      a :: b :: c :: d :: e :: g :: List.take j X := rfl

/-- A cut in the keyword, behind it, or behind a minus sign. -/
theorem take_keyword (k1 k2 k3 k4 c0 : Nat) (tl : List Nat) (j : Nat)
    (hj : j ≤ 5 ∨ (j = 6 ∧ c0 = 45)) :
    List.take j (k1 :: k2 :: k3 :: k4 :: 32 :: c0 :: tl) = [] ∨
    List.take j (k1 :: k2 :: k3 :: k4 :: 32 :: c0 :: tl) = [k1] ∨
    List.take j (k1 :: k2 :: k3 :: k4 :: 32 :: c0 :: tl) = [k1, k2] ∨
    List.take j (k1 :: k2 :: k3 :: k4 :: 32 :: c0 :: tl) = [k1, k2, k3] ∨
    List.take j (k1 :: k2 :: k3 :: k4 :: 32 :: c0 :: tl) = [k1, k2, k3, k4] ∨
    List.take j (k1 :: k2 :: k3 :: k4 :: 32 :: c0 :: tl) = [k1, k2, k3, k4, 32] ∨
    List.take j (k1 :: k2 :: k3 :: k4 :: 32 :: c0 :: tl) = [k1, k2, k3, k4, 32, 45] := by
  rcases hj with hj | ⟨rfl, rfl⟩
  · interval_cases j <;> simp
  · simp

/-- The header is cut in the file name or right behind it. -/
theorem Fscanf_cut_name (c : Nat) (fmt1 : List Nat) (args : List Arg) (hcs : isSpace c = false)
    (hcp : c ≠ 37) (f : List Nat) (hws : ∀ r ∈ runes f, isSpace r = false) (Y : List Nat)
    (j : Nat) (h1 : 1 ≤ j) (h2 : j ≤ f.length) :
    ∃ e r1, Fscanf ⟨List.take (j + 5) (70 :: 73 :: 76 :: 69 :: 32 :: (f ++ Y)), false⟩
      (70 :: 73 :: 76 :: 69 :: 32 :: 37 :: 115 :: 10 :: c :: fmt1) (Arg.string :: args) =
        .err e r1 := by
  apply Fscanf_err_of_loop
  rw [take_add5, List.take_append_of_le_length h2, newScanState_st]
  have hq : List.take j f ≠ [] := by
    intro h
    have := congrArg List.length h
    simp only [List.length_take, List.length_nil] at this
    omega
  obtain ⟨vals1, s1, hF, hD⟩ := doScanfLoop_FILE_eof (fmt1.length + 7) (10 :: c :: fmt1) args []
    (List.take j f) hq (runes_take f.length f (le_refl _) hws j) [] 0
  obtain ⟨e, s2, hE⟩ := doScanfLoop_done_nl (fmt1.length + 6) c fmt1 args vals1 s1 hD hcs hcp
  exact ⟨e, s2, hF.trans hE⟩

/-- The header is cut behind the newline that ends the file name, in the
keyword that follows, behind it, or behind a minus sign. -/
theorem Fscanf_cut_keyword (fmt1 : List Nat) (args : List Arg) (f : List Nat) (hne : f ≠ [])
    (hws : ∀ r ∈ runes f, isSpace r = false) (c0 : Nat) (tl : List Nat) (j : Nat)
    (hj : j ≤ 5 ∨ (j = 6 ∧ c0 = 45)) :
    ∃ e r1, Fscanf ⟨List.take (f.length + (j + 1) + 5)
        (70 :: 73 :: 76 :: 69 :: 32 :: (f ++ 10 :: 70 :: 82 :: 79 :: 77 :: 32 :: c0 :: tl)), false⟩
      (70 :: 73 :: 76 :: 69 :: 32 :: 37 :: 115 :: 10 :: 70 :: 82 :: 79 :: 77 :: 32 :: 37 :: 100 ::
        fmt1) (Arg.string :: Arg.int64 :: args) = .err e r1 := by
  apply Fscanf_err_of_loop
  rw [take_add5, List.take_append, List.take_succ_cons, newScanState_st]
  have s10 : isSpace 10 = true := by decide
  have hF := doScanfLoop_FILE (fmt1.length + 13)
    (10 :: 70 :: 82 :: 79 :: 77 :: 32 :: 37 :: 100 :: fmt1) (Arg.int64 :: args) [] f hne hws
    10 (List.take j (70 :: 82 :: 79 :: 77 :: 32 :: c0 :: tl)) false [] 0 (by norm_num) s10
  obtain ⟨e, s2, hE⟩ := doScanfLoop_keyword_cut (fmt1.length + 11) 70 82 79 77
    (by norm_num) (by norm_num) (by norm_num) (by norm_num)
    (by decide) (by decide) (by decide) (by decide) (by norm_num) (by norm_num) (by norm_num)
    (by norm_num) fmt1 args ([] ++ [Val.str (encodeRunes (runes f))])
    (List.take j (70 :: 82 :: 79 :: 77 :: 32 :: c0 :: tl)) (encodeRunes (runes f))
    (take_keyword 70 82 79 77 c0 tl j hj)
  exact ⟨e, s2, hF.trans hE⟩

/-- The response header is cut in the digits of its first number. -/
theorem Fscanf_cut_digits (f : List Nat) (hne : f ≠ [])
    (hws : ∀ r ∈ runes f, isSpace r = false) (c0 : Nat) (tl : List Nat)
    (h : allDigits (c0 :: tl) ∨ (c0 = 45 ∧ tl ≠ [] ∧ allDigits tl)) :
    ∃ e r1, Fscanf ⟨70 :: 73 :: 76 :: 69 :: 32 :: (f ++ 10 :: 70 :: 82 :: 79 :: 77 :: 32 :: c0 :: tl),
        false⟩ responseFormat [Arg.string, Arg.int64, Arg.int64] = .err e r1 := by
  apply Fscanf_err_of_loop
  rw [responseFormat_eq, newScanState_st]
  have s10 : isSpace 10 = true := by decide
  have hF := doScanfLoop_FILE 22
    [10, 70, 82, 79, 77, 32, 37, 100, 10, 83, 73, 90, 69, 32, 37, 100, 10] [Arg.int64, Arg.int64]
    [] f hne hws 10 (70 :: 82 :: 79 :: 77 :: 32 :: c0 :: tl) false [] 0 (by norm_num) s10
  obtain ⟨e, s2, hE⟩ := doScanfLoop_int_eof 19 70 82 79 77
    (by norm_num) (by norm_num) (by norm_num) (by norm_num)
    (by decide) (by decide) (by decide) (by decide) (by norm_num) (by norm_num) (by norm_num)
    (by norm_num) 83 (by decide) (by norm_num) [73, 90, 69, 32, 37, 100, 10] [Arg.int64]
    ([] ++ [Val.str (encodeRunes (runes f))]) c0 tl h (encodeRunes (runes f))
  exact ⟨e, s2, hF.trans hE⟩

/-- The response header is cut behind the newline that ends its first number,
in the keyword `SIZE`, behind it, or behind a minus sign. -/
theorem Fscanf_cut_size (f : List Nat) (hne : f ≠ [])
    (hws : ∀ r ∈ runes f, isSpace r = false) (n : Int) (h1 : -2 ^ 63 ≤ n) (h2 : n < 2 ^ 63)
    (c0 : Nat) (tl : List Nat) (j : Nat) (hj : j ≤ 5 ∨ (j = 6 ∧ c0 = 45)) :
    ∃ e r1, Fscanf ⟨70 :: 73 :: 76 :: 69 :: 32 :: (f ++ 10 :: 70 :: 82 :: 79 :: 77 :: 32 ::
        (fmtInt n ++ 10 :: List.take j (83 :: 73 :: 90 :: 69 :: 32 :: c0 :: tl))), false⟩
      responseFormat [Arg.string, Arg.int64, Arg.int64] = .err e r1 := by
  apply Fscanf_err_of_loop
  rw [responseFormat_eq, newScanState_st]
  have s10 : isSpace 10 = true := by decide
  have hF := doScanfLoop_FILE 22
    [10, 70, 82, 79, 77, 32, 37, 100, 10, 83, 73, 90, 69, 32, 37, 100, 10] [Arg.int64, Arg.int64]
    [] f hne hws 10 (70 :: 82 :: 79 :: 77 :: 32 ::
      (fmtInt n ++ 10 :: List.take j (83 :: 73 :: 90 :: 69 :: 32 :: c0 :: tl))) false [] 0
    (by norm_num) s10
  have hI := doScanfLoop_int 20 70 82 79 77 (by norm_num) (by norm_num) (by norm_num) (by norm_num)
    (by decide) (by decide) (by decide) (by decide) (by norm_num) (by norm_num) (by norm_num)
    (by norm_num) [10, 83, 73, 90, 69, 32, 37, 100, 10] [Arg.int64]
    ([] ++ [Val.str (encodeRunes (runes f))]) n h1 h2 10
    (List.take j (83 :: 73 :: 90 :: 69 :: 32 :: c0 :: tl)) false
    (encodeRunes (runes f)) (by norm_num) nl_not_digit
  obtain ⟨e, s2, hE⟩ := doScanfLoop_keyword_cut 18 83 73 90 69
    (by norm_num) (by norm_num) (by norm_num) (by norm_num)
    (by decide) (by decide) (by decide) (by decide) (by norm_num) (by norm_num) (by norm_num)
    (by norm_num) [10] [] ([] ++ [Val.str (encodeRunes (runes f))] ++ [Val.int n])
    (List.take j (83 :: 73 :: 90 :: 69 :: 32 :: c0 :: tl)) (fmtInt n)
    (take_keyword 83 73 90 69 c0 tl j hj)
  exact ⟨e, s2, (hF.trans hI).trans hE⟩

/-- The streams that end in the text `FILE ` or before: the scan fails. -/
theorem read_cut_FILE : ∀ d ∈ ([[], [70], [70, 73], [70, 73, 76], [70, 73, 76, 69],
      [70, 73, 76, 69, 32]] : List (List Nat)),
    ((readRequestHeader ⟨d, false⟩).1.2 ≠ none ∧ (readRequestHeader ⟨d, false⟩).1.1 = ⟨[], 0⟩) ∧
    ((readResponseHeader ⟨d, false⟩).1.2 ≠ none ∧
      (readResponseHeader ⟨d, false⟩).1.1 = ⟨[], 0, 0⟩) := by
  decide

theorem take_FILE (k : Nat) (hk : k ≤ 5) (X : List Nat) :
    List.take k (70 :: 73 :: 76 :: 69 :: 32 :: X) ∈ ([[], [70], [70, 73], [70, 73, 76],
      [70, 73, 76, 69], [70, 73, 76, 69, 32]] : List (List Nat)) := by
  interval_cases k <;> simp

theorem take_in_number (f Z : List Nat) (m : Nat) (a b c d e g1 g2 g3 g4 g5 g6 : Nat) :
    List.take (f.length + (m + 6) + 5)
        (a :: b :: c :: d :: e :: (f ++ g1 :: g2 :: g3 :: g4 :: g5 :: g6 :: Z)) =
      a :: b :: c :: d :: e :: (f ++ g1 :: g2 :: g3 :: g4 :: g5 :: g6 :: List.take m Z) := by
  rw [take_add5, List.take_append, take_add6]

/-- C10, as stated, fails: the request header {a, 5} without its final
newline is a proper prefix of the encoding, and readRequestHeader reads the
header {a, 5} from it without error, since the end of the input stands for
the newline of the format; and the encoding of {a, 57} cut behind the digit 5
is read as the header {a, 5}. -/
theorem C10_counterexample :
    (requestHeader.asBytes ⟨ascii "a", 5⟩).take 13 = ascii "FILE a\nFROM 5" ∧
      13 < (requestHeader.asBytes ⟨ascii "a", 5⟩).length ∧
      readRequestHeader ⟨(requestHeader.asBytes ⟨ascii "a", 5⟩).take 13, false⟩ =
        ((⟨ascii "a", 5⟩, none), ⟨[], false⟩) ∧
      13 < (requestHeader.asBytes ⟨ascii "a", 57⟩).length ∧
      readRequestHeader ⟨(requestHeader.asBytes ⟨ascii "a", 57⟩).take 13, false⟩ =
        ((⟨ascii "a", 5⟩, none), ⟨[], false⟩) := by
  decide

/-- Every prefix of a request encoding that ends before the first digit of
`from` is rejected. -/
theorem readRequestHeader_cut (f : List Nat) (hne : f ≠ [])
    (hws : ∀ r ∈ runes f, isSpace r = false) (n : Int)
    (k : Nat) (hk : k ≤ 11 + f.length + (if n < 0 then 1 else 0)) :
    (readRequestHeader ⟨(requestHeader.asBytes ⟨f, n⟩).take k, false⟩).1.2 ≠ none ∧
      (readRequestHeader ⟨(requestHeader.asBytes ⟨f, n⟩).take k, false⟩).1.1 = ⟨[], 0⟩ := by
  have hreq := requestHeader_asBytes_eq f n []
  simp only [List.append_nil] at hreq
  rw [hreq]
  by_cases c1 : k ≤ 5
  · exact (read_cut_FILE _ (take_FILE k c1 _)).1
  apply readRequestHeader_of_err
  rw [requestFormat_eq]
  by_cases c2 : k ≤ 5 + f.length
  · obtain ⟨j, rfl⟩ : ∃ j, k = j + 5 := ⟨k - 5, by omega⟩
    exact Fscanf_cut_name 70 [82, 79, 77, 32, 37, 100, 10] [Arg.int64] (by decide)
      (by norm_num) f hws _ j (by omega) (by omega)
  · obtain ⟨j, rfl⟩ : ∃ j, k = f.length + (j + 1) + 5 := ⟨k - f.length - 6, by omega⟩
    rcases fmtInt_cases n with ⟨hn, d0, ds, e, _⟩ | ⟨hn, d0, ds, e, _⟩
    · rw [e]
      simp only [hn, if_true] at hk
      have hj : j ≤ 5 ∨ (j = 6 ∧ 45 = 45) := by omega
      simp only [List.cons_append]
      exact Fscanf_cut_keyword [10] [] f hne hws 45 (d0 :: (ds ++ [10])) j hj
    · rw [e]
      simp only [hn, if_false] at hk
      have hj : j ≤ 5 ∨ (j = 6 ∧ d0 = 45) := by omega
      simp only [List.cons_append]
      exact Fscanf_cut_keyword [10] [] f hne hws d0 (ds ++ [10]) j hj

/-- Every prefix of a response encoding that ends before the first digit of
`size` is rejected. -/
theorem readResponseHeader_cut (f : List Nat) (hne : f ≠ [])
    (hws : ∀ r ∈ runes f, isSpace r = false)
    (n sz : Int) (h1 : -2 ^ 63 ≤ n) (h2 : n < 2 ^ 63)
    (k2 : Nat) (hk2 : k2 ≤ 17 + f.length + (fmtInt n).length + (if sz < 0 then 1 else 0)) :
    (readResponseHeader ⟨(responseHeader.asBytes ⟨f, n, sz⟩).take k2, false⟩).1.2 ≠ none ∧
      (readResponseHeader ⟨(responseHeader.asBytes ⟨f, n, sz⟩).take k2, false⟩).1.1 =
        ⟨[], 0, 0⟩ := by
  have hresp := responseHeader_asBytes_eq f n sz []
  simp only [List.append_nil] at hresp
  rw [hresp]
  by_cases c1 : k2 ≤ 5
  · exact (read_cut_FILE _ (take_FILE k2 c1 _)).2
  apply readResponseHeader_of_err
  by_cases c2 : k2 ≤ 5 + f.length
  · obtain ⟨j, rfl⟩ : ∃ j, k2 = j + 5 := ⟨k2 - 5, by omega⟩
    rw [responseFormat_eq]
    exact Fscanf_cut_name 70
      [82, 79, 77, 32, 37, 100, 10, 83, 73, 90, 69, 32, 37, 100, 10] [Arg.int64, Arg.int64]
      (by decide) (by norm_num) f hws _ j (by omega) (by omega)
  by_cases c3 : k2 ≤ 11 + f.length + (if n < 0 then 1 else 0)
  · obtain ⟨j, rfl⟩ : ∃ j, k2 = f.length + (j + 1) + 5 := ⟨k2 - f.length - 6, by omega⟩
    rw [responseFormat_eq]
    rcases fmtInt_cases n with ⟨hn, d0, ds, e, _⟩ | ⟨hn, d0, ds, e, _⟩
    · rw [e]
      simp only [hn, if_true] at c3
      have hj : j ≤ 5 ∨ (j = 6 ∧ 45 = 45) := by omega
      simp only [List.cons_append]
      exact Fscanf_cut_keyword [10, 83, 73, 90, 69, 32, 37, 100, 10] [Arg.int64] f hne hws 45
        (d0 :: (ds ++ 10 :: 83 :: 73 :: 90 :: 69 :: 32 :: (fmtInt sz ++ [10]))) j hj
    · rw [e]
      simp only [hn, if_false] at c3
      have hj : j ≤ 5 ∨ (j = 6 ∧ d0 = 45) := by omega
      simp only [List.cons_append]
      exact Fscanf_cut_keyword [10, 83, 73, 90, 69, 32, 37, 100, 10] [Arg.int64] f hne hws d0
        (ds ++ 10 :: 83 :: 73 :: 90 :: 69 :: 32 :: (fmtInt sz ++ [10])) j hj
  by_cases c4 : k2 ≤ 11 + f.length + (fmtInt n).length
  · obtain ⟨m, rfl⟩ : ∃ m, k2 = f.length + (m + 6) + 5 := ⟨k2 - f.length - 11, by omega⟩
    have hm : m ≤ (fmtInt n).length := by omega
    rw [take_in_number, List.take_append_of_le_length hm]
    rcases fmtInt_cases n with ⟨hn, d0, ds, e, hd⟩ | ⟨hn, d0, ds, e, hd⟩
    · simp only [hn, if_true] at c3
      obtain ⟨m, rfl⟩ : ∃ m1, m = m1 + 2 := ⟨m - 2, by omega⟩
      rw [e, List.take_succ_cons]
      exact Fscanf_cut_digits f hne hws 45 _ (Or.inr ⟨rfl, by simp,
        allDigits_take (d0 :: ds) hd (m + 1)⟩)
    · simp only [hn, if_false] at c3
      obtain ⟨m, rfl⟩ : ∃ m1, m = m1 + 1 := ⟨m - 1, by omega⟩
      rw [e, List.take_succ_cons]
      exact Fscanf_cut_digits f hne hws d0 _
        (Or.inl (allDigits_take (d0 :: ds) hd (m + 1)))
  · obtain ⟨j, rfl⟩ : ∃ j, k2 = f.length + (((fmtInt n).length + (j + 1)) + 6) + 5 :=
      ⟨k2 - f.length - (fmtInt n).length - 12, by omega⟩
    rw [take_in_number, List.take_append, List.take_succ_cons]
    rcases fmtInt_cases sz with ⟨hn, d0, ds, e, _⟩ | ⟨hn, d0, ds, e, _⟩
    · rw [e]
      simp only [hn, if_true] at hk2
      have hj : j ≤ 5 ∨ (j = 6 ∧ 45 = 45) := by omega
      simp only [List.cons_append]
      exact Fscanf_cut_size f hne hws n h1 h2 45 (d0 :: (ds ++ [10])) j hj
    · rw [e]
      simp only [hn, if_false] at hk2
      have hj : j ≤ 5 ∨ (j = 6 ∧ d0 = 45) := by omega
      simp only [List.cons_append]
      exact Fscanf_cut_size f hne hws n h1 h2 d0 (ds ++ [10]) j hj

/-- C10, amended. Premature end of stream: for every header with a non-empty
file name without white space, every prefix of its request encoding that ends
before the first digit of `from`, on a stream that ends behind it, makes
readRequestHeader return a non-nil error and the zero header; and every prefix
of its response encoding that ends before the first digit of `size` makes
readResponseHeader return a non-nil error and the zero header. The prefix of
length `k` is `take k`; the first digit of `from` stands behind the 11 bytes
of `FILE `, newline and `FROM `, the name, and a minus sign if there is one. -/
theorem C10_truncated_header (f : List Nat) (hne : f ≠ []) (hws : whitespaceFree f = true)
    (n sz : Int) (h1 : -2 ^ 63 ≤ n) (h2 : n < 2 ^ 63)
    (k : Nat) (hk : k ≤ 11 + f.length + (if n < 0 then 1 else 0))
    (k2 : Nat) (hk2 : k2 ≤ 17 + f.length + (fmtInt n).length + (if sz < 0 then 1 else 0)) :
    ((readRequestHeader ⟨(requestHeader.asBytes ⟨f, n⟩).take k, false⟩).1.2 ≠ none ∧
      (readRequestHeader ⟨(requestHeader.asBytes ⟨f, n⟩).take k, false⟩).1.1 = ⟨[], 0⟩) ∧
    ((readResponseHeader ⟨(responseHeader.asBytes ⟨f, n, sz⟩).take k2, false⟩).1.2 ≠ none ∧
      (readResponseHeader ⟨(responseHeader.asBytes ⟨f, n, sz⟩).take k2, false⟩).1.1 =
        ⟨[], 0, 0⟩) := by
  rw [whitespaceFree_iff] at hws
  exact ⟨readRequestHeader_cut f hne hws n k hk,
    readResponseHeader_cut f hne hws n sz h1 h2 k2 hk2⟩

/-- C10, amended, on the header {a, 40, 60}: the request cut behind `FILE a`,
newline, `FR`, and the response cut behind `FILE a`, newline, `FROM 40`. -/
theorem C10_witness :
    ((readRequestHeader ⟨(requestHeader.asBytes ⟨[97], 40⟩).take 9, false⟩).1.2 ≠ none ∧
      (readRequestHeader ⟨(requestHeader.asBytes ⟨[97], 40⟩).take 9, false⟩).1.1 = ⟨[], 0⟩) ∧
    ((readResponseHeader ⟨(responseHeader.asBytes ⟨[97], 40, 60⟩).take 14, false⟩).1.2 ≠ none ∧
      (readResponseHeader ⟨(responseHeader.asBytes ⟨[97], 40, 60⟩).take 14, false⟩).1.1 =
        ⟨[], 0, 0⟩) :=
  C10_truncated_header [97] (by decide) (by decide) 40 60 (by norm_num) (by norm_num)
    9 (by decide) 14 (by decide)

end Sendfile
